import Mathlib

/-!
# doc_converter: element model, Word document loader and legacy text reconstructor

A shallow embedding of `document_elements.hpp`, `basic_document.hpp` and
`word_document.cpp`.  `std::string` is a list of characters, `int` is `Int`
(with the range made explicit where a conversion can leave it), member
functions that mutate the object take the object and return the new one.
-/

set_option autoImplicit false
set_option linter.dupNamespace false

namespace DocConverter

/-- The type of `std::string` values. -/
abbrev Str := List Char

/-! ## common.hpp / document_elements.hpp -/

/-- The enum `ElementType` of `common.hpp`. -/
inductive ElementType
  | Text
  | Paragraph
  | Heading
  | Table
  | Image
  | List
  deriving DecidableEq, Repr

/-- The class `TextElement`: one string. -/
structure TextElement where
  text_ : Str
  deriving DecidableEq, Repr

/-- The accessor `TextElement::getText`. -/
def TextElement.getText (e : TextElement) : Str := e.text_

/-- The class `ParagraphElement`: the vector `texts_`, empty on construction. -/
structure ParagraphElement where
  texts_ : List TextElement := []
  deriving DecidableEq, Repr

/-- The method `ParagraphElement::addText`: `texts_.push_back(make_shared<TextElement>(text))`. -/
def ParagraphElement.addText (p : ParagraphElement) (text : Str) : ParagraphElement :=
  { texts_ := p.texts_ ++ [{ text_ := text }] }

/-- The accessor `ParagraphElement::getTexts`. -/
def ParagraphElement.getTexts (p : ParagraphElement) : List TextElement := p.texts_

/-- The class `HeadingElement`: a text and a level. -/
structure HeadingElement where
  text_ : Str
  level_ : Int
  deriving DecidableEq, Repr

/-- The constructor `HeadingElement(text, level)`:
`text_(text), level_(std::min(std::max(level, 1), 6))`. -/
def HeadingElement.HeadingElement (text : Str) (level : Int) : DocConverter.HeadingElement :=
  { text_ := text, level_ := min (max level 1) 6 }

/-- The accessor `HeadingElement::getText`. -/
def HeadingElement.getText (h : DocConverter.HeadingElement) : Str := h.text_

/-- The accessor `HeadingElement::getLevel`. -/
def HeadingElement.getLevel (h : DocConverter.HeadingElement) : Int := h.level_

/-- The class `TableCell`: one text, empty by default. -/
structure TableCell where
  text_ : Str := []
  deriving DecidableEq, Repr

/-- The accessor `TableCell::getText`. -/
def TableCell.getText (c : TableCell) : Str := c.text_

/-- The class `TableRow`: the vector `cells_`. -/
structure TableRow where
  cells_ : List TableCell := []
  deriving DecidableEq, Repr

/-- The method `TableRow::addCell`: `cells_.push_back(cell)`. -/
def TableRow.addCell (r : TableRow) (cell : TableCell) : TableRow :=
  { cells_ := r.cells_ ++ [cell] }

/-- The accessor `TableRow::getCells`. -/
def TableRow.getCells (r : TableRow) : List TableCell := r.cells_

/-- The class `TableElement`: the vector `rows_`. -/
structure TableElement where
  rows_ : List TableRow := []
  deriving DecidableEq, Repr

/-- The method `TableElement::addRow`: `rows_.push_back(row)`. -/
def TableElement.addRow (t : TableElement) (row : TableRow) : TableElement :=
  { rows_ := t.rows_ ++ [row] }

/-- The accessor `TableElement::getRows`. -/
def TableElement.getRows (t : TableElement) : List TableRow := t.rows_

/-- The class `ImageElement`: bytes (`uint8_t`, as naturals below 256), format, width, height. -/
structure ImageElement where
  imageData_ : List Nat
  format_ : Str
  width_ : Int
  height_ : Int
  deriving DecidableEq, Repr

/-- The concrete subclasses of `DocumentElement` (no `ListElement` class exists). -/
inductive DocumentElement
  | Text (e : TextElement)
  | Paragraph (e : ParagraphElement)
  | Heading (e : HeadingElement)
  | Table (e : TableElement)
  | Image (e : ImageElement)
  deriving DecidableEq, Repr

/-- The virtual `getType` of each subclass. -/
def DocumentElement.getType : DocumentElement → ElementType
  | .Text _ => ElementType.Text
  | .Paragraph _ => ElementType.Paragraph
  | .Heading _ => ElementType.Heading
  | .Table _ => ElementType.Table
  | .Image _ => ElementType.Image

/-! ## Library functions used by word_document.cpp and basic_document.hpp -/

/-- The lines that repeated `std::getline(stream, line)` calls deliver until the call
fails: each call extracts up to the next newline character, which it consumes and does
not store; a call on an exhausted stream extracts nothing and fails, so a final newline
is not followed by an empty line. -/
def getLines : Str → List Str
  | [] => []
  | c :: cs =>
    if c = '\n' then [] :: getLines cs
    else
      match getLines cs with
      | [] => [[c]]
      | l :: ls => (c :: l) :: ls

/-- The call `s.find_first_not_of(chars)`: the position of the first character of `s`
that is not in `chars`; the result `none` stands for `std::string::npos`. -/
def find_first_not_of : Str → Str → Option Nat
  | [], _ => none
  | c :: cs, chars =>
    if chars.contains c then (find_first_not_of cs chars).map (fun i => i + 1) else some 0

/-- The call `s.substr(pos)` with `pos` as delivered by a find function: the characters
from `pos` on; `std::out_of_range` (here `none`) when `pos > s.size()`, which is the case
for `npos` whatever the string. -/
def substr (s : Str) (pos : Option Nat) : Option Str :=
  match pos with
  | none => none
  | some i => if i > s.length then none else some (s.drop i)

/-- The call `s.find_last_of(chars)`: the position of the last character of `s` that is in
`chars`; `none` stands for `std::string::npos`. -/
def find_last_of : Str → Str → Option Nat
  | [], _ => none
  | c :: cs, chars =>
    match find_last_of cs chars with
    | some i => some (i + 1)
    | none => if chars.contains c then some 0 else none

/-- The C predicate `isspace` in the C locale. -/
def isspace (c : Char) : Bool :=
  c = ' ' || c = '\t' || c = '\n' || c = Char.ofNat 11 || c = Char.ofNat 12 || c = '\r'

/-- The value of a run of decimal digits, most significant first. -/
def digitsValue (ds : Str) : Nat :=
  ds.foldl (fun acc c => 10 * acc + (c.toNat - 48)) 0

/-- The C function `atoi`: skip leading white space, read an optional sign and the
decimal digits that follow, stop at the first other character; no digits give 0.  A value
outside the range of `int` is undefined behaviour in C, here `none`. -/
def atoi (s : Str) : Option Int :=
  let t := s.dropWhile isspace
  let signed : Bool × Str :=
    match t with
    | '-' :: r => (true, r)
    | '+' :: r => (false, r)
    | _ => (false, t)
  let v : Int := (digitsValue (signed.2.takeWhile Char.isDigit) : Nat)
  let r : Int := if signed.1 then -v else v
  if -2147483648 ≤ r ∧ r ≤ 2147483647 then some r else none

/-- The node kinds of libxml2 (`xmlElementType`) that occur below a document root. -/
inductive XmlElementType
  | XML_ELEMENT_NODE
  | XML_TEXT_NODE
  | XML_CDATA_SECTION_NODE
  | XML_ENTITY_REF_NODE
  | XML_PI_NODE
  | XML_COMMENT_NODE
  deriving DecidableEq, Repr

/-- A node of a parsed XML tree (`xmlNode`): kind, name, attributes with their values in
document order, content (a null pointer is `none`) and children in sibling order. -/
inductive XmlNode
  | mk (type : XmlElementType) (name : Str) (properties : List (Str × Str))
      (content : Option Str) (children : List XmlNode)

/-- The field `node->type`. -/
def XmlNode.type : XmlNode → XmlElementType
  | .mk t _ _ _ _ => t

/-- The field `node->name`. -/
def XmlNode.name : XmlNode → Str
  | .mk _ n _ _ _ => n

/-- The field `node->properties`. -/
def XmlNode.properties : XmlNode → List (Str × Str)
  | .mk _ _ ps _ _ => ps

/-- The field `node->content`. -/
def XmlNode.content : XmlNode → Option Str
  | .mk _ _ _ c _ => c

/-- The list that a walk `for (c = node->children; c; c = c->next)` visits. -/
def XmlNode.children : XmlNode → List XmlNode
  | .mk _ _ _ _ cs => cs

/-- A parsed document (`xmlDoc`): `xmlDocGetRootElement` gives its root or a null pointer. -/
structure XmlDoc where
  root : Option XmlNode

/-- The libxml2 call `xmlGetProp(node, name)`: the value of the first attribute called
`name`, a null pointer (`none`) when there is none. -/
def xmlGetProp (node : XmlNode) (name : Str) : Option Str :=
  (node.properties.find? (fun p => p.1 = name)).map (fun p => p.2)

/-- The libxml2 call `xmlStrstr(str, val)` on a non-null `str`: a pointer to the first
occurrence of `val` in `str` (the suffix of `str` that starts there), a null pointer
(`none`) when `val` does not occur. -/
def xmlStrstr : Str → Str → Option Str
  | [], val => if val = [] then some [] else none
  | c :: cs, val => if val.isPrefixOf (c :: cs) then some (c :: cs) else xmlStrstr cs val

mutual
/-- The text that a node below an element contributes to the content of that element:
an element the texts below it, a text, CDATA or entity-reference node its own content,
any other node nothing. -/
def xmlNodeText : XmlNode → Str
  | .mk type _ _ content children =>
    match type with
    | .XML_ELEMENT_NODE => xmlNodeListText children
    | .XML_TEXT_NODE => content.getD []
    | .XML_CDATA_SECTION_NODE => content.getD []
    | .XML_ENTITY_REF_NODE => content.getD []
    | .XML_PI_NODE => []
    | .XML_COMMENT_NODE => []
/-- The texts of a list of sibling nodes, concatenated in document order. -/
def xmlNodeListText : List XmlNode → Str
  | [] => []
  | node :: rest => xmlNodeText node ++ xmlNodeListText rest
end

/-- The libxml2 call `xmlNodeGetContent(node)`: for an element the contents of the text,
CDATA and entity-reference nodes below it, concatenated in document order; for any other
node kind that node's own content. -/
def xmlNodeGetContent (node : XmlNode) : Option Str :=
  match node.type with
  | .XML_ELEMENT_NODE => some (xmlNodeListText node.children)
  | _ => node.content

/-! ## The environment of a load -/

/-- What `popen` of a command and reading its output to the end gives: no pipe, or the
captured standard output together with the status that `pclose` returns. -/
inductive PipeResult
  | popenFailed
  | exited (output : Str) (status : Int)

/-- The world outside the program: the file system, the XML parser of libxml2 and the
shell that runs the legacy text extractor. -/
structure Env where
  /-- The predicate `std::filesystem::exists`. -/
  fileExists : Str → Bool
  /-- Opening a file with `std::ifstream` and reading it to the end; `none` when the
  stream is not open. -/
  readFile : Str → Option Str
  /-- The call `xmlReadMemory` on a buffer; `none` is the null pointer. -/
  xmlReadMemory : Str → Option XmlDoc
  /-- The call `popen(cmd, "r")`, the `fgets` loop and `pclose`. -/
  popen : Str → PipeResult

/-- How a call ends: it returns, a C++ exception leaves it (with the document as it is at
the throw), or it runs into undefined behaviour. -/
inductive Outcome (α : Type) (σ : Type)
  | returned (a : α)
  | threw (what : Str) (doc : σ)
  | undefined
  deriving DecidableEq

/-! ## word_document.hpp / word_document.cpp -/

/-- The members of `WordDocument`. -/
structure WordDocument where
  title_ : Str := []
  elements_ : List DocumentElement := []
  docxPath_ : Str := []
  deriving DecidableEq, Repr

namespace WordDocument

/-- The constructor `WordDocument(title)`. -/
def WordDocument (title : Str) : DocConverter.WordDocument :=
  { title_ := title }

/-- The accessor `getTitle`. -/
def getTitle (doc : DocConverter.WordDocument) : Str := doc.title_

/-- The accessor `getElements`. -/
def getElements (doc : DocConverter.WordDocument) : List DocumentElement := doc.elements_

/-- The method `addElement`: `elements_.push_back(element)`. -/
def addElement (doc : DocConverter.WordDocument) (element : DocumentElement) :
    DocConverter.WordDocument :=
  { doc with elements_ := doc.elements_ ++ [element] }

/-- The method `getNodeText`: the content of the node, the empty string for a null
pointer. -/
def getNodeText (node : XmlNode) : Str :=
  match xmlNodeGetContent node with
  | some content => content
  | none => []

/-- The paragraph that the else branch of `parseParagraph` fills: one `addText` per child
that is a text node with content, in sibling order. -/
def paragraphOfChildren : List XmlNode → ParagraphElement → ParagraphElement
  | [], paragraph => paragraph
  | child :: rest, paragraph =>
    match child.type, child.content with
    | .XML_TEXT_NODE, some text => paragraphOfChildren rest (paragraph.addText text)
    | _, _ => paragraphOfChildren rest paragraph

/-- The method `parseParagraph`.  In the heading branch the level string is
`xmlStrstr(style, " ") + 1`: when the style holds no space this adds one to a null pointer
and `atoi` reads from there, which is undefined. -/
def parseParagraph (node : XmlNode) (doc : DocConverter.WordDocument) :
    Outcome DocConverter.WordDocument DocConverter.WordDocument :=
  let style := xmlGetProp node "style".toList
  if (style.bind (fun s => xmlStrstr s "Heading".toList)).isSome then
    match (style.bind (fun s => xmlStrstr s " ".toList)) with
    | none => .undefined
    | some atSpace =>
      match atoi (atSpace.drop 1) with
      | none => .undefined
      | some level =>
        .returned (doc.addElement (.Heading (HeadingElement.HeadingElement (getNodeText node) level)))
  else
    let paragraph := paragraphOfChildren node.children {}
    if !paragraph.getTexts.isEmpty then .returned (doc.addElement (.Paragraph paragraph))
    else .returned doc

/-- The loop of `parseTableCell`: the texts of the `p` children, a newline before each
one that is added to a non-empty text. -/
def parseTableCellLoop : List XmlNode → Str → Str
  | [], cellText => cellText
  | contentNode :: rest, cellText =>
    if contentNode.type = .XML_ELEMENT_NODE ∧ contentNode.name = "p".toList then
      let paragraphText := getNodeText contentNode
      parseTableCellLoop rest ((if !cellText.isEmpty then cellText ++ "\n".toList else cellText)
        ++ paragraphText)
    else parseTableCellLoop rest cellText

/-- The method `parseTableCell`. -/
def parseTableCell (node : XmlNode) : TableCell :=
  { text_ := parseTableCellLoop node.children [] }

/-- The loop of `parseTableRow` over the children of a `tr` node. -/
def parseTableRowLoop : List XmlNode → TableRow → TableRow
  | [], row => row
  | cellNode :: rest, row =>
    if cellNode.type = .XML_ELEMENT_NODE ∧ cellNode.name = "tc".toList then
      parseTableRowLoop rest (row.addCell (parseTableCell cellNode))
    else parseTableRowLoop rest row

/-- The method `parseTableRow`. -/
def parseTableRow (node : XmlNode) : TableRow :=
  parseTableRowLoop node.children {}

/-- The loop of `parseTable` over the children of a `tbl` node. -/
def parseTableLoop : List XmlNode → TableElement → TableElement
  | [], table => table
  | rowNode :: rest, table =>
    if rowNode.type = .XML_ELEMENT_NODE ∧ rowNode.name = "tr".toList then
      parseTableLoop rest (table.addRow (parseTableRow rowNode))
    else parseTableLoop rest table

/-- The method `parseTable`. -/
def parseTable (node : XmlNode) (doc : DocConverter.WordDocument) : DocConverter.WordDocument :=
  doc.addElement (.Table (parseTableLoop node.children {}))

/-- The method `extractImageData`: the file `word/media/image<id>.<format>` below the
directory part of `docxPath_` (`find_last_of("/") + 1` is 0 for `npos`), as bytes; the
empty vector when the file cannot be opened. -/
def extractImageData (env : Env) (doc : DocConverter.WordDocument) (imageId format : Str) :
    List Nat :=
  let count :=
    match find_last_of doc.docxPath_ "/".toList with
    | some i => i + 1
    | none => 0
  let imagePath :=
    doc.docxPath_.take count ++ "word/media/image".toList ++ imageId ++ ".".toList ++ format
  match env.readFile imagePath with
  | none => []
  | some data => data.map (fun c => c.toNat % 256)

/-- The first child that is an element called `name`: the target of the three loops of
`parseImage`, each of which stops at its first match. -/
def firstChildNamed (node : XmlNode) (name : Str) : Option XmlNode :=
  node.children.find? (fun child => child.type = .XML_ELEMENT_NODE ∧ child.name = name)

/-- The format that `parseImage` derives from the first `ext` child. -/
def imageFormat (node : XmlNode) : Str :=
  match firstChildNamed node "ext".toList with
  | none => "png".toList
  | some child =>
    match xmlGetProp child "uri".toList with
    | none => "png".toList
    | some uri =>
      if uri = "http://schemas.openxmlformats.org/drawingml/2006/wordprocessingDrawing".toList then
        "png".toList
      else if uri = "http://schemas.openxmlformats.org/drawingml/2006/jpeg".toList then
        "jpg".toList
      else "png".toList

/-- The width and height that `parseImage` derives from the first `extent` child:
`atoi(cx) / 9525` and `atoi(cy) / 9525` with the division of C; `none` when `atoi` is
undefined. -/
def imageSize (node : XmlNode) : Option (Int × Int) :=
  match firstChildNamed node "extent".toList with
  | none => some (0, 0)
  | some child =>
    match xmlGetProp child "cx".toList, xmlGetProp child "cy".toList with
    | some cx, some cy =>
      match atoi cx, atoi cy with
      | some x, some y => some (Int.tdiv x 9525, Int.tdiv y 9525)
      | _, _ => none
    | _, _ => some (0, 0)

/-- The method `parseImage`. -/
def parseImage (env : Env) (node : XmlNode) (doc : DocConverter.WordDocument) :
    Outcome DocConverter.WordDocument DocConverter.WordDocument :=
  match firstChildNamed node "blip".toList with
  | none => .returned doc
  | some blipNode =>
    match xmlGetProp blipNode "embed".toList with
    | none => .returned doc
    | some imageId =>
      let format := imageFormat node
      match imageSize node with
      | none => .undefined
      | some (width, height) =>
        let imageData := extractImageData env doc imageId format
        if !imageData.isEmpty then
          .returned (doc.addElement (.Image
            { imageData_ := imageData, format_ := format, width_ := width, height_ := height }))
        else .returned doc

/-- The loop of `parseDocument` over the children of the root. -/
def parseDocumentLoop (env : Env) : List XmlNode → DocConverter.WordDocument →
    Outcome DocConverter.WordDocument DocConverter.WordDocument
  | [], doc => .returned doc
  | node :: rest, doc =>
    if node.type = .XML_ELEMENT_NODE then
      if node.name = "p".toList then
        match parseParagraph node doc with
        | .returned doc1 => parseDocumentLoop env rest doc1
        | other => other
      else if node.name = "tbl".toList then
        parseDocumentLoop env rest (parseTable node doc)
      else if node.name = "drawing".toList then
        match parseImage env node doc with
        | .returned doc1 => parseDocumentLoop env rest doc1
        | other => other
      else parseDocumentLoop env rest doc
    else parseDocumentLoop env rest doc

/-- The method `parseDocument`: nothing for a document without root. -/
def parseDocument (env : Env) (xmlDoc : XmlDoc) (doc : DocConverter.WordDocument) :
    Outcome DocConverter.WordDocument DocConverter.WordDocument :=
  match xmlDoc.root with
  | none => .returned doc
  | some root => parseDocumentLoop env root.children doc

/-- The paragraph with the single text `currentParagraph` that the reconstructor pushes. -/
def paragraphOf (currentParagraph : Str) : DocumentElement :=
  .Paragraph (ParagraphElement.addText {} currentParagraph)

/-- The variables of the loop of `extractTextFromAntiwordOutput`. -/
structure ExtractState where
  currentParagraph : Str
  elements_ : List DocumentElement
  deriving DecidableEq, Repr

/-- The accumulator flushed: a non-empty `currentParagraph` becomes a paragraph and is
cleared. -/
def flush (st : ExtractState) : ExtractState :=
  if !st.currentParagraph.isEmpty then
    { currentParagraph := [], elements_ := st.elements_ ++ [paragraphOf st.currentParagraph] }
  else st

/-- The line appended to the accumulator, after one space when that is not empty. -/
def appendLine (st : ExtractState) (line : Str) : ExtractState :=
  { st with currentParagraph :=
      (if !st.currentParagraph.isEmpty then st.currentParagraph ++ " ".toList
       else st.currentParagraph) ++ line }

/-- One pass of the loop body of `extractTextFromAntiwordOutput` on `line`; the error is
the `std::out_of_range` of `substr`, with the element list at the throw. -/
def extractLine (st : ExtractState) (line : Str) : Except (List DocumentElement) ExtractState :=
  match line with
  | [] => .ok (flush st)
  | c :: _ =>
    if c = ' ' ∨ c = '\t' then
      let st1 := flush st
      match substr line (find_first_not_of line " \t".toList) with
      | none => .error st1.elements_
      | some stripped => .ok (appendLine st1 stripped)
    else .ok (appendLine st line)

/-- The loop of `extractTextFromAntiwordOutput` over the lines that `getline` delivers. -/
def extractLoop : List Str → ExtractState → Except (List DocumentElement) ExtractState
  | [], st => .ok st
  | line :: rest, st =>
    match extractLine st line with
    | .ok st1 => extractLoop rest st1
    | .error elements => .error elements

/-- The method `extractTextFromAntiwordOutput`. -/
def extractTextFromAntiwordOutput (output : Str) (doc : DocConverter.WordDocument) :
    Outcome DocConverter.WordDocument DocConverter.WordDocument :=
  match extractLoop (getLines output) { currentParagraph := [], elements_ := doc.elements_ } with
  | .error elements => .threw "basic_string::substr".toList { doc with elements_ := elements }
  | .ok st => .returned { doc with elements_ := (flush st).elements_ }

/-- The method `parseDocDocument`. -/
def parseDocDocument (env : Env) (filePath : Str) (doc : DocConverter.WordDocument) :
    Outcome DocConverter.WordDocument DocConverter.WordDocument :=
  match env.popen ("antiword -t ".toList ++ filePath) with
  | .popenFailed => .threw "Failed to execute antiword command".toList doc
  | .exited output status =>
    if status ≠ 0 then .threw "antiword command failed".toList doc
    else extractTextFromAntiwordOutput output doc

/-- The try block of `loadFromFile`. -/
def loadFromFileTry (env : Env) (filePath : Str) (doc : DocConverter.WordDocument) :
    Outcome DocConverter.WordDocument DocConverter.WordDocument :=
  if !env.fileExists filePath then .threw ("File not found: ".toList ++ filePath) doc
  else
    let doc1 := { doc with docxPath_ := filePath }
    if filePath.length ≥ 4 ∧
        substr filePath (some (filePath.length - 4)) = some ".docx".toList then
      match env.readFile filePath with
      | none => .threw ("Failed to open file: ".toList ++ filePath) doc1
      | some buffer =>
        match env.xmlReadMemory buffer with
        | none => .threw "Failed to parse XML document".toList doc1
        | some xmlDoc => parseDocument env xmlDoc doc1
    else if filePath.length ≥ 3 ∧
        substr filePath (some (filePath.length - 3)) = some ".doc".toList then
      parseDocDocument env filePath doc1
    else .threw ("Unsupported file format: ".toList ++ filePath) doc1

/-- The method `loadFromFile`: true when the try block returns, false when an exception
is caught. -/
def loadFromFile (env : Env) (filePath : Str) (doc : DocConverter.WordDocument) :
    Outcome (Bool × DocConverter.WordDocument) DocConverter.WordDocument :=
  match loadFromFileTry env filePath doc with
  | .returned doc1 => .returned (true, doc1)
  | .threw _ doc1 => .returned (false, doc1)
  | .undefined => .undefined

end WordDocument

/-! ## basic_document.hpp -/

/-- The members of `BasicDocument`. -/
structure BasicDocument where
  title_ : Str := []
  elements_ : List DocumentElement := []
  deriving DecidableEq, Repr

namespace BasicDocument

/-- The constructor `BasicDocument(title)`. -/
def BasicDocument (title : Str) : DocConverter.BasicDocument :=
  { title_ := title }

/-- The accessor `getTitle`. -/
def getTitle (doc : DocConverter.BasicDocument) : Str := doc.title_

/-- The accessor `getElements`. -/
def getElements (doc : DocConverter.BasicDocument) : List DocumentElement := doc.elements_

/-- The method `addElement`: `elements_.push_back(element)`. -/
def addElement (doc : DocConverter.BasicDocument) (element : DocumentElement) :
    DocConverter.BasicDocument :=
  { doc with elements_ := doc.elements_ ++ [element] }

/-- The second loop of `loadFromFile`: one paragraph per non-empty line. -/
def loadParagraphs : List Str → List DocumentElement → List DocumentElement
  | [], elements => elements
  | line :: rest, elements =>
    if !line.isEmpty then
      loadParagraphs rest (elements ++ [.Paragraph (ParagraphElement.addText {} line)])
    else loadParagraphs rest elements

/-- The method `loadFromFile`: false when the file cannot be opened; otherwise the first
line becomes the title and a level-1 heading, every other non-empty line a paragraph. -/
def loadFromFile (env : Env) (filePath : Str) (doc : DocConverter.BasicDocument) :
    Bool × DocConverter.BasicDocument :=
  match env.readFile filePath with
  | none => (false, doc)
  | some contents =>
    match getLines contents with
    | [] => (true, doc)
    | line :: rest =>
      (true, { title_ := line,
               elements_ := loadParagraphs rest
                 (doc.elements_ ++ [.Heading (HeadingElement.HeadingElement line 1)]) })

end BasicDocument

/-! ## Sample environments and inputs -/

/-- A file system with the OOXML file `test.docx` and the legacy file `test.doc`, an XML
parser that accepts the former and an extractor that succeeds on the latter. -/
def wordEnv : Env where
  fileExists := fun path => path = "test.docx".toList ∨ path = "test.doc".toList
  readFile := fun path =>
    if path = "test.docx".toList then some "<document><p>Hello</p></document>".toList
    else if path = "test.doc".toList then some "legacy".toList
    else none
  xmlReadMemory := fun buffer =>
    if buffer = "<document><p>Hello</p></document>".toList then
      some { root := some (.mk .XML_ELEMENT_NODE "document".toList [] none
        [.mk .XML_ELEMENT_NODE "p".toList [] none
          [.mk .XML_TEXT_NODE "text".toList [] (some "Hello".toList) []]]) }
    else none
  popen := fun cmd =>
    if cmd = "antiword -t test.doc".toList then .exited "Test Document\n".toList 0
    else .exited [] 1

/-- A file system with the single text file `notes.txt`. -/
def textEnv : Env where
  fileExists := fun path => path = "notes.txt".toList
  readFile := fun path => if path = "notes.txt".toList then some "T\nx\n".toList else none
  xmlReadMemory := fun _ => none
  popen := fun _ => .popenFailed

/-! ## The paragraphs the specification assigns to an extractor output -/

/-- The maximal runs of consecutive non-empty lines of `output`, in input order: the
pieces between newline characters, cut at every empty piece, the empty groups dropped. -/
def nonEmptyRuns (output : Str) : List (List Str) :=
  ((output.splitOn '\n').splitOn []).filter (fun run => !run.isEmpty)

/-- The lines of a run joined by exactly one space between neighbours. -/
def joinWithSpace (run : List Str) : Str :=
  List.intercalate " ".toList run

/-- The paragraph element with the one text run `text`. -/
def singleTextParagraph (text : Str) : DocumentElement :=
  .Paragraph { texts_ := [{ text_ := text }] }

/-- The shape of every text the reconstructor emits: not empty, free of newlines, not
beginning with a space or tab. -/
def emittedText (text : Str) : Prop :=
  text ≠ [] ∧ '\n' ∉ text ∧ ∀ c ∈ text.head?, c ≠ ' ' ∧ c ≠ '\t'

/-- An extractor that exits with status 0 after printing the line `a` and a line that
consists of one space. -/
def blankLineEnv : Env where
  fileExists := fun _ => true
  readFile := fun _ => none
  xmlReadMemory := fun _ => none
  popen := fun _ => .exited "a\n \n".toList 0

/-- An extractor that exits with status 1 after printing the line `a`. -/
def failingToolEnv : Env where
  fileExists := fun _ => true
  readFile := fun _ => none
  xmlReadMemory := fun _ => none
  popen := fun _ => .exited "a\n".toList 1

/-- The texts of the direct children of `node` that are text nodes with content, in
child order. -/
def directTexts (node : XmlNode) : List Str :=
  node.children.filterMap
    (fun child => if child.type = .XML_TEXT_NODE then child.content else none)

/-- A `p` node with the style `Normal` whose children are a text node, an element and a
second text node. -/
def plainParagraphNode : XmlNode :=
  .mk .XML_ELEMENT_NODE "p".toList [("style".toList, "Normal".toList)] none
    [.mk .XML_TEXT_NODE "text".toList [] (some "Hello ".toList) [],
     .mk .XML_ELEMENT_NODE "r".toList [] none
       [.mk .XML_TEXT_NODE "text".toList [] (some "inner".toList) []],
     .mk .XML_TEXT_NODE "text".toList [] (some "world".toList) []]

/-- A `p` node with the text `Intro` and the style `style`. -/
def styledParagraphNode (style : Str) : XmlNode :=
  .mk .XML_ELEMENT_NODE "p".toList [("style".toList, style)] none
    [.mk .XML_TEXT_NODE "text".toList [] (some "Intro".toList) []]

/-! ## Notions used to state the table and image properties -/

/-- The children of `node` that are elements called `name`, in source order. -/
def elementChildren (node : XmlNode) (name : Str) : List XmlNode :=
  node.children.filter (fun child => child.type = .XML_ELEMENT_NODE ∧ child.name = name)

/-- A `tc` node that holds one `p` node with the text `text`. -/
def cellNode (text : Str) : XmlNode :=
  .mk .XML_ELEMENT_NODE "tc".toList [] none
    [.mk .XML_ELEMENT_NODE "p".toList [] none
      [.mk .XML_TEXT_NODE "text".toList [] (some text) []]]

/-- A `tbl` node with a comment, a properties element and two `tr` rows of three cells
`Cell r,c`. -/
def tableNode : XmlNode :=
  .mk .XML_ELEMENT_NODE "tbl".toList [] none
    [.mk .XML_COMMENT_NODE "comment".toList [] (some "grid".toList) [],
     .mk .XML_ELEMENT_NODE "tblPr".toList [] none [],
     .mk .XML_ELEMENT_NODE "tr".toList [] none
      [cellNode "Cell 0,0".toList, cellNode "Cell 0,1".toList, cellNode "Cell 0,2".toList],
     .mk .XML_ELEMENT_NODE "tr".toList [] none
      [cellNode "Cell 1,0".toList, .mk .XML_ELEMENT_NODE "trPr".toList [] none [],
       cellNode "Cell 1,1".toList, cellNode "Cell 1,2".toList]]

/-- The number that a string of decimal digits denotes, most significant digit first. -/
def decimalValue (digits : Str) : Nat :=
  Nat.ofDigits 10 (digits.reverse.map (fun c => c.toNat - '0'.toNat))

/-- The string `s` is a decimal integer that denotes `x`: a non-empty string of decimal
digits, or a minus sign followed by one. -/
def IsDecimalInteger (s : Str) (x : Int) : Prop :=
  ∃ digits : Str, digits ≠ [] ∧ (∀ c ∈ digits, c.isDigit = true) ∧
    ((s = digits ∧ x = (decimalValue digits : Nat)) ∨
     (s = '-' :: digits ∧ x = -((decimalValue digits : Nat) : Int)))

/-- The URI that `parseImage` maps to `png`. -/
def wordprocessingDrawingUri : Str :=
  "http://schemas.openxmlformats.org/drawingml/2006/wordprocessingDrawing".toList

/-- The URI that `parseImage` maps to `jpg`. -/
def jpegUri : Str :=
  "http://schemas.openxmlformats.org/drawingml/2006/jpeg".toList

/-- A `drawing` node whose children are a `blip` with the image id `1`, an `ext` with
the given URI and an `extent` with the given `cx` and `cy`. -/
def drawingNode (uri cx cy : Str) : XmlNode :=
  .mk .XML_ELEMENT_NODE "drawing".toList [] none
    [.mk .XML_ELEMENT_NODE "blip".toList [("embed".toList, "1".toList)] none [],
     .mk .XML_ELEMENT_NODE "ext".toList [("uri".toList, uri)] none [],
     .mk .XML_ELEMENT_NODE "extent".toList [("cx".toList, cx), ("cy".toList, cy)] none []]

/-- A file system that holds the two-byte media files `docs/word/media/image1.jpg` and
`docs/word/media/image1.png`. -/
def imageEnv : Env where
  fileExists := fun _ => true
  readFile := fun path =>
    if path = "docs/word/media/image1.jpg".toList then some [Char.ofNat 255, Char.ofNat 216]
    else if path = "docs/word/media/image1.png".toList then some [Char.ofNat 137, 'P']
    else none
  xmlReadMemory := fun _ => none
  popen := fun _ => .popenFailed

/-- The elements of the document that a call returns; `none` when it does not return. -/
def returnedElements :
    Outcome WordDocument WordDocument → Option (List DocumentElement)
  | .returned doc => some doc.elements_
  | _ => none

/-- What the parser for the kind of `child` produces for it when it is run on its own,
on a document without elements whose package path is `docxPath`: `parseParagraph` for an
element called `p`, `parseTable` for `tbl`, `parseImage` for `drawing`, and nothing for
any other child; `none` when that parser does not return. -/
def producedFor (env : Env) (docxPath : Str) (child : XmlNode) :
    Option (List DocumentElement) :=
  if child.type = .XML_ELEMENT_NODE then
    if child.name = "p".toList then
      returnedElements (WordDocument.parseParagraph child { docxPath_ := docxPath })
    else if child.name = "tbl".toList then
      some (WordDocument.parseTable child { docxPath_ := docxPath }).elements_
    else if child.name = "drawing".toList then
      returnedElements (WordDocument.parseImage env child { docxPath_ := docxPath })
    else some []
  else some []

/-- A body with a text node, a plain paragraph, a `sectPr` element, the 2x3 table, a
jpeg image anchor and a heading paragraph. -/
def bodyNode : XmlNode :=
  .mk .XML_ELEMENT_NODE "body".toList [] none
    [.mk .XML_TEXT_NODE "text".toList [] (some "\n".toList) [],
     plainParagraphNode,
     .mk .XML_ELEMENT_NODE "sectPr".toList [] none [],
     tableNode,
     drawingNode jpegUri "952500".toList "476250".toList,
     styledParagraphNode "Heading 2".toList]

/-- The contents of a text file with the lines `lines`: the lines separated by newline
characters, with or without a newline after the last line. -/
def fileOfLines (lines : List Str) (finalNewline : Bool) : Str :=
  List.intercalate "\n".toList lines ++ (if finalNewline then "\n".toList else [])

/-- A file system with the text file `test_doc.txt` of the unit test. -/
def testDocEnv : Env where
  fileExists := fun path => path = "test_doc.txt".toList
  readFile := fun path =>
    if path = "test_doc.txt".toList then
      some "Document Title\nFirst paragraph.\n\nSecond paragraph.\n".toList
    else none
  xmlReadMemory := fun _ => none
  popen := fun _ => .popenFailed

/-! ## document.hpp / basic_converter.hpp -/

/-- What a converter sees of a `Document`: the results of the virtual calls `getTitle`
and `getElements`. -/
structure Document where
  getTitle : Str
  getElements : List DocumentElement

/-- A `BasicDocument` seen through the `Document` interface. -/
def BasicDocument.toDocument (doc : DocConverter.BasicDocument) : Document :=
  { getTitle := doc.getTitle, getElements := doc.getElements }

/-- A `WordDocument` seen through the `Document` interface. -/
def WordDocument.toDocument (doc : DocConverter.WordDocument) : Document :=
  { getTitle := doc.getTitle, getElements := doc.getElements }

namespace BasicConverter

/-- The string `std::string(count, c)` for an `int` count: `count` copies of `c`; a
negative count converts to a size that no string can have, and the constructor throws
(`none`). -/
def filledString (count : Int) (c : Char) : Option Str :=
  if count < 0 then none else some (List.replicate count.toNat c)

/-- The inner loop of the paragraph case: every text followed by one space, inserted
into the stream whose contents so far are `file`. -/
def writeTexts : List TextElement → Str → Str
  | [], file => file
  | text :: rest, file => writeTexts rest (file ++ text.getText ++ " ".toList)

/-- One pass of the loop of `convert`: the switch on `getType()` with the cast to the
class of that type.  The result is the contents of the stream after the pass; `none`
when the construction of the `#` string throws, before anything is inserted. -/
def writeElement (element : DocumentElement) (file : Str) : Option Str :=
  match element with
  | .Heading heading =>
    match filledString heading.getLevel '#' with
    | none => none
    | some marks => some (file ++ marks ++ " ".toList ++ heading.getText ++ "\n\n".toList)
  | .Paragraph para => some (writeTexts para.getTexts file ++ "\n\n".toList)
  | .Text text => some (file ++ text.getText ++ "\n\n".toList)
  | .Table _ => some file
  | .Image _ => some file

/-- The loop of `convert` over the elements: the contents of the stream at the end and
whether the loop ran to its end (false: an exception left it). -/
def writeElements : List DocumentElement → Str → Str × Bool
  | [], file => (file, true)
  | element :: rest, file =>
    match writeElement element file with
    | none => (file, false)
    | some file1 => writeElements rest file1

/-- The method `convert`: false and no file when `outputPath` cannot be opened for
writing; otherwise the title, an empty line and the elements are written, and the result
is true unless an exception was caught.  The second component is the contents of the
output file. -/
def convert (canOpen : Str → Bool) (doc : Document) (outputPath : Str) : Bool × Option Str :=
  if !canOpen outputPath then (false, none)
  else
    match writeElements doc.getElements (doc.getTitle ++ "\n\n".toList) with
    | (file, true) => (true, some file)
    | (file, false) => (false, some file)

end BasicConverter

/-- The text that the output holds for one element: for a heading `getLevel()` marks
`#`, one space, the text and an empty line; for a paragraph every text run followed by
one space, then an empty line; for a text the text and an empty line; nothing for a
table or an image. -/
def renderedElement : DocumentElement → Str
  | .Heading heading =>
    List.replicate heading.getLevel.toNat '#' ++ " ".toList ++ heading.getText ++ "\n\n".toList
  | .Paragraph para =>
    (para.getTexts.map (fun text => text.getText ++ " ".toList)).flatten ++ "\n\n".toList
  | .Text text => text.getText ++ "\n\n".toList
  | .Table _ => []
  | .Image _ => []

/-- The document of the converter unit test: the title `Test Document`, the heading
`Section 1` of level 2 and one paragraph. -/
def converterTestDocument : BasicDocument :=
  ((BasicDocument.BasicDocument "Test Document".toList).addElement
    (.Heading (HeadingElement.HeadingElement "Section 1".toList 2))).addElement
    (.Paragraph (ParagraphElement.addText {} "This is a test paragraph.".toList))

/-- The text contents of the `p` element children of a node, in order. -/
def paragraphTexts (node : XmlNode) : List Str :=
  (elementChildren node "p".toList).map WordDocument.getNodeText

/-- A `tc` node whose `p` children have the texts `first` and `second`. -/
def twoParagraphCell (first second : Str) : XmlNode :=
  .mk .XML_ELEMENT_NODE "tc".toList [] none
    [.mk .XML_ELEMENT_NODE "p".toList [] none
      [.mk .XML_TEXT_NODE "text".toList [] (some first) []],
     .mk .XML_ELEMENT_NODE "p".toList [] none
      [.mk .XML_TEXT_NODE "text".toList [] (some second) []]]

mutual
/-- The nodes below a node, in document order. -/
def descendants : XmlNode → List XmlNode
  | .mk _ _ _ _ children => descendantsOfList children
/-- The nodes of a list of siblings together with the nodes below them, in document
order. -/
def descendantsOfList : List XmlNode → List XmlNode
  | [] => []
  | node :: rest => node :: (descendants node ++ descendantsOfList rest)
end

/-- A `drawing` node whose `blip` with the image id `1` lies inside an `inline` child,
next to an `ext` child with the jpeg URI and a 100 x 50 `extent` child. -/
def nestedDrawingNode : XmlNode :=
  .mk .XML_ELEMENT_NODE "drawing".toList [] none
    [.mk .XML_ELEMENT_NODE "inline".toList [] none
      [.mk .XML_ELEMENT_NODE "blip".toList [("embed".toList, "1".toList)] none []],
     .mk .XML_ELEMENT_NODE "ext".toList [("uri".toList, jpegUri)] none [],
     .mk .XML_ELEMENT_NODE "extent".toList
      [("cx".toList, "952500".toList), ("cy".toList, "476250".toList)] none []]

/-- The prefix of a path up to and including its last `/`; the empty string when the
path contains no `/`. -/
def packageDirectory (path : Str) : Str :=
  path.rdropWhile (fun c => c ≠ '/')

/-- The location at which the media file of an image is expected. -/
def mediaPath (packagePath imageId format : Str) : Str :=
  packageDirectory packagePath ++ ("word/media/image".toList ++ imageId ++ ".".toList ++ format)

/-! ## Sequences of operations on a `WordDocument` -/

/-- The operations of `WordDocument` that can change the object. -/
inductive WordOperation
  | loadFromFile (filePath : Str)
  | addElement (element : DocumentElement)
  | parseDocument (xmlDoc : XmlDoc)
  | parseParagraph (node : XmlNode)
  | parseTable (node : XmlNode)
  | parseImage (node : XmlNode)
  | extractTextFromAntiwordOutput (output : Str)

/-- The document as a call leaves it: the one returned, or the one an exception leaves
behind; `none` after undefined behaviour. -/
def documentAfter : Outcome WordDocument WordDocument → Option WordDocument
  | .returned doc => some doc
  | .threw _ doc => some doc
  | .undefined => none

/-- The document after one operation. -/
def WordOperation.run (env : Env) : WordOperation → WordDocument → Option WordDocument
  | .loadFromFile filePath, doc =>
    match WordDocument.loadFromFile env filePath doc with
    | .returned (_, doc1) => some doc1
    | .threw _ doc1 => some doc1
    | .undefined => none
  | .addElement element, doc => some (doc.addElement element)
  | .parseDocument xmlDoc, doc => documentAfter (WordDocument.parseDocument env xmlDoc doc)
  | .parseParagraph node, doc => documentAfter (WordDocument.parseParagraph node doc)
  | .parseTable node, doc => some (WordDocument.parseTable node doc)
  | .parseImage node, doc => documentAfter (WordDocument.parseImage env node doc)
  | .extractTextFromAntiwordOutput output, doc =>
    documentAfter (WordDocument.extractTextFromAntiwordOutput output doc)

/-- The document after a sequence of operations, first operation first. -/
def runOperations (env : Env) : List WordOperation → WordDocument → Option WordDocument
  | [], doc => some doc
  | op :: rest, doc =>
    match op.run env doc with
    | some doc1 => runOperations env rest doc1
    | none => none

/-- A string with all spaces and tabs removed. -/
def withoutBlanks (s : Str) : Str :=
  s.filter (fun c => c ≠ ' ' ∧ c ≠ '\t')

/-- A string with all spaces, tabs and newline characters removed. -/
def withoutBlanksAndNewlines (s : Str) : Str :=
  s.filter (fun c => c ≠ ' ' ∧ c ≠ '\t' ∧ c ≠ '\n')

/-- The elements of a list that are neither tables nor images nor lists. -/
def withoutTablesImagesLists (elements : List DocumentElement) : List DocumentElement :=
  elements.filter (fun element =>
    element.getType ≠ .Table ∧ element.getType ≠ .Image ∧ element.getType ≠ .List)

/-! ## The paragraphs the specification reconstructs from any extractor output -/

/-- The test that a line begins with a space or tab. -/
def beginsWithBlank (line : Str) : Bool :=
  match line.head? with
  | some c => c = ' ' || c = '\t'
  | none => false

/-- A line without its leading spaces and tabs. -/
def withoutLeadingBlanks (line : Str) : Str :=
  line.dropWhile (fun c => c = ' ' || c = '\t')

/-- The groups of lines that make one paragraph each, in input order: the lines are cut
at every empty line, and each stretch between empty lines is cut before every line that
begins with a space or tab. -/
def lineGroups (lines : List Str) : List (List Str) :=
  (lines.splitOn []).flatMap (fun run => run.splitBy (fun _ line => !beginsWithBlank line))

/-- The texts of the paragraphs reconstructed from `output`, in input order: for each
group of the pieces between newline characters, the group's lines without their leading
spaces and tabs, joined by one space. -/
def reconstructedParagraphs (output : Str) : List Str :=
  (lineGroups (output.splitOn '\n')).map
    (fun group => joinWithSpace (group.map withoutLeadingBlanks))

/-! # Properties -/

/-! ## The heading constructor -/

/-- C1: for every text and level, `HeadingElement(text, level).getLevel()` is
`min(max(level, 1), 6)`; it lies in [1,6], is `level` when `level` is in [1,6], is 1 below
1 and 6 above 6, constructing again from the clamped level gives the same level, and
`getText()` is `text`. -/
theorem C1_heading_level_clamped (text : Str) (level : Int) :
    (HeadingElement.HeadingElement text level).getLevel = min (max level 1) 6 ∧
    1 ≤ (HeadingElement.HeadingElement text level).getLevel ∧
    (HeadingElement.HeadingElement text level).getLevel ≤ 6 ∧
    (1 ≤ level ∧ level ≤ 6 → (HeadingElement.HeadingElement text level).getLevel = level) ∧
    (level < 1 → (HeadingElement.HeadingElement text level).getLevel = 1) ∧
    (6 < level → (HeadingElement.HeadingElement text level).getLevel = 6) ∧
    (HeadingElement.HeadingElement text
      (HeadingElement.HeadingElement text level).getLevel).getLevel =
      (HeadingElement.HeadingElement text level).getLevel ∧
    (HeadingElement.HeadingElement text level).getText = text := by
  simp only [HeadingElement.HeadingElement, HeadingElement.getLevel, HeadingElement.getText]
  refine ⟨?_, ?_, ?_, ?_, ?_, ?_, ?_, ?_⟩ <;> first | trivial | omega

/-- C1 at levels 3, 0, -7 and 9: the levels 3, 1, 1 and 6. -/
theorem C1_heading_level_clamped_witness :
    (HeadingElement.HeadingElement "Title".toList 3).getLevel = 3 ∧
    (HeadingElement.HeadingElement "Title".toList 0).getLevel = 1 ∧
    (HeadingElement.HeadingElement "Title".toList (-7)).getLevel = 1 ∧
    (HeadingElement.HeadingElement "Title".toList 9).getLevel = 6 :=
  ⟨(C1_heading_level_clamped "Title".toList 3).2.2.2.1 ⟨by decide, by decide⟩,
   (C1_heading_level_clamped "Title".toList 0).2.2.2.2.1 (by decide),
   (C1_heading_level_clamped "Title".toList (-7)).2.2.2.2.1 (by decide),
   (C1_heading_level_clamped "Title".toList 9).2.2.2.2.2.1 (by decide)⟩

/-! ## The dispatcher `WordDocument::loadFromFile` -/

/-- The last `n` characters of a string never equal a string longer than `n`. -/
theorem substr_last_ne (s suffix : Str) (n : Nat) (h : n < suffix.length) :
    substr s (some (s.length - n)) ≠ some suffix := by
  unfold substr
  have h1 : ¬ (s.length - n > s.length) := by omega
  simp only [h1, if_false]
  intro h2
  have h3 : (s.drop (s.length - n)).length = suffix.length := by
    rw [Option.some.inj h2]
  simp only [List.length_drop] at h3
  omega

/-- The try block of `loadFromFile` always ends in a throw, with elements and title as
they were: neither suffix comparison can succeed. -/
theorem loadFromFileTry_threw (env : Env) (filePath : Str) (doc : WordDocument) :
    ∃ what doc1, WordDocument.loadFromFileTry env filePath doc = .threw what doc1 ∧
      doc1.elements_ = doc.elements_ ∧ doc1.title_ = doc.title_ := by
  unfold WordDocument.loadFromFileTry
  have h4 := substr_last_ne filePath ".docx".toList 4 (by decide)
  have h3 := substr_last_ne filePath ".doc".toList 3 (by decide)
  cases hex : env.fileExists filePath
  · exact ⟨_, _, rfl, rfl, rfl⟩
  · simp only [h4, h3, and_false, if_false, Bool.not_true]
    exact ⟨_, _, rfl, rfl, rfl⟩

/-- C2 (the code at the failing inputs): `test.docx` exists, is readable and holds
well-formed XML, `test.doc` exists and the extractor exits with status 0 on it, and
`loadFromFile` returns false for both without parsing anything. -/
theorem C2_load_dispatch_fails :
    wordEnv.fileExists "test.docx".toList = true ∧
    (wordEnv.readFile "test.docx".toList).bind wordEnv.xmlReadMemory ≠ none ∧
    WordDocument.loadFromFile wordEnv "test.docx".toList {} =
      .returned (false, { docxPath_ := "test.docx".toList }) ∧
    wordEnv.fileExists "test.doc".toList = true ∧
    WordDocument.parseDocDocument wordEnv "test.doc".toList {} =
      .returned { elements_ := [WordDocument.paragraphOf "Test Document".toList] } ∧
    WordDocument.loadFromFile wordEnv "test.doc".toList {} =
      .returned (false, { docxPath_ := "test.doc".toList }) := by
  refine ⟨by decide, ?_, by decide, by decide, by decide, by decide⟩
  simp [wordEnv]

/-- C3: for a path that does not exist, and for an existing path that ends neither in
`.docx` nor in `.doc`, `loadFromFile` returns false (no exception leaves it, nothing is
undefined) and the element list and the title are as before the call. -/
theorem C3_load_missing_or_unsupported (env : Env) (filePath : Str) (doc : WordDocument)
    (_h : env.fileExists filePath = false ∨
      (env.fileExists filePath = true ∧ ¬ List.IsSuffix ".docx".toList filePath ∧
        ¬ List.IsSuffix ".doc".toList filePath)) :
    ∃ doc1, WordDocument.loadFromFile env filePath doc = .returned (false, doc1) ∧
      doc1.getElements = doc.getElements ∧ doc1.getTitle = doc.getTitle := by
  obtain ⟨what, doc1, h1, h2, h3⟩ := loadFromFileTry_threw env filePath doc
  exact ⟨doc1, by simp only [WordDocument.loadFromFile, h1], h2, h3⟩

/-- C3 at the missing path `nonexistent.doc` and the existing path `notes.txt`. -/
theorem C3_load_missing_or_unsupported_witness :
    (∃ doc1, WordDocument.loadFromFile textEnv "nonexistent.doc".toList
        { title_ := "T".toList, elements_ := [.Text { text_ := "x".toList }] } =
        .returned (false, doc1) ∧
      doc1.getElements = [.Text { text_ := "x".toList }] ∧ doc1.getTitle = "T".toList) ∧
    (∃ doc1, WordDocument.loadFromFile textEnv "notes.txt".toList
        { title_ := "T".toList, elements_ := [.Text { text_ := "x".toList }] } =
        .returned (false, doc1) ∧
      doc1.getElements = [.Text { text_ := "x".toList }] ∧ doc1.getTitle = "T".toList) :=
  ⟨C3_load_missing_or_unsupported textEnv "nonexistent.doc".toList _ (Or.inl (by decide)),
   C3_load_missing_or_unsupported textEnv "notes.txt".toList _
     (Or.inr ⟨by decide, by decide, by decide⟩)⟩

/-! ## `BasicDocument::loadFromFile` appends -/

/-- The paragraph loop only appends to the list it is given. -/
theorem loadParagraphs_append (lines : List Str) (elements : List DocumentElement) :
    BasicDocument.loadParagraphs lines elements =
      elements ++ BasicDocument.loadParagraphs lines [] := by
  induction lines generalizing elements with
  | nil => simp [BasicDocument.loadParagraphs]
  | cons line rest ih =>
    unfold BasicDocument.loadParagraphs
    by_cases hl : line.isEmpty = true
    · simp only [hl, Bool.not_true, Bool.false_eq_true, if_false]
      exact ih elements
    · simp only [hl, Bool.not_false, if_true]
      rw [ih (elements ++ _), ih ([] ++ _)]
      simp

/-- C4 (counterexample): a `BasicDocument` that holds one text element and loads the
readable file `notes.txt` returns true and still holds that element, in front of the
elements parsed from the file; and loading the file twice gives four elements where
loading it once gives two. -/
theorem C4_load_keeps_previous_elements :
    (BasicDocument.loadFromFile textEnv "notes.txt".toList
        { elements_ := [.Text { text_ := "old".toList }] }).1 = true ∧
    (BasicDocument.loadFromFile textEnv "notes.txt".toList {}).2.getElements =
      [.Heading { text_ := "T".toList, level_ := 1 },
       .Paragraph { texts_ := [{ text_ := "x".toList }] }] ∧
    (BasicDocument.loadFromFile textEnv "notes.txt".toList
        { elements_ := [.Text { text_ := "old".toList }] }).2.getElements =
      [.Text { text_ := "old".toList },
       .Heading { text_ := "T".toList, level_ := 1 },
       .Paragraph { texts_ := [{ text_ := "x".toList }] }] ∧
    (BasicDocument.loadFromFile textEnv "notes.txt".toList
        (BasicDocument.loadFromFile textEnv "notes.txt".toList {}).2).2.getElements ≠
      (BasicDocument.loadFromFile textEnv "notes.txt".toList {}).2.getElements := by
  decide

/-- C4 (amended): for every `BasicDocument` and every file that can be opened,
`loadFromFile` returns true and `getElements()` is the list held before the call
followed by exactly the elements parsed from the file (those an empty document gets from
it); so loading the same file twice yields that file's elements twice. -/
theorem C4_load_appends (env : Env) (filePath : Str) (doc : BasicDocument)
    (h : (env.readFile filePath).isSome = true) :
    (BasicDocument.loadFromFile env filePath doc).1 = true ∧
    (BasicDocument.loadFromFile env filePath doc).2.getElements =
      doc.getElements ++ (BasicDocument.loadFromFile env filePath {}).2.getElements ∧
    (BasicDocument.loadFromFile env filePath
        (BasicDocument.loadFromFile env filePath {}).2).2.getElements =
      (BasicDocument.loadFromFile env filePath {}).2.getElements ++
        (BasicDocument.loadFromFile env filePath {}).2.getElements := by
  cases hr : env.readFile filePath with
  | none => simp [hr] at h
  | some contents =>
    cases hl : getLines contents with
    | nil => simp [BasicDocument.loadFromFile, hr, hl, BasicDocument.getElements]
    | cons line rest =>
      have key : ∀ elements : List DocumentElement,
          BasicDocument.loadParagraphs rest
              (elements ++ [.Heading (HeadingElement.HeadingElement line 1)]) =
            elements ++ BasicDocument.loadParagraphs rest
              [.Heading (HeadingElement.HeadingElement line 1)] := by
        intro elements
        rw [loadParagraphs_append, loadParagraphs_append rest [_]]
        simp
      simp only [BasicDocument.loadFromFile, hr, hl, BasicDocument.getElements, key,
        List.nil_append, and_self]

/-- C4 (amended) at the file `notes.txt` and a document holding one element. -/
theorem C4_load_appends_witness :
    (BasicDocument.loadFromFile textEnv "notes.txt".toList
        { elements_ := [.Text { text_ := "old".toList }] }).1 = true ∧
    (BasicDocument.loadFromFile textEnv "notes.txt".toList
        { elements_ := [.Text { text_ := "old".toList }] }).2.getElements =
      [.Text { text_ := "old".toList }] ++
        (BasicDocument.loadFromFile textEnv "notes.txt".toList {}).2.getElements :=
  ⟨(C4_load_appends textEnv "notes.txt".toList _ (by decide)).1,
   (C4_load_appends textEnv "notes.txt".toList _ (by decide)).2.1⟩

/-! ## The legacy text reconstructor on outputs without indented lines -/

/-- The pieces between newlines are the lines `getline` delivers, up to one empty piece
at the end. -/
theorem splitOn_getLines (output : Str) :
    output.splitOn '\n' = getLines output ∨ output.splitOn '\n' = getLines output ++ [[]] := by
  induction output with
  | nil => right; rfl
  | cons c cs ih =>
    simp only [List.splitOn] at ih ⊢
    rw [List.splitOnP_cons]
    by_cases hc : c = '\n'
    · subst hc
      simp only [getLines, beq_self_eq_true, if_true, List.cons_append, List.cons.injEq,
        true_and]
      exact ih
    · have hb : (c == '\n') = false := by simpa using hc
      simp only [getLines, hb, hc, if_false, Bool.false_eq_true]
      cases hg : getLines cs with
      | nil =>
        rcases ih with ih | ih
        · exact absurd (ih.trans hg) (List.splitOnP_ne_nil _ _)
        · left; rw [ih, hg]; rfl
      | cons l ls =>
        rcases ih with ih | ih
        · left; rw [ih, hg]; rfl
        · right; rw [ih, hg]; rfl

/-- Flushing twice is flushing once. -/
theorem flush_flush (st : WordDocument.ExtractState) :
    WordDocument.flush (WordDocument.flush st) = WordDocument.flush st := by
  unfold WordDocument.flush
  by_cases h : st.currentParagraph.isEmpty = true <;> simp [h]

/-- An empty line at the end of the input only flushes. -/
theorem extractLoop_append_blank (lines : List Str) (st : WordDocument.ExtractState) :
    WordDocument.extractLoop (lines ++ [[]]) st =
      match WordDocument.extractLoop lines st with
      | .ok st1 => .ok (WordDocument.flush st1)
      | .error elements => .error elements := by
  induction lines generalizing st with
  | nil => simp [WordDocument.extractLoop, WordDocument.extractLine]
  | cons line rest ih =>
    simp only [List.cons_append, WordDocument.extractLoop]
    cases WordDocument.extractLine st line with
    | ok st1 => exact ih st1
    | error elements => rfl

/-- Joining a run extended by one line. -/
theorem joinWithSpace_concat (run : List Str) (line : Str) :
    joinWithSpace (run ++ [line]) =
      if run = [] then line else joinWithSpace run ++ " ".toList ++ line := by
  induction run with
  | nil => simp [joinWithSpace, List.intercalate]
  | cons a rest ih =>
    cases rest with
    | nil => simp [joinWithSpace, List.intercalate]
    | cons b rest2 =>
      simp only [joinWithSpace, List.intercalate, List.cons_append, List.intersperse,
        List.flatten, reduceCtorEq, if_false, List.append_assoc, List.append_eq] at ih ⊢
      rw [ih]

/-- A run of non-empty lines joins to the empty string only when it is empty. -/
theorem joinWithSpace_eq_nil (run : List Str) (h : ∀ line ∈ run, line ≠ []) :
    joinWithSpace run = [] ↔ run = [] := by
  cases run with
  | nil => simp [joinWithSpace, List.intercalate]
  | cons a rest =>
    have ha : a ≠ [] := h a (List.mem_cons_self a rest)
    cases rest <;> simp [joinWithSpace, List.intercalate, List.intersperse, ha]

/-- The pushed paragraph is the paragraph with the one text run. -/
theorem paragraphOf_eq (text : Str) :
    WordDocument.paragraphOf text = singleTextParagraph text := rfl

/-- Flushing an empty accumulator changes nothing. -/
theorem flush_nil (elements : List DocumentElement) :
    WordDocument.flush { currentParagraph := [], elements_ := elements } =
      { currentParagraph := [], elements_ := elements } := rfl

/-- Flushing a non-empty accumulator pushes it as a paragraph and clears it. -/
theorem flush_ne (text : Str) (elements : List DocumentElement) (h : text ≠ []) :
    WordDocument.flush { currentParagraph := text, elements_ := elements } =
      { currentParagraph := [], elements_ := elements ++ [singleTextParagraph text] } := by
  simp [WordDocument.flush, h, paragraphOf_eq]

/-- Prefixing the head group with nothing changes nothing. -/
theorem modifyHead_nil_append (groups : List (List Str)) :
    groups.modifyHead (fun g => [] ++ g) = groups := by
  cases groups <;> simp

/-- The empty run joins to the empty string. -/
theorem joinWithSpace_nil : joinWithSpace [] = [] := rfl

/-- A line that is neither empty nor indented is appended to the accumulator. -/
theorem extractLine_plain (st : WordDocument.ExtractState) (line : Str) (hne : line ≠ [])
    (hplain : ∀ c ∈ line.head?, c ≠ ' ' ∧ c ≠ '\t') :
    WordDocument.extractLine st line = .ok (WordDocument.appendLine st line) := by
  cases line with
  | nil => exact absurd rfl hne
  | cons c rest =>
    have hc := hplain c (by simp)
    simp [WordDocument.extractLine, hc.1, hc.2]

/-- The loop on lines none of which is indented, started with the accumulator holding
the joined run `run`: it ends normally, and after the final flush the elements are the
old ones followed by one paragraph per non-empty group of `run` and the lines. -/
theorem extractLoop_plain (lines : List Str)
    (hplain : ∀ line ∈ lines, ∀ c ∈ line.head?, c ≠ ' ' ∧ c ≠ '\t')
    (run : List Str) (hrun : ∀ line ∈ run, line ≠ []) (elements : List DocumentElement) :
    ∃ st1, WordDocument.extractLoop lines
        { currentParagraph := joinWithSpace run, elements_ := elements } = .ok st1 ∧
      (WordDocument.flush st1).elements_ = elements ++
        (((lines.splitOn []).modifyHead (fun g => run ++ g)).filter
          (fun g => !g.isEmpty)).map (fun g => singleTextParagraph (joinWithSpace g)) := by
  induction lines generalizing run elements with
  | nil =>
    refine ⟨_, rfl, ?_⟩
    have hj := joinWithSpace_eq_nil run hrun
    cases run with
    | nil => simp [joinWithSpace_nil, flush_nil, List.splitOn, List.splitOnP_nil]
    | cons a rest =>
      have hne : joinWithSpace (a :: rest) ≠ [] := fun h => by simpa using hj.mp h
      rw [flush_ne _ _ hne]
      simp [List.splitOn, List.splitOnP_nil]
  | cons line rest ih =>
    have hrest : ∀ l ∈ rest, ∀ c ∈ l.head?, c ≠ ' ' ∧ c ≠ '\t' :=
      fun l hl => hplain l (List.mem_cons_of_mem _ hl)
    simp only [List.splitOn] at ih ⊢
    rw [List.splitOnP_cons]
    by_cases hl : line = []
    · subst hl
      simp only [WordDocument.extractLoop, WordDocument.extractLine, beq_self_eq_true, if_true,
        List.modifyHead_cons, List.append_nil]
      have hj := joinWithSpace_eq_nil run hrun
      cases run with
      | nil =>
        obtain ⟨st1, h1, h2⟩ := ih hrest [] (by simp) elements
        rw [modifyHead_nil_append] at h2
        refine ⟨st1, ?_, ?_⟩
        · rw [joinWithSpace_nil, flush_nil]
          exact h1
        · rw [h2]
          simp
      | cons a more =>
        have hne : joinWithSpace (a :: more) ≠ [] := fun h => by simpa using hj.mp h
        obtain ⟨st1, h1, h2⟩ := ih hrest [] (by simp)
          (elements ++ [singleTextParagraph (joinWithSpace (a :: more))])
        rw [modifyHead_nil_append] at h2
        refine ⟨st1, ?_, ?_⟩
        · rw [flush_ne _ _ hne]
          exact h1
        · rw [h2]
          simp
    · have hb : (line == []) = false := by simpa using hl
      simp only [WordDocument.extractLoop,
        extractLine_plain _ line hl (hplain line (List.mem_cons_self _ _)), hb,
        Bool.false_eq_true, if_false]
      have hrun1 : ∀ l ∈ run ++ [line], l ≠ [] := by
        intro l hmem
        rcases List.mem_append.mp hmem with h | h
        · exact hrun l h
        · rw [List.mem_singleton.mp h]
          exact hl
      obtain ⟨st1, h1, h2⟩ := ih hrest (run ++ [line]) hrun1 elements
      have hacc : WordDocument.appendLine
          { currentParagraph := joinWithSpace run, elements_ := elements } line =
          { currentParagraph := joinWithSpace (run ++ [line]), elements_ := elements } := by
        have hj := joinWithSpace_eq_nil run hrun
        rw [joinWithSpace_concat]
        by_cases hr : run = []
        · subst hr
          simp [WordDocument.appendLine, joinWithSpace_nil]
        · have hne : joinWithSpace run ≠ [] := fun h => hr (hj.mp h)
          simp [WordDocument.appendLine, hr, hne]
      refine ⟨st1, by rw [hacc]; exact h1, ?_⟩
      rw [h2]
      cases List.splitOnP (fun x => x == []) rest with
      | nil => rfl
      | cons g gs => simp
/-- C5: when no line of the extractor output begins with a space or tab,
`extractTextFromAntiwordOutput` returns and appends exactly one paragraph per maximal
run of consecutive non-empty lines, in input order, each with the single text that is
the run's lines joined by one space. -/
theorem C5_unindented_runs (output : Str) (doc : WordDocument)
    (h : ∀ line ∈ output.splitOn '\n', ∀ c ∈ line.head?, c ≠ ' ' ∧ c ≠ '\t') :
    WordDocument.extractTextFromAntiwordOutput output doc =
      .returned { doc with elements_ := doc.elements_ ++
        (nonEmptyRuns output).map (fun run => singleTextParagraph (joinWithSpace run)) } := by
  obtain ⟨st1, h1, h2⟩ := extractLoop_plain (output.splitOn '\n') h [] (by simp) doc.elements_
  rw [modifyHead_nil_append, joinWithSpace_nil] at *
  unfold WordDocument.extractTextFromAntiwordOutput
  rcases splitOn_getLines output with hs | hs
  · rw [← hs, h1]
    simp only [h2, nonEmptyRuns]
  · rw [hs, extractLoop_append_blank] at h1
    cases hg : WordDocument.extractLoop (getLines output)
        { currentParagraph := [], elements_ := doc.elements_ } with
    | error elements => rw [hg] at h1; cases h1
    | ok st2 =>
      rw [hg] at h1
      have h3 : WordDocument.flush st2 = st1 := by injection h1
      rw [← h3, flush_flush] at h2
      simp only [h2, nonEmptyRuns]

/-- C5 at the outputs `"Test Document\n"` (one paragraph `"Test Document"`) and
`"a\nb\n\n\nc"` (the paragraphs `"a b"` and `"c"`). -/
theorem C5_unindented_runs_witness :
    WordDocument.extractTextFromAntiwordOutput "Test Document\n".toList {} =
      .returned { elements_ := [singleTextParagraph "Test Document".toList] } ∧
    WordDocument.extractTextFromAntiwordOutput "a\nb\n\n\nc".toList {} =
      .returned { elements_ :=
        [singleTextParagraph "a b".toList, singleTextParagraph "c".toList] } :=
  ⟨(C5_unindented_runs "Test Document\n".toList {} (by decide)).trans (by decide),
   (C5_unindented_runs "a\nb\n\n\nc".toList {} (by decide)).trans (by decide)⟩

/-! ## Indented lines in the legacy text reconstructor -/

/-- On a line that holds a character other than space and tab, `find_first_not_of`
finds a position inside the line, and the characters from there on are the line without
its leading spaces and tabs. -/
theorem find_first_not_of_blank (line : Str) (h : ∃ c ∈ line, c ≠ ' ' ∧ c ≠ '\t') :
    ∃ i, find_first_not_of line " \t".toList = some i ∧ i ≤ line.length ∧
      line.drop i = line.dropWhile (fun c => c = ' ' || c = '\t') := by
  induction line with
  | nil => simp at h
  | cons c cs ih =>
    by_cases hc : c = ' ' ∨ c = '\t'
    · have hcs : ∃ d ∈ cs, d ≠ ' ' ∧ d ≠ '\t' := by
        obtain ⟨d, hd, hd1, hd2⟩ := h
        rcases List.mem_cons.mp hd with e | e
        · subst e
          rcases hc with hc | hc
          · exact absurd hc hd1
          · exact absurd hc hd2
        · exact ⟨d, e, hd1, hd2⟩
      obtain ⟨i, h1, h2, h3⟩ := ih hcs
      refine ⟨i + 1, ?_, ?_, ?_⟩
      · rcases hc with hc | hc <;> subst hc <;> simp [find_first_not_of] <;> exact h1
      · simp only [List.length_cons]; omega
      · rcases hc with hc | hc <;> subst hc <;> simpa [List.dropWhile] using h3
    · have hc1 : c ≠ ' ' := fun e => hc (Or.inl e)
      have hc2 : c ≠ '\t' := fun e => hc (Or.inr e)
      refine ⟨0, ?_, by simp, ?_⟩
      · simp [find_first_not_of, hc1, hc2]
      · simp [List.dropWhile, hc1, hc2]

/-- The stripped form of a line that holds a character other than space and tab is not
empty. -/
theorem dropWhile_blank_ne_nil (line : Str) (h : ∃ c ∈ line, c ≠ ' ' ∧ c ≠ '\t') :
    line.dropWhile (fun c => c = ' ' || c = '\t') ≠ [] := by
  induction line with
  | nil => simp at h
  | cons c cs ih =>
    by_cases hc : c = ' ' ∨ c = '\t'
    · have hcs : ∃ d ∈ cs, d ≠ ' ' ∧ d ≠ '\t' := by
        obtain ⟨d, hd, hd1, hd2⟩ := h
        rcases List.mem_cons.mp hd with e | e
        · subst e
          rcases hc with hc | hc
          · exact absurd hc hd1
          · exact absurd hc hd2
        · exact ⟨d, e, hd1, hd2⟩
      rcases hc with hc | hc <;> subst hc <;> simpa [List.dropWhile] using ih hcs
    · have hc1 : c ≠ ' ' := fun e => hc (Or.inl e)
      have hc2 : c ≠ '\t' := fun e => hc (Or.inr e)
      simp [List.dropWhile, hc1, hc2]

/-- An indented line with a character other than space and tab: the accumulator is
flushed and restarts with the stripped line. -/
theorem extractLine_indented (st : WordDocument.ExtractState) (line : Str)
    (hfirst : ∃ c ∈ line.head?, c = ' ' ∨ c = '\t')
    (hother : ∃ c ∈ line, c ≠ ' ' ∧ c ≠ '\t') :
    WordDocument.extractLine st line = .ok
      { currentParagraph := line.dropWhile (fun c => c = ' ' || c = '\t'),
        elements_ := (WordDocument.flush st).elements_ } := by
  obtain ⟨i, h1, h2, h3⟩ := find_first_not_of_blank line hother
  cases line with
  | nil => simp at hother
  | cons c rest =>
    obtain ⟨d, hd, hd1⟩ := hfirst
    have hdc : d = c := by simpa using hd.symm
    subst hdc
    have hle : ¬ (i > (d :: rest).length) := by omega
    have hcur : (WordDocument.flush st).currentParagraph = [] := by
      unfold WordDocument.flush
      by_cases he : st.currentParagraph = []
      · simp [he]
      · simp [he]
    simp only [WordDocument.extractLine, hd1, if_true, h1, substr, hle, if_false, h3,
      WordDocument.appendLine, hcur, List.isEmpty_nil, Bool.not_true, Bool.false_eq_true,
      List.nil_append]

/-- C6: a line that begins with a space or tab and holds a character other than space
and tab is a paragraph boundary: a non-empty pending accumulator is emitted as a
paragraph, the new accumulator is the line without its leading spaces and tabs (not
empty), and a following non-blank, non-indented line is appended to it after one space.
The output `"a\n  b\nc"` gives the paragraphs `"a"` and `"b c"`. -/
theorem C6_indented_line_is_boundary (st : WordDocument.ExtractState) (line : Str)
    (hfirst : ∃ c ∈ line.head?, c = ' ' ∨ c = '\t')
    (hother : ∃ c ∈ line, c ≠ ' ' ∧ c ≠ '\t') :
    WordDocument.extractLine st line = .ok
      { currentParagraph := line.dropWhile (fun c => c = ' ' || c = '\t'),
        elements_ :=
          if st.currentParagraph = [] then st.elements_
          else st.elements_ ++ [singleTextParagraph st.currentParagraph] } ∧
    line.dropWhile (fun c => c = ' ' || c = '\t') ≠ [] ∧
    (∀ (next : Str) (elements : List DocumentElement), next ≠ [] →
      (∀ c ∈ next.head?, c ≠ ' ' ∧ c ≠ '\t') →
      WordDocument.extractLine
        { currentParagraph := line.dropWhile (fun c => c = ' ' || c = '\t'),
          elements_ := elements } next = .ok
        { currentParagraph :=
            line.dropWhile (fun c => c = ' ' || c = '\t') ++ " ".toList ++ next,
          elements_ := elements }) ∧
    WordDocument.extractTextFromAntiwordOutput "a\n  b\nc".toList {} =
      .returned { elements_ :=
        [singleTextParagraph "a".toList, singleTextParagraph "b c".toList] } := by
  have hne := dropWhile_blank_ne_nil line hother
  refine ⟨?_, hne, ?_, by decide⟩
  · rw [extractLine_indented st line hfirst hother]
    by_cases he : st.currentParagraph = []
    · simp [WordDocument.flush, he]
    · simp [WordDocument.flush, he, paragraphOf_eq]
  · intro next elements hnext hplain
    rw [extractLine_plain _ next hnext hplain]
    simp [WordDocument.appendLine, hne]

/-- C6 at the line `"  b"` with the pending accumulator `"a"`: the paragraph `"a"` is
emitted and the accumulator restarts as `"b"`. -/
theorem C6_indented_line_is_boundary_witness :
    WordDocument.extractLine { currentParagraph := "a".toList, elements_ := [] } "  b".toList =
      .ok { currentParagraph := "b".toList, elements_ := [singleTextParagraph "a".toList] } :=
  (C6_indented_line_is_boundary { currentParagraph := "a".toList, elements_ := [] }
    "  b".toList ⟨' ', by decide, by decide⟩ ⟨'b', by decide, by decide⟩).1

/-! ## Re-serialising the reconstructed paragraphs -/

/-- No line that `getline` delivers holds a newline. -/
theorem getLines_no_newline (output : Str) : ∀ line ∈ getLines output, '\n' ∉ line := by
  induction output with
  | nil => simp [getLines]
  | cons c cs ih =>
    by_cases hc : c = '\n'
    · subst hc
      simp only [getLines, if_true, List.mem_cons]
      rintro line (h | h)
      · subst h; simp
      · exact ih line h
    · simp only [getLines, hc, if_false]
      cases hg : getLines cs with
      | nil =>
        intro line h
        simp only [List.mem_singleton] at h
        subst h
        simpa using fun e => hc e.symm
      | cons l ls =>
        rw [hg] at ih
        intro line h
        rcases List.mem_cons.mp h with h | h
        · subst h
          have := ih l (List.mem_cons_self _ _)
          simp only [List.mem_cons, not_or]
          exact ⟨fun e => hc e.symm, this⟩
        · exact ih line (List.mem_cons_of_mem _ h)

/-- A text without newline in front of a newline is delivered as one line. -/
theorem getLines_append_newline (text rest : Str) (h : '\n' ∉ text) :
    getLines (text ++ '\n' :: rest) = text :: getLines rest := by
  induction text with
  | nil => simp [getLines]
  | cons c cs ih =>
    have hc : c ≠ '\n' := fun e => h (by simp [e])
    have hcs : '\n' ∉ cs := fun e => h (List.mem_cons_of_mem _ e)
    simp only [List.cons_append, getLines, hc, if_false, List.append_eq, ih hcs]

/-- A non-empty text without newline is delivered as one line. -/
theorem getLines_single (text : Str) (hne : text ≠ []) (h : '\n' ∉ text) :
    getLines text = [text] := by
  induction text with
  | nil => exact absurd rfl hne
  | cons c cs ih =>
    have hc : c ≠ '\n' := fun e => h (by simp [e])
    have hcs : '\n' ∉ cs := fun e => h (List.mem_cons_of_mem _ e)
    cases cs with
    | nil => simp [getLines, hc]
    | cons d ds => simp only [getLines, hc, if_false] at ih ⊢; rw [ih (by simp) hcs]

/-- The loop passes an empty line by flushing. -/
theorem extractLoop_cons_blank (rest : List Str) (st : WordDocument.ExtractState) :
    WordDocument.extractLoop ([] :: rest) st =
      WordDocument.extractLoop rest (WordDocument.flush st) := by
  simp only [WordDocument.extractLoop, WordDocument.extractLine]

/-- The loop passes a line that is neither empty nor indented by appending it. -/
theorem extractLoop_cons_plain (line : Str) (rest : List Str) (st : WordDocument.ExtractState)
    (hne : line ≠ []) (hplain : ∀ c ∈ line.head?, c ≠ ' ' ∧ c ≠ '\t') :
    WordDocument.extractLoop (line :: rest) st =
      WordDocument.extractLoop rest (WordDocument.appendLine st line) := by
  simp only [WordDocument.extractLoop, extractLine_plain st line hne hplain]

/-- The loop on the paragraphs re-serialised with blank-line separators gives these
paragraphs back. -/
theorem extractLoop_reserialised (texts : List Str) (h : ∀ text ∈ texts, emittedText text)
    (elements : List DocumentElement) :
    ∃ st1, WordDocument.extractLoop (getLines (List.intercalate "\n\n".toList texts))
        { currentParagraph := [], elements_ := elements } = .ok st1 ∧
      (WordDocument.flush st1).elements_ = elements ++ texts.map singleTextParagraph := by
  induction texts generalizing elements with
  | nil => exact ⟨_, rfl, by simp [flush_nil]⟩
  | cons p rest ih =>
    obtain ⟨hne, hnl, hhead⟩ := h p (List.mem_cons_self _ _)
    have happ : WordDocument.appendLine { currentParagraph := [], elements_ := elements } p =
        { currentParagraph := p, elements_ := elements } := by
      simp [WordDocument.appendLine]
    cases rest with
    | nil =>
      have hl : getLines (List.intercalate "\n\n".toList [p]) = [p] := by
        simpa [List.intercalate] using getLines_single p hne hnl
      rw [hl]
      refine ⟨{ currentParagraph := p, elements_ := elements }, ?_, ?_⟩
      · rw [extractLoop_cons_plain _ _ _ hne hhead, happ]
        rfl
      · rw [flush_ne _ _ hne]
        simp
    | cons q more =>
      have hl : getLines (List.intercalate "\n\n".toList (p :: q :: more)) =
          p :: [] :: getLines (List.intercalate "\n\n".toList (q :: more)) := by
        have e : List.intercalate "\n\n".toList (p :: q :: more) =
            p ++ '\n' :: ([] ++ '\n' :: List.intercalate "\n\n".toList (q :: more)) := by
          simp [List.intercalate, List.intersperse]
        rw [e, getLines_append_newline _ _ hnl, getLines_append_newline _ _ (by simp)]
      obtain ⟨st1, h1, h2⟩ := ih (fun t ht => h t (List.mem_cons_of_mem _ ht))
        (elements ++ [singleTextParagraph p])
      refine ⟨st1, ?_, ?_⟩
      · rw [hl]
        rw [extractLoop_cons_plain _ _ _ hne hhead, happ, extractLoop_cons_blank,
          flush_ne _ _ hne]
        exact h1
      · rw [h2]
        simp
/-- On a line of spaces and tabs only, `find_first_not_of` finds nothing. -/
theorem find_first_not_of_all_blank (line : Str) (h : ∀ c ∈ line, c = ' ' ∨ c = '\t') :
    find_first_not_of line " \t".toList = none := by
  induction line with
  | nil => rfl
  | cons c cs ih =>
    have hcs := ih (fun d hd => h d (List.mem_cons_of_mem _ hd))
    rcases h c (List.mem_cons_self _ _) with hc | hc <;> subst hc <;>
      simp [find_first_not_of] <;> exact hcs

/-- The stripped form of a line does not begin with a space or tab. -/
theorem head_dropWhile_blank (line : Str) :
    ∀ c ∈ (line.dropWhile (fun c => c = ' ' || c = '\t')).head?, c ≠ ' ' ∧ c ≠ '\t' := by
  induction line with
  | nil => simp
  | cons d ds ih =>
    by_cases hd : d = ' ' ∨ d = '\t'
    · rcases hd with hd | hd <;> subst hd <;> simpa [List.dropWhile] using ih
    · have hd1 : d ≠ ' ' := fun e => hd (Or.inl e)
      have hd2 : d ≠ '\t' := fun e => hd (Or.inr e)
      simp [List.dropWhile, hd1, hd2]

/-- The stripped form of a line without newline holds no newline. -/
theorem dropWhile_blank_no_newline (line : Str) (h : '\n' ∉ line) :
    '\n' ∉ line.dropWhile (fun c => c = ' ' || c = '\t') :=
  fun hmem => h ((List.dropWhile_suffix _).subset hmem)

/-- Flushing keeps the elements a list of emitted texts behind `base` and leaves the
accumulator empty. -/
theorem flush_emitted (st : WordDocument.ExtractState) (base : List DocumentElement)
    (texts : List Str) (hel : st.elements_ = base ++ texts.map singleTextParagraph)
    (htexts : ∀ t ∈ texts, emittedText t)
    (hcur : st.currentParagraph = [] ∨ emittedText st.currentParagraph) :
    (WordDocument.flush st).currentParagraph = [] ∧
    ∃ texts1 : List Str, (WordDocument.flush st).elements_ = base ++ texts1.map singleTextParagraph ∧
      ∀ t ∈ texts1, emittedText t := by
  obtain ⟨cur, elements⟩ := st
  simp only at hel hcur
  by_cases he : cur = []
  · subst he
    rw [flush_nil]
    exact ⟨rfl, texts, hel, htexts⟩
  · rw [flush_ne _ _ he]
    refine ⟨rfl, texts ++ [cur], by simp [hel], ?_⟩
    intro t ht
    rcases List.mem_append.mp ht with h | h
    · exact htexts t h
    · rw [List.mem_singleton.mp h]
      exact hcur.resolve_left he

/-- One pass of the loop body keeps the invariant: the elements are emitted texts behind
`base`, and the accumulator is empty or an emitted text. -/
theorem extractLine_emitted (st st1 : WordDocument.ExtractState) (line : Str)
    (hnl : '\n' ∉ line) (base : List DocumentElement) (texts : List Str)
    (hel : st.elements_ = base ++ texts.map singleTextParagraph)
    (htexts : ∀ t ∈ texts, emittedText t)
    (hcur : st.currentParagraph = [] ∨ emittedText st.currentParagraph)
    (hstep : WordDocument.extractLine st line = .ok st1) :
    (st1.currentParagraph = [] ∨ emittedText st1.currentParagraph) ∧
    ∃ texts1 : List Str, st1.elements_ = base ++ texts1.map singleTextParagraph ∧
      ∀ t ∈ texts1, emittedText t := by
  cases line with
  | nil =>
    have e : WordDocument.flush st = st1 := by
      simpa [WordDocument.extractLine] using hstep
    rw [← e]
    obtain ⟨h1, h2⟩ := flush_emitted st base texts hel htexts hcur
    exact ⟨Or.inl h1, h2⟩
  | cons c rest =>
    by_cases hc : c = ' ' ∨ c = '\t'
    · by_cases hother : ∃ d ∈ c :: rest, d ≠ ' ' ∧ d ≠ '\t'
      · rw [extractLine_indented st _ ⟨c, by simp, hc⟩ hother] at hstep
        have e := Except.ok.inj hstep
        rw [← e]
        obtain ⟨_, h2⟩ := flush_emitted st base texts hel htexts hcur
        exact ⟨Or.inr ⟨dropWhile_blank_ne_nil _ hother, dropWhile_blank_no_newline _ hnl,
          head_dropWhile_blank _⟩, h2⟩
      · have hall : ∀ d ∈ c :: rest, d = ' ' ∨ d = '\t' := by
          intro d hd
          by_contra hn
          exact hother ⟨d, hd, fun e => hn (Or.inl e), fun e => hn (Or.inr e)⟩
        have hf := find_first_not_of_all_blank _ hall
        simp only [WordDocument.extractLine, hc, if_true, hf, substr] at hstep
        cases hstep
    · have hc1 : c ≠ ' ' := fun e => hc (Or.inl e)
      have hc2 : c ≠ '\t' := fun e => hc (Or.inr e)
      have hplain : ∀ d ∈ (c :: rest).head?, d ≠ ' ' ∧ d ≠ '\t' := by
        intro d hd
        have : c = d := by simpa using hd
        exact this ▸ ⟨hc1, hc2⟩
      rw [extractLine_plain st _ (by simp) hplain] at hstep
      have e := Except.ok.inj hstep
      rw [← e]
      refine ⟨Or.inr ?_, texts, hel, htexts⟩
      by_cases hempty : st.currentParagraph = []
      · simp only [WordDocument.appendLine, hempty, List.isEmpty_nil, Bool.not_true,
          Bool.false_eq_true, if_false, List.nil_append]
        exact ⟨by simp, hnl, hplain⟩
      · obtain ⟨_, h2, h3⟩ := hcur.resolve_left hempty
        have hie : st.currentParagraph.isEmpty = false := by
          simpa [List.isEmpty_iff] using hempty
        simp only [WordDocument.appendLine, hie, Bool.not_false, if_true]
        refine ⟨by simp [hempty], ?_, ?_⟩
        · intro hmem
          rcases List.mem_append.mp hmem with h | h
          · rcases List.mem_append.mp h with h | h
            · exact h2 h
            · simp at h
          · exact hnl h
        · intro d hd
          apply h3 d
          cases hcp : st.currentParagraph with
          | nil => exact absurd hcp hempty
          | cons a as => rw [hcp] at hd; simpa using hd

/-- The loop keeps the invariant of `extractLine_emitted`. -/
theorem extractLoop_emitted (lines : List Str) (hnl : ∀ line ∈ lines, '\n' ∉ line)
    (st st1 : WordDocument.ExtractState) (base : List DocumentElement) (texts : List Str)
    (hel : st.elements_ = base ++ texts.map singleTextParagraph)
    (htexts : ∀ t ∈ texts, emittedText t)
    (hcur : st.currentParagraph = [] ∨ emittedText st.currentParagraph)
    (hloop : WordDocument.extractLoop lines st = .ok st1) :
    (st1.currentParagraph = [] ∨ emittedText st1.currentParagraph) ∧
    ∃ texts1 : List Str, st1.elements_ = base ++ texts1.map singleTextParagraph ∧
      ∀ t ∈ texts1, emittedText t := by
  induction lines generalizing st texts with
  | nil =>
    have e : st = st1 := by simpa [WordDocument.extractLoop] using hloop
    exact e ▸ ⟨hcur, texts, hel, htexts⟩
  | cons line rest ih =>
    simp only [WordDocument.extractLoop] at hloop
    cases hstep : WordDocument.extractLine st line with
    | error elements => rw [hstep] at hloop; cases hloop
    | ok st2 =>
      rw [hstep] at hloop
      obtain ⟨h1, texts2, h2, h3⟩ := extractLine_emitted st st2 line
        (hnl line (List.mem_cons_self _ _)) base texts hel htexts hcur hstep
      exact ih (fun l hl => hnl l (List.mem_cons_of_mem _ hl)) st2 texts2 h2 h3 h1 hloop

/-- C7: when `extractTextFromAntiwordOutput` returns, having appended the paragraphs with
the texts `p1..pn`, then on these texts re-serialised with blank-line separators
(`p1 "\n\n" p2 ... pn`) it returns as well and appends the paragraphs with the same
texts in the same order, hence the same number of paragraphs. -/
theorem C7_reserialise_idempotent (output : Str) (doc doc1 : WordDocument)
    (h : WordDocument.extractTextFromAntiwordOutput output doc = .returned doc1) :
    ∃ texts : List Str,
      doc1.elements_ = doc.elements_ ++ texts.map singleTextParagraph ∧
      ∀ doc2 : WordDocument,
        WordDocument.extractTextFromAntiwordOutput
            (List.intercalate "\n\n".toList texts) doc2 =
          .returned { doc2 with
            elements_ := doc2.elements_ ++ texts.map singleTextParagraph } := by
  unfold WordDocument.extractTextFromAntiwordOutput at h
  cases hloop : WordDocument.extractLoop (getLines output)
      { currentParagraph := [], elements_ := doc.elements_ } with
  | error elements => rw [hloop] at h; cases h
  | ok st =>
    rw [hloop] at h
    obtain ⟨h1, texts1, h2, h3⟩ := extractLoop_emitted (getLines output)
      (getLines_no_newline output) _ st doc.elements_ [] (by simp) (by simp) (Or.inl rfl) hloop
    obtain ⟨_, texts, h4, h5⟩ := flush_emitted st doc.elements_ texts1 h2 h3 h1
    refine ⟨texts, ?_, ?_⟩
    · have e := Outcome.returned.inj h
      rw [← e]
      exact h4
    · intro doc2
      obtain ⟨st2, h6, h7⟩ := extractLoop_reserialised texts h5 doc2.elements_
      simp only [WordDocument.extractTextFromAntiwordOutput, h6, h7]

/-- C7 at the output `"a\n  b\nc"`: the reconstructed texts `"a"` and `"b c"` are
re-serialised as `"a\n\nb c"`, from which the same two paragraphs are reconstructed. -/
theorem C7_reserialise_idempotent_witness :
    ∃ texts : List Str,
      [singleTextParagraph "a".toList, singleTextParagraph "b c".toList] =
        [] ++ texts.map singleTextParagraph ∧
      ∀ doc2 : WordDocument,
        WordDocument.extractTextFromAntiwordOutput
            (List.intercalate "\n\n".toList texts) doc2 =
          .returned { doc2 with
            elements_ := doc2.elements_ ++ texts.map singleTextParagraph } :=
  C7_reserialise_idempotent "a\n  b\nc".toList {}
    { elements_ := [singleTextParagraph "a".toList, singleTextParagraph "b c".toList] }
    (by decide)

/-! ## Failure of the legacy load path -/

/-- C8 (counterexample): the extractor exits with status 0 and its output holds a line
that consists of one space; `parseDocDocument` on an empty document fails with the
`std::out_of_range` of `substr`, and the paragraph `"a"` that was flushed before the throw
stays in the element list. -/
theorem C8_partial_elements_kept :
    WordDocument.parseDocDocument blankLineEnv "legacy.doc".toList {} =
      .threw "basic_string::substr".toList { elements_ := [singleTextParagraph "a".toList] } ∧
    ¬ (∀ (env : Env) (filePath what : Str) (doc doc1 : WordDocument),
        WordDocument.parseDocDocument env filePath doc = .threw what doc1 →
        doc1.getElements = doc.getElements) := by
  have h : WordDocument.parseDocDocument blankLineEnv "legacy.doc".toList {} =
      .threw "basic_string::substr".toList
        { elements_ := [singleTextParagraph "a".toList] } := by decide
  refine ⟨h, fun hall => ?_⟩
  have := hall blankLineEnv "legacy.doc".toList _ {} _ h
  exact absurd this (by decide)

/-- C8 (amended): whenever `parseDocDocument` fails because the tool cannot be started or
exits with a non-zero status, it throws with the document, and so its element list,
exactly as before the call. -/
theorem C8_tool_failure_keeps_elements (env : Env) (filePath : Str) (doc : WordDocument)
    (h : env.popen ("antiword -t ".toList ++ filePath) = .popenFailed ∨
      ∃ output status, status ≠ 0 ∧
        env.popen ("antiword -t ".toList ++ filePath) = .exited output status) :
    ∃ what doc1, WordDocument.parseDocDocument env filePath doc = .threw what doc1 ∧
      doc1 = doc ∧ doc1.getElements = doc.getElements := by
  rcases h with h | ⟨output, status, hs, h⟩
  · exact ⟨"Failed to execute antiword command".toList, doc,
      by simp only [WordDocument.parseDocDocument, h], rfl, rfl⟩
  · exact ⟨"antiword command failed".toList, doc,
      by simp only [WordDocument.parseDocDocument, h, if_pos hs], rfl, rfl⟩

/-- C8 (amended) at an extractor that exits with status 1, on a document that holds one
element. -/
theorem C8_tool_failure_keeps_elements_witness :
    ∃ what doc1, WordDocument.parseDocDocument failingToolEnv "legacy.doc".toList
        { elements_ := [singleTextParagraph "old".toList] } = .threw what doc1 ∧
      doc1 = { elements_ := [singleTextParagraph "old".toList] } ∧
      doc1.getElements = [singleTextParagraph "old".toList] :=
  C8_tool_failure_keeps_elements failingToolEnv "legacy.doc".toList
    { elements_ := [singleTextParagraph "old".toList] }
    (Or.inr ⟨"a\n".toList, 1, by decide, rfl⟩)

/-! ## `parseParagraph` -/

/-- The libxml2 substring search finds something exactly when `val` occurs in `str`. -/
theorem xmlStrstr_isSome_iff (str val : Str) :
    (xmlStrstr str val).isSome = true ↔ List.IsInfix val str := by
  induction str with
  | nil =>
    by_cases hv : val = []
    · simp [xmlStrstr, hv]
    · simp [xmlStrstr, hv]
  | cons c cs ih =>
    rw [List.infix_cons_iff, ← ih]
    by_cases hp : val.isPrefixOf (c :: cs) = true
    · simp [xmlStrstr, hp, List.isPrefixOf_iff_prefix.mp hp]
    · have hnp : ¬ List.IsPrefix val (c :: cs) := fun h => hp (List.isPrefixOf_iff_prefix.mpr h)
      simp [xmlStrstr, hp, hnp]

/-- The paragraph loop adds the direct texts, in order, to the texts it is given. -/
theorem paragraphOfChildren_eq (children : List XmlNode) (paragraph : ParagraphElement) :
    WordDocument.paragraphOfChildren children paragraph =
      { texts_ := paragraph.texts_ ++
          (children.filterMap
            (fun child => if child.type = .XML_TEXT_NODE then child.content else none)).map
            (fun t => { text_ := t }) } := by
  induction children generalizing paragraph with
  | nil => simp [WordDocument.paragraphOfChildren]
  | cons child rest ih =>
    obtain ⟨type, name, props, content, cs⟩ := child
    cases type <;> cases content <;>
      simp [WordDocument.paragraphOfChildren, XmlNode.type, XmlNode.content, ih,
        ParagraphElement.addText]

/-- The result of `parseParagraph` on a node that is not styled as a heading. -/
theorem parseParagraph_plain (node : XmlNode) (doc : WordDocument)
    (hstyle : ((xmlGetProp node "style".toList).bind
      (fun s => xmlStrstr s "Heading".toList)).isSome = false) :
    WordDocument.parseParagraph node doc = .returned { doc with elements_ := doc.elements_ ++
      (if directTexts node = [] then []
       else [.Paragraph { texts_ := (directTexts node).map (fun t => { text_ := t }) }]) } := by
  simp only [WordDocument.parseParagraph, hstyle, Bool.false_eq_true, if_false,
    paragraphOfChildren_eq, ParagraphElement.getTexts, List.nil_append]
  by_cases he : directTexts node = []
  · simp only [directTexts] at he
    simp [directTexts, he]
  · have he2 := he
    simp only [directTexts] at he2
    simp [directTexts, he2, WordDocument.addElement]
/-- Whenever `parseParagraph` returns it has appended elements none of which is a
paragraph without text runs. -/
theorem parseParagraph_appended (node : XmlNode) (doc doc1 : WordDocument)
    (h : WordDocument.parseParagraph node doc = .returned doc1) :
    ∃ added : List DocumentElement, doc1.elements_ = doc.elements_ ++ added ∧
      DocumentElement.Paragraph { texts_ := [] } ∉ added := by
  cases hstyle : ((xmlGetProp node "style".toList).bind
      (fun s => xmlStrstr s "Heading".toList)).isSome with
  | false =>
    rw [parseParagraph_plain node doc hstyle] at h
    have e := Outcome.returned.inj h
    rw [← e]
    refine ⟨_, rfl, ?_⟩
    by_cases he : directTexts node = []
    · simp [he]
    · simp [he]
  | true =>
    simp only [WordDocument.parseParagraph, hstyle, if_true] at h
    cases hsp : (xmlGetProp node "style".toList).bind (fun s => xmlStrstr s " ".toList) with
    | none => rw [hsp] at h; cases h
    | some atSpace =>
      rw [hsp] at h
      cases hat : atoi (atSpace.drop 1) with
      | none => simp only [hat] at h; cases h
      | some level =>
        simp only [hat] at h
        have e := Outcome.returned.inj h
        rw [← e]
        exact ⟨_, rfl, by simp⟩

/-- The method `parseTable` appends one table. -/
theorem parseTable_appended (node : XmlNode) (doc : WordDocument) :
    ∃ added : List DocumentElement,
      (WordDocument.parseTable node doc).elements_ = doc.elements_ ++ added ∧
      DocumentElement.Paragraph { texts_ := [] } ∉ added :=
  ⟨_, rfl, by simp⟩

/-- Whenever `parseImage` returns it has appended an image or nothing. -/
theorem parseImage_appended (env : Env) (node : XmlNode) (doc doc1 : WordDocument)
    (h : WordDocument.parseImage env node doc = .returned doc1) :
    ∃ added : List DocumentElement, doc1.elements_ = doc.elements_ ++ added ∧
      DocumentElement.Paragraph { texts_ := [] } ∉ added := by
  unfold WordDocument.parseImage at h
  cases hb : WordDocument.firstChildNamed node "blip".toList with
  | none =>
    rw [hb] at h
    exact ⟨[], by rw [← Outcome.returned.inj h]; simp, by simp⟩
  | some blipNode =>
    rw [hb] at h
    cases hid : xmlGetProp blipNode "embed".toList with
    | none =>
      simp only [hid] at h
      exact ⟨[], by rw [← Outcome.returned.inj h]; simp, by simp⟩
    | some imageId =>
      simp only [hid] at h
      cases hsz : WordDocument.imageSize node with
      | none => simp only [hsz] at h; cases h
      | some size =>
        obtain ⟨width, height⟩ := size
        simp only [hsz] at h
        by_cases hd : (WordDocument.extractImageData env doc imageId
            (WordDocument.imageFormat node)).isEmpty = true
        · simp only [hd, Bool.not_true, Bool.false_eq_true, if_false] at h
          exact ⟨[], by rw [← Outcome.returned.inj h]; simp, by simp⟩
        · simp only [hd, Bool.not_false, if_true] at h
          exact ⟨_, by rw [← Outcome.returned.inj h]; rfl, by simp⟩

/-- Whenever the loop of `parseDocument` returns it has appended elements none of which
is a paragraph without text runs. -/
theorem parseDocumentLoop_appended (env : Env) (children : List XmlNode)
    (doc doc1 : WordDocument)
    (h : WordDocument.parseDocumentLoop env children doc = .returned doc1) :
    ∃ added : List DocumentElement, doc1.elements_ = doc.elements_ ++ added ∧
      DocumentElement.Paragraph { texts_ := [] } ∉ added := by
  induction children generalizing doc with
  | nil =>
    simp only [WordDocument.parseDocumentLoop] at h
    exact ⟨[], by rw [← Outcome.returned.inj h]; simp, by simp⟩
  | cons node rest ih =>
    unfold WordDocument.parseDocumentLoop at h
    split at h
    · split at h
      · cases hp : WordDocument.parseParagraph node doc with
        | returned doc2 =>
          rw [hp] at h
          obtain ⟨a1, h1, h2⟩ := parseParagraph_appended node doc doc2 hp
          obtain ⟨a2, h3, h4⟩ := ih doc2 h
          exact ⟨a1 ++ a2, by rw [h3, h1, List.append_assoc], by simp [h2, h4]⟩
        | threw what d => rw [hp] at h; cases h
        | undefined => rw [hp] at h; cases h
      · split at h
        · obtain ⟨a1, h1, h2⟩ := parseTable_appended node doc
          obtain ⟨a2, h3, h4⟩ := ih _ h
          exact ⟨a1 ++ a2, by rw [h3, h1, List.append_assoc], by simp [h2, h4]⟩
        · split at h
          · cases hp : WordDocument.parseImage env node doc with
            | returned doc2 =>
              rw [hp] at h
              obtain ⟨a1, h1, h2⟩ := parseImage_appended env node doc doc2 hp
              obtain ⟨a2, h3, h4⟩ := ih doc2 h
              exact ⟨a1 ++ a2, by rw [h3, h1, List.append_assoc], by simp [h2, h4]⟩
            | threw what d => rw [hp] at h; cases h
            | undefined => rw [hp] at h; cases h
          · exact ih doc h
    · exact ih doc h

/-- C9: for a `p` node whose style attribute is absent or does not contain `Heading`,
`parseParagraph` returns, having appended one paragraph with one text element per direct
text-node child that has content, in child order and with that child's text, or nothing
when there is no such child; and whenever `parseDocument` returns, none of the elements
it has appended is a paragraph without text runs. -/
theorem C9_plain_paragraph_runs (env : Env) (node : XmlNode) (doc : WordDocument)
    (hstyle : ∀ style, xmlGetProp node "style".toList = some style →
      ¬ List.IsInfix "Heading".toList style) :
    WordDocument.parseParagraph node doc = .returned { doc with elements_ := doc.elements_ ++
      (if directTexts node = [] then []
       else [.Paragraph { texts_ := (directTexts node).map (fun t => { text_ := t }) }]) } ∧
    ∀ (xmlDoc : XmlDoc) (doc0 doc1 : WordDocument),
      WordDocument.parseDocument env xmlDoc doc0 = .returned doc1 →
      ∃ added : List DocumentElement, doc1.getElements = doc0.getElements ++ added ∧
        DocumentElement.Paragraph { texts_ := [] } ∉ added := by
  constructor
  · apply parseParagraph_plain
    cases hs : xmlGetProp node "style".toList with
    | none => rfl
    | some style =>
      have hn := hstyle style hs
      rw [← xmlStrstr_isSome_iff] at hn
      simpa using hn
  · intro xmlDoc doc0 doc1 h
    unfold WordDocument.parseDocument at h
    cases hr : xmlDoc.root with
    | none =>
      rw [hr] at h
      exact ⟨[], by rw [← Outcome.returned.inj h]; simp, by simp⟩
    | some root =>
      rw [hr] at h
      exact parseDocumentLoop_appended env root.children doc0 doc1 h

/-- C9 at a `p` node with the style `Normal` whose children are the text `Hello `, an element and
the text `world`: one paragraph with the two text runs; and at the document whose root
holds that node and an empty `p` node: the same single paragraph. -/
theorem C9_plain_paragraph_runs_witness :
    WordDocument.parseParagraph plainParagraphNode {} = .returned { elements_ :=
      [.Paragraph { texts_ := [{ text_ := "Hello ".toList }, { text_ := "world".toList }] }] } ∧
    ∃ added : List DocumentElement,
      [DocumentElement.Paragraph
        { texts_ := [{ text_ := "Hello ".toList }, { text_ := "world".toList }] }] =
        [] ++ added ∧
      DocumentElement.Paragraph { texts_ := [] } ∉ added :=
  ⟨(C9_plain_paragraph_runs wordEnv plainParagraphNode {} (by
      intro style hs
      have e : "Normal".toList = style :=
        Option.some.inj (show some "Normal".toList = some style from hs)
      subst e
      decide)).1,
   (C9_plain_paragraph_runs wordEnv plainParagraphNode {} (by
      intro style hs
      have e : "Normal".toList = style :=
        Option.some.inj (show some "Normal".toList = some style from hs)
      subst e
      decide)).2
     { root := some (.mk .XML_ELEMENT_NODE "document".toList [] none
        [plainParagraphNode, .mk .XML_ELEMENT_NODE "p".toList [] none []]) }
     {} { elements_ := [.Paragraph
        { texts_ := [{ text_ := "Hello ".toList }, { text_ := "world".toList }] }] }
     (by decide)⟩

/-- C10 (the code at the failing input): the style `Heading 2` gives a heading of level
2 with the text of the node; the style `My Heading 2` contains `Heading`, the integer
after the first space that follows `Heading` is 2, and `parseParagraph` emits a heading of
level 1, because it reads the level after the first space of the whole style string
(`atoi("Heading 2")` is 0, clamped to 1). -/
theorem C10_heading_level_after_first_space :
    WordDocument.parseParagraph (styledParagraphNode "Heading 2".toList) {} =
      .returned { elements_ := [.Heading { text_ := "Intro".toList, level_ := 2 }] } ∧
    List.IsInfix "Heading".toList "My Heading 2".toList ∧
    xmlStrstr "My Heading 2".toList " ".toList = some " Heading 2".toList ∧
    atoi "Heading 2".toList = some 0 ∧
    WordDocument.parseParagraph (styledParagraphNode "My Heading 2".toList) {} =
      .returned { elements_ := [.Heading { text_ := "Intro".toList, level_ := 1 }] } := by
  decide

/-! ## `parseTable` -/

/-- The cell loop looks at the `p` element children only. -/
theorem parseTableCellLoop_filter (children : List XmlNode) (cellText : Str) :
    WordDocument.parseTableCellLoop children cellText =
      WordDocument.parseTableCellLoop
        (children.filter (fun c => c.type = .XML_ELEMENT_NODE ∧ c.name = "p".toList))
        cellText := by
  induction children generalizing cellText with
  | nil => rfl
  | cons child rest ih =>
    by_cases hc : child.type = .XML_ELEMENT_NODE ∧ child.name = "p".toList
    · simp only [WordDocument.parseTableCellLoop, hc, and_self, if_true, List.filter_cons,
        decide_True]
      exact ih _
    · simp only [WordDocument.parseTableCellLoop, hc, if_false, List.filter_cons,
        decide_False, Bool.false_eq_true]
      exact ih _

/-- The row loop adds one cell per `tc` element child, in source order. -/
theorem parseTableRowLoop_eq (children : List XmlNode) (row : TableRow) :
    WordDocument.parseTableRowLoop children row =
      { cells_ := row.cells_ ++
          (children.filter
            (fun c => c.type = .XML_ELEMENT_NODE ∧ c.name = "tc".toList)).map
            WordDocument.parseTableCell } := by
  induction children generalizing row with
  | nil => simp [WordDocument.parseTableRowLoop]
  | cons child rest ih =>
    by_cases hc : child.type = .XML_ELEMENT_NODE ∧ child.name = "tc".toList
    · simp only [WordDocument.parseTableRowLoop, hc, and_self, if_true, ih, TableRow.addCell,
        List.filter_cons, decide_True, List.map_cons, List.append_assoc, List.singleton_append]
    · simp only [WordDocument.parseTableRowLoop, hc, if_false, ih, List.filter_cons,
        decide_False, Bool.false_eq_true]

/-- The table loop adds one row per `tr` element child, in source order. -/
theorem parseTableLoop_eq (children : List XmlNode) (table : TableElement) :
    WordDocument.parseTableLoop children table =
      { rows_ := table.rows_ ++
          (children.filter
            (fun c => c.type = .XML_ELEMENT_NODE ∧ c.name = "tr".toList)).map
            WordDocument.parseTableRow } := by
  induction children generalizing table with
  | nil => simp [WordDocument.parseTableLoop]
  | cons child rest ih =>
    by_cases hc : child.type = .XML_ELEMENT_NODE ∧ child.name = "tr".toList
    · simp only [WordDocument.parseTableLoop, hc, and_self, if_true, ih, TableElement.addRow,
        List.filter_cons, decide_True, List.map_cons, List.append_assoc, List.singleton_append]
    · simp only [WordDocument.parseTableLoop, hc, if_false, ih, List.filter_cons,
        decide_False, Bool.false_eq_true]

/-- C11: for every `tbl` node, `parseTable` appends one table whose rows are, in source
order, the node's `tr` element children, each row's cells being, in source order, that
row's `tc` element children (children of other names or kinds add nothing); a cell
whose `p` element children are the single node `p` has the text content of `p` as its
text.  The 2x3 table of cells `Cell r,c` gives `rows[r].cells[c].text == "Cell r,c"`. -/
theorem C11_table_rows_and_cells (node : XmlNode) (doc : WordDocument) :
    WordDocument.parseTable node doc = doc.addElement (.Table
      { rows_ := (elementChildren node "tr".toList).map (fun tr =>
          { cells_ := (elementChildren tr "tc".toList).map WordDocument.parseTableCell }) }) ∧
    (∀ tc p : XmlNode, elementChildren tc "p".toList = [p] →
      (WordDocument.parseTableCell tc).getText = WordDocument.getNodeText p) ∧
    (WordDocument.parseTable tableNode {}).getElements = [.Table { rows_ :=
      [{ cells_ := [{ text_ := "Cell 0,0".toList }, { text_ := "Cell 0,1".toList },
          { text_ := "Cell 0,2".toList }] },
       { cells_ := [{ text_ := "Cell 1,0".toList }, { text_ := "Cell 1,1".toList },
          { text_ := "Cell 1,2".toList }] }] }] := by
  refine ⟨?_, ?_, by decide⟩
  · simp only [WordDocument.parseTable, parseTableLoop_eq, elementChildren, List.nil_append]
    congr 3
    apply List.map_congr_left
    intro tr _
    simp only [WordDocument.parseTableRow, parseTableRowLoop_eq, List.nil_append]
  · intro tc p hp
    simp only [elementChildren] at hp
    simp only [WordDocument.parseTableCell, TableCell.getText]
    have hmem : p ∈ List.filter
        (fun c => decide (c.type = .XML_ELEMENT_NODE ∧ c.name = "p".toList)) tc.children := by
      rw [hp]
      exact List.mem_singleton_self p
    have hpp : p.type = .XML_ELEMENT_NODE ∧ p.name = "p".toList :=
      of_decide_eq_true (List.mem_filter.mp hmem).2
    rw [parseTableCellLoop_filter, hp]
    simp only [WordDocument.parseTableCellLoop, hpp, and_self, if_true, List.isEmpty_nil,
      Bool.not_true, Bool.false_eq_true, if_false, List.nil_append]

/-- C11 at a cell that holds a comment and the single paragraph `Cell 0,0`. -/
theorem C11_table_rows_and_cells_witness :
    (WordDocument.parseTableCell (.mk .XML_ELEMENT_NODE "tc".toList [] none
      [.mk .XML_COMMENT_NODE "comment".toList [] (some "x".toList) [],
       .mk .XML_ELEMENT_NODE "p".toList [] none
        [.mk .XML_TEXT_NODE "text".toList [] (some "Cell 0,0".toList) []]])).getText =
      WordDocument.getNodeText (.mk .XML_ELEMENT_NODE "p".toList [] none
        [.mk .XML_TEXT_NODE "text".toList [] (some "Cell 0,0".toList) []]) :=
  (C11_table_rows_and_cells tableNode {}).2.1 _ _ rfl

/-- C12: for every `tbl` node, `parseTable` appends exactly one table element to the
element list; when the node has no `tr` element child that table has zero rows. -/
theorem C12_table_always_appended (node : XmlNode) (doc : WordDocument) :
    (∃ table : TableElement,
      (WordDocument.parseTable node doc).getElements = doc.getElements ++ [.Table table] ∧
      (elementChildren node "tr".toList = [] → table.getRows = [])) ∧
    (WordDocument.parseTable node doc).getTitle = doc.getTitle := by
  refine ⟨⟨_, rfl, ?_⟩, rfl⟩
  intro h
  simp only [elementChildren] at h
  rw [parseTableLoop_eq, h]
  rfl

/-- C12 at a `tbl` node whose only child is a properties element: one table without
rows is appended to the one element the document holds. -/
theorem C12_table_always_appended_witness :
    ∃ table : TableElement,
      (WordDocument.parseTable
        (.mk .XML_ELEMENT_NODE "tbl".toList [] none
          [.mk .XML_ELEMENT_NODE "tblPr".toList [] none []])
        { elements_ := [singleTextParagraph "old".toList] }).getElements =
        [singleTextParagraph "old".toList] ++ [.Table table] ∧
      table.getRows = [] :=
  let ⟨table, h1, h2⟩ := (C12_table_always_appended
    (.mk .XML_ELEMENT_NODE "tbl".toList [] none
      [.mk .XML_ELEMENT_NODE "tblPr".toList [] none []])
    { elements_ := [singleTextParagraph "old".toList] }).1
  ⟨table, h1, h2 rfl⟩

/-! ## `parseImage`: dimensions -/

/-- The digit fold of `atoi` computes the number the digits denote. -/
theorem digitsValue_eq_decimalValue (digits : Str) :
    digitsValue digits = decimalValue digits := by
  have h : ∀ l : Str, List.foldr (fun c acc => 10 * acc + (c.toNat - 48)) 0 l =
      Nat.ofDigits 10 (l.map (fun c => c.toNat - '0'.toNat)) := by
    intro l
    induction l with
    | nil => rfl
    | cons c cs ih =>
      simp only [List.foldr_cons, List.map_cons, Nat.ofDigits_cons, ih]
      have : '0'.toNat = 48 := rfl
      rw [this]
      omega
  unfold digitsValue decimalValue
  rw [← h, List.foldr_reverse]

/-- A decimal digit is not white space and not a sign. -/
theorem digit_not_space_or_sign (c : Char) (h : c.isDigit = true) :
    isspace c = false ∧ c ≠ '-' ∧ c ≠ '+' := by
  refine ⟨?_, ?_, ?_⟩
  · unfold isspace
    have h1 : c ≠ ' ' := by rintro rfl; exact absurd h (by decide)
    have h2 : c ≠ '\t' := by rintro rfl; exact absurd h (by decide)
    have h3 : c ≠ '\n' := by rintro rfl; exact absurd h (by decide)
    have h4 : c ≠ Char.ofNat 11 := by rintro rfl; exact absurd h (by decide)
    have h5 : c ≠ Char.ofNat 12 := by rintro rfl; exact absurd h (by decide)
    have h6 : c ≠ '\r' := by rintro rfl; exact absurd h (by decide)
    simp [h1, h2, h3, h4, h5, h6]
  · rintro rfl; exact absurd h (by decide)
  · rintro rfl; exact absurd h (by decide)

/-- The sign match of `atoi` on a string that begins with neither sign. -/
theorem atoi_sign_none (t : Str) (h1 : ∀ r, t ≠ '-' :: r) (h2 : ∀ r, t ≠ '+' :: r) :
    atoi.match_1 (fun _ => Bool × Str) t (fun r => (true, r)) (fun r => (false, r))
      (fun _ => (false, t)) = (false, t) := by
  split
  · exact absurd rfl (h1 _)
  · exact absurd rfl (h2 _)
  · rfl

/-- The function `atoi` on a non-empty string of digits. -/
theorem atoi_digits (digits : Str) (hne : digits ≠ []) (hd : ∀ c ∈ digits, c.isDigit = true)
    (hr : ((decimalValue digits : Nat) : Int) ≤ 2147483647) :
    atoi digits = some ((decimalValue digits : Nat) : Int) := by
  cases digits with
  | nil => exact absurd rfl hne
  | cons c cs =>
    obtain ⟨hs, hm, hp⟩ := digit_not_space_or_sign c (hd c (List.mem_cons_self _ _))
    have htw : List.takeWhile Char.isDigit (c :: cs) = c :: cs :=
      List.takeWhile_eq_self_iff.mpr hd
    have hdw : List.dropWhile isspace (c :: cs) = c :: cs := by
      simp only [List.dropWhile, hs]
    have hsig := atoi_sign_none (c :: cs)
      (fun r e => hm (List.cons.inj e).1) (fun r e => hp (List.cons.inj e).1)
    have h0 : (-2147483648 : Int) ≤ ((decimalValue (c :: cs) : Nat) : Int) := by omega
    unfold atoi
    simp only [hdw, hsig, htw, digitsValue_eq_decimalValue, Bool.false_eq_true, if_false,
      h0, hr, and_self, if_true]

/-- The function `atoi` on a minus sign followed by a string of digits. -/
theorem atoi_neg_digits (digits : Str) (hd : ∀ c ∈ digits, c.isDigit = true)
    (hr : -2147483648 ≤ -((decimalValue digits : Nat) : Int)) :
    atoi ('-' :: digits) = some (-((decimalValue digits : Nat) : Int)) := by
  have htw : List.takeWhile Char.isDigit digits = digits :=
    List.takeWhile_eq_self_iff.mpr hd
  have hdw : List.dropWhile isspace ('-' :: digits) = '-' :: digits := by
    have : isspace '-' = false := by decide
    simp only [List.dropWhile, this]
  have h0 : -((decimalValue digits : Nat) : Int) ≤ 2147483647 := by omega
  unfold atoi
  simp only [hdw, htw, digitsValue_eq_decimalValue, if_true, h0, hr, and_self]

/-- The function `atoi` reads a decimal integer within the range of `int` as itself. -/
theorem atoi_decimal (s : Str) (x : Int) (h : IsDecimalInteger s x)
    (hr : -2147483648 ≤ x ∧ x ≤ 2147483647) : atoi s = some x := by
  obtain ⟨digits, hne, hd, ⟨hs, hx⟩ | ⟨hs, hx⟩⟩ := h
  · rw [hx] at hr
    rw [hs, hx]
    exact atoi_digits digits hne hd hr.2
  · rw [hx] at hr
    rw [hs, hx]
    exact atoi_neg_digits digits hd hr.1
/-- C13: when the first `extent` child carries `cx` and `cy` as decimal integers within
the range of `int`, the width and height that `parseImage` computes are `cx / 9525` and
`cy / 9525` with the division that truncates toward zero; without `extent` child, or
with `cx` or `cy` missing, both are 0.  `(0,0)` gives `(0,0)`, and the anchor with
`cx=952500`, `cy=476250` and the jpeg URI yields a 100 x 50 `jpg` image. -/
theorem C13_emu_to_pixels (node : XmlNode) :
    (∀ (extent : XmlNode) (cx cy : Str) (x y : Int),
      WordDocument.firstChildNamed node "extent".toList = some extent →
      xmlGetProp extent "cx".toList = some cx → xmlGetProp extent "cy".toList = some cy →
      IsDecimalInteger cx x → IsDecimalInteger cy y →
      -2147483648 ≤ x ∧ x ≤ 2147483647 → -2147483648 ≤ y ∧ y ≤ 2147483647 →
      WordDocument.imageSize node = some (Int.tdiv x 9525, Int.tdiv y 9525)) ∧
    (WordDocument.firstChildNamed node "extent".toList = none →
      WordDocument.imageSize node = some (0, 0)) ∧
    (∀ extent : XmlNode, WordDocument.firstChildNamed node "extent".toList = some extent →
      xmlGetProp extent "cx".toList = none ∨ xmlGetProp extent "cy".toList = none →
      WordDocument.imageSize node = some (0, 0)) ∧
    (Int.tdiv 0 9525 = 0 ∧ Int.tdiv 952500 9525 = 100 ∧ Int.tdiv 476250 9525 = 50 ∧
      Int.tdiv 9524 9525 = 0 ∧ Int.tdiv (-9526) 9525 = -1) ∧
    WordDocument.parseImage imageEnv
        (drawingNode jpegUri "952500".toList "476250".toList)
        { docxPath_ := "docs/test.docx".toList } =
      .returned { docxPath_ := "docs/test.docx".toList, elements_ := [.Image
        { imageData_ := [255, 216], format_ := "jpg".toList, width_ := 100,
          height_ := 50 }] } := by
  refine ⟨?_, ?_, ?_, by decide, by decide⟩
  · intro extent cx cy x y he hcx hcy hx hy hrx hry
    simp only [WordDocument.imageSize, he, hcx, hcy, atoi_decimal cx x hx hrx,
      atoi_decimal cy y hy hry]
  · intro he
    simp only [WordDocument.imageSize, he]
  · intro extent he hn
    rcases hn with hn | hn
    · simp only [WordDocument.imageSize, he, hn]
    · cases hcx : xmlGetProp extent "cx".toList <;>
        simp only [WordDocument.imageSize, he, hn, hcx]

/-- C13 at the anchors with `cx=952500`, `cy=476250` (100 x 50) and with `cx=-9526`,
`cy=0` (-1 x 0), at a node without `extent` child and at an `extent` without `cy`. -/
theorem C13_emu_to_pixels_witness :
    WordDocument.imageSize (drawingNode jpegUri "952500".toList "476250".toList) =
      some (100, 50) ∧
    WordDocument.imageSize (drawingNode jpegUri "-9526".toList "0".toList) =
      some (-1, 0) ∧
    WordDocument.imageSize plainParagraphNode = some (0, 0) ∧
    WordDocument.imageSize (.mk .XML_ELEMENT_NODE "drawing".toList [] none
      [.mk .XML_ELEMENT_NODE "extent".toList [("cx".toList, "952500".toList)] none []]) =
      some (0, 0) :=
  ⟨((C13_emu_to_pixels (drawingNode jpegUri "952500".toList "476250".toList)).1 _
      "952500".toList "476250".toList 952500 476250 rfl rfl rfl
      ⟨"952500".toList, by decide, by decide, Or.inl ⟨rfl, by decide⟩⟩
      ⟨"476250".toList, by decide, by decide, Or.inl ⟨rfl, by decide⟩⟩
      (by decide) (by decide)).trans (by decide),
   ((C13_emu_to_pixels (drawingNode jpegUri "-9526".toList "0".toList)).1 _
      "-9526".toList "0".toList (-9526) 0 rfl rfl rfl
      ⟨"9526".toList, by decide, by decide, Or.inr ⟨rfl, by decide⟩⟩
      ⟨"0".toList, by decide, by decide, Or.inl ⟨rfl, by decide⟩⟩
      (by decide) (by decide)).trans (by decide),
   (C13_emu_to_pixels plainParagraphNode).2.1 rfl,
   (C13_emu_to_pixels (.mk .XML_ELEMENT_NODE "drawing".toList [] none
      [.mk .XML_ELEMENT_NODE "extent".toList [("cx".toList, "952500".toList)] none []])).2.2.1
      _ rfl (Or.inr rfl)⟩

/-! ## `parseImage`: format, resolver and anchors without image id -/

/-- C14: the format that `parseImage` determines from the first `ext` child: the
wordprocessing-drawing URI gives `png`, the jpeg URI gives `jpg`, and no `ext` child, no
`uri` attribute or any other URI gives `png`; so the format is always `png` or `jpg`. -/
theorem C14_image_format (node : XmlNode) :
    (∀ ext : XmlNode, WordDocument.firstChildNamed node "ext".toList = some ext →
      xmlGetProp ext "uri".toList = some wordprocessingDrawingUri →
      WordDocument.imageFormat node = "png".toList) ∧
    (∀ ext : XmlNode, WordDocument.firstChildNamed node "ext".toList = some ext →
      xmlGetProp ext "uri".toList = some jpegUri →
      WordDocument.imageFormat node = "jpg".toList) ∧
    (WordDocument.firstChildNamed node "ext".toList = none →
      WordDocument.imageFormat node = "png".toList) ∧
    (∀ ext : XmlNode, WordDocument.firstChildNamed node "ext".toList = some ext →
      xmlGetProp ext "uri".toList = none → WordDocument.imageFormat node = "png".toList) ∧
    (∀ (ext : XmlNode) (uri : Str),
      WordDocument.firstChildNamed node "ext".toList = some ext →
      xmlGetProp ext "uri".toList = some uri →
      uri ≠ wordprocessingDrawingUri → uri ≠ jpegUri →
      WordDocument.imageFormat node = "png".toList) ∧
    (WordDocument.imageFormat node = "png".toList ∨
      WordDocument.imageFormat node = "jpg".toList) := by
  have hne : jpegUri ≠ wordprocessingDrawingUri := by decide
  refine ⟨?_, ?_, ?_, ?_, ?_, ?_⟩
  · intro ext he hu
    simp only [WordDocument.imageFormat, he, hu, wordprocessingDrawingUri, if_true]
  · intro ext he hu
    unfold jpegUri wordprocessingDrawingUri at *
    simp only [WordDocument.imageFormat, he, hu, hne, if_false, if_true]
  · intro he
    simp only [WordDocument.imageFormat, he]
  · intro ext he hu
    simp only [WordDocument.imageFormat, he, hu]
  · intro ext uri he hu h1 h2
    unfold jpegUri wordprocessingDrawingUri at *
    simp only [WordDocument.imageFormat, he, hu, h1, h2, if_false]
  · unfold WordDocument.imageFormat
    split
    · exact Or.inl rfl
    · split
      · exact Or.inl rfl
      · split
        · exact Or.inl rfl
        · split
          · exact Or.inr rfl
          · exact Or.inl rfl

/-- C14 at anchors whose `ext` child carries the wordprocessing-drawing URI, the jpeg
URI and the URI `urn:other`, and at a node without `ext` child. -/
theorem C14_image_format_witness :
    WordDocument.imageFormat (drawingNode wordprocessingDrawingUri [] []) = "png".toList ∧
    WordDocument.imageFormat (drawingNode jpegUri [] []) = "jpg".toList ∧
    WordDocument.imageFormat (drawingNode "urn:other".toList [] []) = "png".toList ∧
    WordDocument.imageFormat plainParagraphNode = "png".toList :=
  ⟨(C14_image_format (drawingNode wordprocessingDrawingUri [] [])).1 _ rfl rfl,
   (C14_image_format (drawingNode jpegUri [] [])).2.1 _ rfl rfl,
   (C14_image_format (drawingNode "urn:other".toList [] [])).2.2.2.2.1 _ _ rfl rfl
     (by decide) (by decide),
   (C14_image_format plainParagraphNode).2.2.1 rfl⟩

/-- C15: for a `drawing` node whose first `blip` child carries the image id `imageId`
and whose width and height are computed as `width` and `height`, `parseImage` appends an
image element exactly when `extractImageData` returns a non-empty byte sequence; that
element carries these bytes, the determined format and the computed width and height,
and with no bytes the document is returned unchanged. -/
theorem C15_image_appended_iff_bytes (env : Env) (node blip : XmlNode) (imageId : Str)
    (width height : Int) (doc : WordDocument)
    (hblip : WordDocument.firstChildNamed node "blip".toList = some blip)
    (hid : xmlGetProp blip "embed".toList = some imageId)
    (hsize : WordDocument.imageSize node = some (width, height)) :
    (WordDocument.extractImageData env doc imageId (WordDocument.imageFormat node) ≠ [] →
      WordDocument.parseImage env node doc = .returned (doc.addElement (.Image
        { imageData_ :=
            WordDocument.extractImageData env doc imageId (WordDocument.imageFormat node),
          format_ := WordDocument.imageFormat node,
          width_ := width, height_ := height }))) ∧
    (WordDocument.extractImageData env doc imageId (WordDocument.imageFormat node) = [] →
      WordDocument.parseImage env node doc = .returned doc) ∧
    ((∃ image : ImageElement, WordDocument.parseImage env node doc =
        .returned (doc.addElement (.Image image))) ↔
      WordDocument.extractImageData env doc imageId (WordDocument.imageFormat node) ≠ []) := by
  have hpos : WordDocument.extractImageData env doc imageId (WordDocument.imageFormat node) ≠ [] →
      WordDocument.parseImage env node doc = .returned (doc.addElement (.Image
        { imageData_ :=
            WordDocument.extractImageData env doc imageId (WordDocument.imageFormat node),
          format_ := WordDocument.imageFormat node,
          width_ := width, height_ := height })) := by
    intro hb
    have he : (WordDocument.extractImageData env doc imageId
        (WordDocument.imageFormat node)).isEmpty = false := by
      simpa [List.isEmpty_iff] using hb
    simp only [WordDocument.parseImage, hblip, hid, hsize, he, Bool.not_false, if_true]
  have hneg : WordDocument.extractImageData env doc imageId (WordDocument.imageFormat node) = [] →
      WordDocument.parseImage env node doc = .returned doc := by
    intro hb
    simp only [WordDocument.parseImage, hblip, hid, hsize, hb, List.isEmpty_nil, Bool.not_true,
      Bool.false_eq_true, if_false]
  refine ⟨hpos, hneg, ?_⟩
  constructor
  · rintro ⟨image, himg⟩ hb
    rw [hneg hb] at himg
    have h1 := congrArg (fun d : WordDocument => d.elements_.length)
      (Outcome.returned.inj himg)
    simp [WordDocument.addElement] at h1
  · intro hb
    exact ⟨_, hpos hb⟩

/-- C15 at the jpeg anchor with image id `1`: with the package at `docs/test.docx` the
two bytes of `docs/word/media/image1.jpg` are appended as a 100 x 50 `jpg` image, and
with the package at `other/test.docx` nothing is appended. -/
theorem C15_image_appended_iff_bytes_witness :
    WordDocument.parseImage imageEnv (drawingNode jpegUri "952500".toList "476250".toList)
        { docxPath_ := "docs/test.docx".toList } =
      .returned { docxPath_ := "docs/test.docx".toList, elements_ := [.Image
        { imageData_ := [255, 216], format_ := "jpg".toList, width_ := 100,
          height_ := 50 }] } ∧
    WordDocument.parseImage imageEnv (drawingNode jpegUri "952500".toList "476250".toList)
        { docxPath_ := "other/test.docx".toList } =
      .returned { docxPath_ := "other/test.docx".toList } :=
  ⟨(C15_image_appended_iff_bytes imageEnv
      (drawingNode jpegUri "952500".toList "476250".toList) _ "1".toList 100 50
      { docxPath_ := "docs/test.docx".toList } rfl rfl (by decide)).1 (by decide),
   (C15_image_appended_iff_bytes imageEnv
      (drawingNode jpegUri "952500".toList "476250".toList) _ "1".toList 100 50
      { docxPath_ := "other/test.docx".toList } rfl rfl (by decide)).2.1 (by decide)⟩

/-- A `drawing` node without image id is passed over by `parseImage`. -/
theorem parseImage_without_id (env : Env) (node : XmlNode) (doc : WordDocument)
    (hid : (WordDocument.firstChildNamed node "blip".toList).bind
      (fun blip => xmlGetProp blip "embed".toList) = none) :
    WordDocument.parseImage env node doc = .returned doc := by
  unfold WordDocument.parseImage
  cases hb : WordDocument.firstChildNamed node "blip".toList with
  | none => rfl
  | some blip =>
    rw [hb] at hid
    have hid2 : xmlGetProp blip "embed".toList = none := hid
    simp only [hid2]

/-- The loop of `parseDocument` passes over a `drawing` node without image id. -/
theorem parseDocumentLoop_skip_drawing (env : Env) (node : XmlNode)
    (before after : List XmlNode) (doc : WordDocument)
    (hnode : node.type = .XML_ELEMENT_NODE ∧ node.name = "drawing".toList)
    (hid : (WordDocument.firstChildNamed node "blip".toList).bind
      (fun blip => xmlGetProp blip "embed".toList) = none) :
    WordDocument.parseDocumentLoop env (before ++ node :: after) doc =
      WordDocument.parseDocumentLoop env (before ++ after) doc := by
  induction before generalizing doc with
  | nil =>
    have h1 : ¬ ("drawing".toList = "p".toList) := by decide
    have h2 : ¬ ("drawing".toList = "tbl".toList) := by decide
    simp only [List.nil_append, WordDocument.parseDocumentLoop, hnode.1, hnode.2, h1, h2,
      if_true, if_false, parseImage_without_id env node doc hid]
  | cons child rest ih =>
    simp only [List.cons_append, WordDocument.parseDocumentLoop]
    split
    · split
      · cases WordDocument.parseParagraph child doc with
        | returned doc1 => exact ih doc1
        | threw what d => rfl
        | undefined => rfl
      · split
        · exact ih _
        · split
          · cases WordDocument.parseImage env child doc with
            | returned doc1 => exact ih doc1
            | threw what d => rfl
            | undefined => rfl
          · exact ih doc
    · exact ih doc

/-- C16: a `drawing` node without image relationship identifier (no `blip` child, or a
first `blip` child without `embed` attribute) is skipped: `parseDocument` over a root
whose children contain such a node ends exactly as over the same root with that node
removed, with the same element list when it returns. -/
theorem C16_drawing_without_id_skipped (env : Env) (node : XmlNode)
    (before after : List XmlNode) (type : XmlElementType) (name : Str)
    (properties : List (Str × Str)) (content : Option Str) (doc : WordDocument)
    (hnode : node.type = .XML_ELEMENT_NODE ∧ node.name = "drawing".toList)
    (hid : WordDocument.firstChildNamed node "blip".toList = none ∨
      ∃ blip, WordDocument.firstChildNamed node "blip".toList = some blip ∧
        xmlGetProp blip "embed".toList = none) :
    WordDocument.parseImage env node doc = .returned doc ∧
    WordDocument.parseDocument env
        { root := some (.mk type name properties content (before ++ node :: after)) } doc =
      WordDocument.parseDocument env
        { root := some (.mk type name properties content (before ++ after)) } doc := by
  have hid2 : (WordDocument.firstChildNamed node "blip".toList).bind
      (fun blip => xmlGetProp blip "embed".toList) = none := by
    rcases hid with h | ⟨blip, h1, h2⟩
    · rw [h]; rfl
    · rw [h1]; exact h2
  exact ⟨parseImage_without_id env node doc hid2,
    parseDocumentLoop_skip_drawing env node before after doc hnode hid2⟩

/-- C16 at a body that holds a paragraph, a `drawing` whose `blip` has no `embed`
attribute and a table: the elements are those of the paragraph and the table. -/
theorem C16_drawing_without_id_skipped_witness :
    WordDocument.parseDocument wordEnv
        { root := some (.mk .XML_ELEMENT_NODE "body".toList [] none
          ([plainParagraphNode] ++
            .mk .XML_ELEMENT_NODE "drawing".toList [] none
              [.mk .XML_ELEMENT_NODE "blip".toList [] none []] :: [tableNode])) } {} =
      WordDocument.parseDocument wordEnv
        { root := some (.mk .XML_ELEMENT_NODE "body".toList [] none
          ([plainParagraphNode] ++ [tableNode])) } {} :=
  (C16_drawing_without_id_skipped wordEnv
    (.mk .XML_ELEMENT_NODE "drawing".toList [] none
      [.mk .XML_ELEMENT_NODE "blip".toList [] none []])
    [plainParagraphNode] [tableNode] .XML_ELEMENT_NODE "body".toList [] none {}
    ⟨rfl, rfl⟩ (Or.inr ⟨_, rfl, rfl⟩)).2

/-! ## `parseDocument`: document order -/

/-- The method `parseParagraph` reads nothing of the document and only appends to its
element list. -/
theorem parseParagraph_frame (node : XmlNode) (doc : WordDocument) :
    WordDocument.parseParagraph node doc =
      match returnedElements
          (WordDocument.parseParagraph node { docxPath_ := doc.docxPath_ }) with
      | some produced => .returned { doc with elements_ := doc.elements_ ++ produced }
      | none => .undefined := by
  cases hstyle : ((xmlGetProp node "style".toList).bind
      (fun s => xmlStrstr s "Heading".toList)).isSome with
  | false =>
    rw [parseParagraph_plain node doc hstyle, parseParagraph_plain node _ hstyle]
    simp only [returnedElements, List.nil_append]
  | true =>
    simp only [WordDocument.parseParagraph, hstyle, if_true]
    cases hsp : (xmlGetProp node "style".toList).bind (fun s => xmlStrstr s " ".toList) with
    | none => simp only [returnedElements]
    | some atSpace =>
      cases hat : atoi (atSpace.drop 1) with
      | none => simp only [hat, returnedElements]
      | some level =>
        simp only [hat, returnedElements, WordDocument.addElement, List.nil_append]

/-- The method `parseImage` reads only the package path of the document and only appends
to its element list. -/
theorem parseImage_frame (env : Env) (node : XmlNode) (doc : WordDocument) :
    WordDocument.parseImage env node doc =
      match returnedElements
          (WordDocument.parseImage env node { docxPath_ := doc.docxPath_ }) with
      | some produced => .returned { doc with elements_ := doc.elements_ ++ produced }
      | none => .undefined := by
  cases hb : WordDocument.firstChildNamed node "blip".toList with
  | none => simp only [WordDocument.parseImage, hb, returnedElements, List.append_nil]
  | some blip =>
    cases hid : xmlGetProp blip "embed".toList with
    | none => simp only [WordDocument.parseImage, hb, hid, returnedElements, List.append_nil]
    | some imageId =>
      cases hsz : WordDocument.imageSize node with
      | none => simp only [WordDocument.parseImage, hb, hid, hsz, returnedElements]
      | some size =>
        obtain ⟨width, height⟩ := size
        have hd : WordDocument.extractImageData env { docxPath_ := doc.docxPath_ } imageId
              (WordDocument.imageFormat node) =
            WordDocument.extractImageData env doc imageId (WordDocument.imageFormat node) := by
          simp only [WordDocument.extractImageData]
        by_cases he : (WordDocument.extractImageData env doc imageId
            (WordDocument.imageFormat node)).isEmpty = true
        · simp only [WordDocument.parseImage, hb, hid, hsz, hd, he, Bool.not_true,
            Bool.false_eq_true, if_false, returnedElements, List.append_nil]
        · simp only [WordDocument.parseImage, hb, hid, hsz, hd, he, Bool.not_false, if_true,
            returnedElements, WordDocument.addElement, List.nil_append]

/-- Each child contributes at most one element. -/
theorem producedFor_length (env : Env) (docxPath : Str) (child : XmlNode)
    (produced : List DocumentElement) (h : producedFor env docxPath child = some produced) :
    produced.length ≤ 1 := by
  unfold producedFor at h
  split at h
  · split at h
    · cases hstyle : ((xmlGetProp child "style".toList).bind
          (fun s => xmlStrstr s "Heading".toList)).isSome with
      | false =>
        rw [parseParagraph_plain child _ hstyle] at h
        simp only [returnedElements, List.nil_append, Option.some.injEq] at h
        rw [← h]
        split <;> simp
      | true =>
        simp only [WordDocument.parseParagraph, hstyle, if_true] at h
        cases hsp : (xmlGetProp child "style".toList).bind (fun s => xmlStrstr s " ".toList) with
        | none => rw [hsp] at h; cases h
        | some atSpace =>
          rw [hsp] at h
          cases hat : atoi (atSpace.drop 1) with
          | none => simp only [hat] at h; cases h
          | some level =>
            simp only [hat, returnedElements, WordDocument.addElement, List.nil_append,
              Option.some.injEq] at h
            rw [← h]
            simp
    · split at h
      · simp only [WordDocument.parseTable, WordDocument.addElement, List.nil_append,
          Option.some.injEq] at h
        rw [← h]
        simp
      · split at h
        · unfold WordDocument.parseImage at h
          cases hb : WordDocument.firstChildNamed child "blip".toList with
          | none =>
            rw [hb] at h
            simp only [returnedElements, Option.some.injEq] at h
            rw [← h]; simp
          | some blip =>
            rw [hb] at h
            cases hid : xmlGetProp blip "embed".toList with
            | none =>
              simp only [hid, returnedElements, Option.some.injEq] at h
              rw [← h]; simp
            | some imageId =>
              simp only [hid] at h
              cases hsz : WordDocument.imageSize child with
              | none => simp only [hsz] at h; cases h
              | some size =>
                obtain ⟨width, height⟩ := size
                simp only [hsz] at h
                split at h
                · simp only [returnedElements, WordDocument.addElement, List.nil_append,
                    Option.some.injEq] at h
                  rw [← h]; simp
                · simp only [returnedElements, Option.some.injEq] at h
                  rw [← h]; simp
        · simp only [Option.some.injEq] at h
          rw [← h]; simp
  · simp only [Option.some.injEq] at h
    rw [← h]; simp
/-- The loop of `parseDocument`, when every child's parser returns: the elements held
before, followed by what each child produces, in child order. -/
theorem parseDocumentLoop_concat (env : Env) (children : List XmlNode) (doc : WordDocument)
    (h : ∀ child ∈ children, (producedFor env doc.docxPath_ child).isSome = true) :
    WordDocument.parseDocumentLoop env children doc = .returned { doc with
      elements_ := doc.elements_ ++
        (children.map (fun child => (producedFor env doc.docxPath_ child).getD [])).flatten } := by
  induction children generalizing doc with
  | nil => simp [WordDocument.parseDocumentLoop]
  | cons child rest ih =>
    have hc := h child (List.mem_cons_self _ _)
    have hrest : ∀ d : WordDocument, d.docxPath_ = doc.docxPath_ →
        ∀ c ∈ rest, (producedFor env d.docxPath_ c).isSome = true := by
      intro d hd c hmem
      rw [hd]
      exact h c (List.mem_cons_of_mem _ hmem)
    simp only [WordDocument.parseDocumentLoop, List.map_cons, List.flatten_cons]
    by_cases ht : child.type = .XML_ELEMENT_NODE
    · by_cases hp : child.name = "p".toList
      · have hpf : producedFor env doc.docxPath_ child = returnedElements
            (WordDocument.parseParagraph child { docxPath_ := doc.docxPath_ }) := by
          simp only [producedFor, ht, hp, if_true]
        rw [hpf] at hc ⊢
        simp only [ht, hp, if_true]
        rw [parseParagraph_frame child doc]
        cases hr : returnedElements
            (WordDocument.parseParagraph child { docxPath_ := doc.docxPath_ }) with
        | none => rw [hr] at hc; cases hc
        | some produced =>
          simp only [Option.getD_some]
          rw [ih { doc with elements_ := doc.elements_ ++ produced } (hrest _ rfl)]
          simp only [List.append_assoc]
      · have n1 : ¬ ("tbl".toList = "p".toList) := by decide
        have n2 : ¬ ("drawing".toList = "p".toList) := by decide
        have n3 : ¬ ("drawing".toList = "tbl".toList) := by decide
        by_cases htb : child.name = "tbl".toList
        · have hpf : producedFor env doc.docxPath_ child =
              some (WordDocument.parseTable child { docxPath_ := doc.docxPath_ }).elements_ := by
            simp only [producedFor, ht, htb, n1, if_true, if_false]
          rw [hpf]
          simp only [ht, htb, n1, if_true, if_false]
          rw [ih (WordDocument.parseTable child doc) (hrest _ rfl)]
          simp only [WordDocument.parseTable, WordDocument.addElement, List.nil_append,
            Option.getD_some, List.append_assoc]
        · by_cases hdr : child.name = "drawing".toList
          · have hpf : producedFor env doc.docxPath_ child = returnedElements
                (WordDocument.parseImage env child { docxPath_ := doc.docxPath_ }) := by
              simp only [producedFor, ht, hdr, n2, n3, if_true, if_false]
            rw [hpf] at hc ⊢
            simp only [ht, hdr, n2, n3, if_true, if_false]
            rw [parseImage_frame env child doc]
            cases hr : returnedElements
                (WordDocument.parseImage env child { docxPath_ := doc.docxPath_ }) with
            | none => rw [hr] at hc; cases hc
            | some produced =>
              simp only [Option.getD_some]
              rw [ih { doc with elements_ := doc.elements_ ++ produced } (hrest _ rfl)]
              simp only [List.append_assoc]
          · have hpf : producedFor env doc.docxPath_ child = some [] := by
              simp only [producedFor, ht, hp, htb, hdr, if_true, if_false]
            rw [hpf]
            simp only [ht, hp, htb, hdr, if_true, if_false, Option.getD_some, List.nil_append]
            exact ih doc (hrest doc rfl)
    · have hpf : producedFor env doc.docxPath_ child = some [] := by
        simp only [producedFor, ht, if_false]
      rw [hpf]
      simp only [ht, if_false, Option.getD_some, List.nil_append]
      exact ih doc (hrest doc rfl)

/-- C17: when the parser of every child of the root returns, `parseDocument` returns
and the element list is the one held before followed by the concatenation, in child
order, of what `parseParagraph`, `parseTable` and `parseImage` produce for the element
children called `p`, `tbl` and `drawing`; a child that is not an element, or an
element of another name, contributes nothing, and every child contributes at most one
element. -/
theorem C17_document_order (env : Env) (root : XmlNode) (doc : WordDocument)
    (h : ∀ child ∈ root.children, (producedFor env doc.docxPath_ child).isSome = true) :
    WordDocument.parseDocument env { root := some root } doc = .returned { doc with
      elements_ := doc.elements_ ++ (root.children.map
        (fun child => (producedFor env doc.docxPath_ child).getD [])).flatten } ∧
    (∀ child : XmlNode, child.type ≠ .XML_ELEMENT_NODE ∨
        (child.name ≠ "p".toList ∧ child.name ≠ "tbl".toList ∧
          child.name ≠ "drawing".toList) →
      producedFor env doc.docxPath_ child = some []) ∧
    (∀ (child : XmlNode) (produced : List DocumentElement),
      producedFor env doc.docxPath_ child = some produced → produced.length ≤ 1) := by
  refine ⟨parseDocumentLoop_concat env root.children doc h, ?_,
    fun child produced hp => producedFor_length env _ child produced hp⟩
  intro child hc
  unfold producedFor
  rcases hc with hc | ⟨h1, h2, h3⟩
  · simp only [hc, if_false]
  · simp only [h1, h2, h3, if_false, ite_self]

/-- C17 at a body with a text node, a plain paragraph, a `sectPr` element, the 2x3
table, a jpeg image anchor and a heading paragraph: the paragraph, the table, the image
and the heading, in this order. -/
theorem C17_document_order_witness :
    WordDocument.parseDocument imageEnv { root := some bodyNode }
        { docxPath_ := "docs/test.docx".toList } =
      .returned { docxPath_ := "docs/test.docx".toList, elements_ :=
        [.Paragraph { texts_ := [{ text_ := "Hello ".toList }, { text_ := "world".toList }] },
         .Table { rows_ :=
          [{ cells_ := [{ text_ := "Cell 0,0".toList }, { text_ := "Cell 0,1".toList },
              { text_ := "Cell 0,2".toList }] },
           { cells_ := [{ text_ := "Cell 1,0".toList }, { text_ := "Cell 1,1".toList },
              { text_ := "Cell 1,2".toList }] }] },
         .Image
          { imageData_ := [255, 216], format_ := "jpg".toList, width_ := 100, height_ := 50 },
         .Heading { text_ := "Intro".toList, level_ := 2 }] } :=
  ((C17_document_order imageEnv bodyNode { docxPath_ := "docs/test.docx".toList }
    (by decide)).1).trans (by decide)

/-! ## `BasicDocument::loadFromFile` on a text file -/

/-- The lines `getline` delivers from a text file are the lines of the file. -/
theorem getLines_fileOfLines (lines : List Str) (finalNewline : Bool) (hne : lines ≠ [])
    (hnl : ∀ line ∈ lines, '\n' ∉ line)
    (hlast : finalNewline = false → ∀ last, lines.getLast? = some last → last ≠ []) :
    getLines (fileOfLines lines finalNewline) = lines := by
  induction lines with
  | nil => exact absurd rfl hne
  | cons line rest ih =>
    have hline : '\n' ∉ line := hnl line (List.mem_cons_self _ _)
    cases rest with
    | nil =>
      cases finalNewline with
      | false =>
        have hl : line ≠ [] := hlast rfl line rfl
        simpa [fileOfLines, List.intercalate] using getLines_single line hl hline
      | true =>
        have := getLines_append_newline line [] hline
        simpa [fileOfLines, List.intercalate, getLines] using this
    | cons next more =>
      have e : fileOfLines (line :: next :: more) finalNewline =
          line ++ '\n' :: fileOfLines (next :: more) finalNewline := by
        simp [fileOfLines, List.intercalate, List.intersperse]
      rw [e, getLines_append_newline _ _ hline,
        ih (by simp) (fun l hl => hnl l (List.mem_cons_of_mem _ hl))
          (fun hf last hlst => hlast hf last (by simpa [List.getLast?_cons_cons] using hlst))]

/-- The paragraph loop gives one single-text paragraph per non-empty line. -/
theorem loadParagraphs_eq (lines : List Str) (elements : List DocumentElement) :
    BasicDocument.loadParagraphs lines elements =
      elements ++ (lines.filter (fun line => !line.isEmpty)).map singleTextParagraph := by
  induction lines generalizing elements with
  | nil => simp [BasicDocument.loadParagraphs]
  | cons line rest ih =>
    unfold BasicDocument.loadParagraphs
    by_cases hl : line.isEmpty = true
    · simp only [hl, Bool.not_true, Bool.false_eq_true, if_false, List.filter_cons]
      exact ih elements
    · simp only [hl, Bool.not_false, if_true, List.filter_cons, List.map_cons]
      rw [ih]
      simp [singleTextParagraph, ParagraphElement.addText]

/-- C18: for a readable text file with the lines `l0, l1, ..., ln`, `loadFromFile` on
a document without elements returns true, sets the title to `l0` and produces the
level-1 heading `l0` followed by one single-text paragraph per non-empty line among
`l1..ln`, in file order; for a path that cannot be opened it returns false and leaves
the document as it is. -/
theorem C18_basic_load (env : Env) (filePath title l0 : Str) (rest : List Str)
    (finalNewline : Bool) (doc : BasicDocument) :
    ((∀ line ∈ l0 :: rest, '\n' ∉ line) →
      (finalNewline = false → ∀ last, (l0 :: rest).getLast? = some last → last ≠ []) →
      env.readFile filePath = some (fileOfLines (l0 :: rest) finalNewline) →
      BasicDocument.loadFromFile env filePath (BasicDocument.BasicDocument title) =
        (true, { title_ := l0, elements_ :=
          .Heading { text_ := l0, level_ := 1 } ::
            (rest.filter (fun line => !line.isEmpty)).map singleTextParagraph })) ∧
    (env.readFile filePath = none →
      BasicDocument.loadFromFile env filePath doc = (false, doc)) := by
  constructor
  · intro hnl hlast hread
    have hg := getLines_fileOfLines (l0 :: rest) finalNewline (by simp) hnl hlast
    simp only [BasicDocument.loadFromFile, hread, hg, loadParagraphs_eq,
      BasicDocument.BasicDocument, List.nil_append, HeadingElement.HeadingElement]
    rfl
  · intro hread
    simp only [BasicDocument.loadFromFile, hread]

/-- C18 at the file of the unit test: true, the title `Document Title` and exactly
three elements; and at a path that cannot be opened: false, nothing changed. -/
theorem C18_basic_load_witness :
    BasicDocument.loadFromFile testDocEnv "test_doc.txt".toList
        (BasicDocument.BasicDocument []) =
      (true, { title_ := "Document Title".toList, elements_ :=
        [.Heading { text_ := "Document Title".toList, level_ := 1 },
         singleTextParagraph "First paragraph.".toList,
         singleTextParagraph "Second paragraph.".toList] }) ∧
    BasicDocument.loadFromFile testDocEnv "nonexistent.txt".toList
        { title_ := "T".toList, elements_ := [singleTextParagraph "x".toList] } =
      (false, { title_ := "T".toList, elements_ := [singleTextParagraph "x".toList] }) :=
  ⟨(C18_basic_load testDocEnv "test_doc.txt".toList [] "Document Title".toList
      ["First paragraph.".toList, [], "Second paragraph.".toList] true {}).1
      (by decide) (by decide) (by decide),
   (C18_basic_load testDocEnv "nonexistent.txt".toList [] [] [] true _).2 (by decide)⟩

/-! ## `BasicConverter::convert` -/

/-- The text loop appends every text followed by one space. -/
theorem writeTexts_eq (texts : List TextElement) (file : Str) :
    BasicConverter.writeTexts texts file =
      file ++ (texts.map (fun text => text.getText ++ " ".toList)).flatten := by
  induction texts generalizing file with
  | nil => simp [BasicConverter.writeTexts]
  | cons text rest ih =>
    simp only [BasicConverter.writeTexts, ih, List.map_cons, List.flatten_cons,
      List.append_assoc]

/-- One pass of the loop appends the rendered element, for a heading whose level is not
negative. -/
theorem writeElement_eq (element : DocumentElement) (file : Str)
    (h : ∀ heading, element = .Heading heading → 0 ≤ heading.getLevel) :
    BasicConverter.writeElement element file = some (file ++ renderedElement element) := by
  cases element with
  | Heading heading =>
    have h0 : ¬ (heading.getLevel < 0) := by
      have := h heading rfl
      omega
    simp only [BasicConverter.writeElement, BasicConverter.filledString, h0, if_false,
      renderedElement, List.append_assoc]
  | Paragraph para =>
    simp only [BasicConverter.writeElement, writeTexts_eq, renderedElement, List.append_assoc]
  | Text text =>
    simp only [BasicConverter.writeElement, renderedElement, List.append_assoc]
  | Table table => simp only [BasicConverter.writeElement, renderedElement, List.append_nil]
  | Image image => simp only [BasicConverter.writeElement, renderedElement, List.append_nil]

/-- The loop appends the rendered elements in order and runs to its end. -/
theorem writeElements_eq (elements : List DocumentElement) (file : Str)
    (h : ∀ heading, DocumentElement.Heading heading ∈ elements → 0 ≤ heading.getLevel) :
    BasicConverter.writeElements elements file =
      (file ++ (elements.map renderedElement).flatten, true) := by
  induction elements generalizing file with
  | nil => simp [BasicConverter.writeElements]
  | cons element rest ih =>
    have he := writeElement_eq element file
      (fun heading e => h heading (e ▸ List.mem_cons_self _ _))
    simp only [BasicConverter.writeElements, he,
      ih _ (fun heading hm => h heading (List.mem_cons_of_mem _ hm)),
      List.map_cons, List.flatten_cons, List.append_assoc]

/-- C19: for every document whose headings have a level between 1 and 6 and every
output path that can be opened for writing, `convert` returns true and the file holds
exactly the title followed by `"\n\n"` and then, for each element in order, for a
heading `getLevel()` characters `#`, one space, the text and `"\n\n"`, for a paragraph
each text run followed by one space and then `"\n\n"`, for a text the text and
`"\n\n"` (and nothing for a table or an image). -/
theorem C19_convert_output (canOpen : Str → Bool) (doc : Document) (outputPath : Str)
    (hopen : canOpen outputPath = true)
    (hlevel : ∀ heading, DocumentElement.Heading heading ∈ doc.getElements →
      1 ≤ heading.getLevel ∧ heading.getLevel ≤ 6) :
    BasicConverter.convert canOpen doc outputPath =
      (true, some (doc.getTitle ++ "\n\n".toList ++
        (doc.getElements.map renderedElement).flatten)) := by
  have h := writeElements_eq doc.getElements (doc.getTitle ++ "\n\n".toList)
    (fun heading hm => by have := (hlevel heading hm).1; omega)
  simp only [BasicConverter.convert, hopen, Bool.not_true, Bool.false_eq_true, if_false, h]

/-- C19 at the document of the unit test: true, and the lines of the output file are
`Test Document`, an empty line, `## Section 1`, an empty line,
`This is a test paragraph. ` and an empty line. -/
theorem C19_convert_output_witness :
    BasicConverter.convert (fun path => path = "test_output.txt".toList)
        converterTestDocument.toDocument "test_output.txt".toList =
      (true, some
        "Test Document\n\n## Section 1\n\nThis is a test paragraph. \n\n".toList) ∧
    getLines "Test Document\n\n## Section 1\n\nThis is a test paragraph. \n\n".toList =
      ["Test Document".toList, [], "## Section 1".toList, [],
       "This is a test paragraph. ".toList, []] :=
  ⟨(C19_convert_output (fun path => path = "test_output.txt".toList)
      converterTestDocument.toDocument "test_output.txt".toList (by decide)
      (by
        intro heading hm
        have e : heading = { text_ := "Section 1".toList, level_ := 2 } := by
          simpa [converterTestDocument, BasicDocument.toDocument, BasicDocument.getElements,
            BasicDocument.addElement, BasicDocument.BasicDocument,
            HeadingElement.HeadingElement] using hm
        subst e
        decide)).trans (by decide),
   by decide⟩

/-! ## The element containers -/

/-- Adding texts one after the other appends them in that order. -/
theorem foldl_addText (texts : List Str) (para : ParagraphElement) :
    (texts.foldl ParagraphElement.addText para).getTexts =
      para.getTexts ++ texts.map (fun text => { text_ := text }) := by
  induction texts generalizing para with
  | nil => simp
  | cons text rest ih =>
    rw [List.foldl_cons, ih]
    simp only [ParagraphElement.addText, ParagraphElement.getTexts,
      List.map_cons, List.append_assoc, List.singleton_append]

/-- Adding cells one after the other appends them in that order. -/
theorem foldl_addCell (cells : List TableCell) (row : TableRow) :
    (cells.foldl TableRow.addCell row).getCells = row.getCells ++ cells := by
  induction cells generalizing row with
  | nil => simp
  | cons cell rest ih =>
    rw [List.foldl_cons, ih]
    simp only [TableRow.addCell, TableRow.getCells, List.append_assoc,
      List.singleton_append]

/-- Adding rows one after the other appends them in that order. -/
theorem foldl_addRow (rows : List TableRow) (table : TableElement) :
    (rows.foldl TableElement.addRow table).getRows = table.getRows ++ rows := by
  induction rows generalizing table with
  | nil => simp
  | cons row rest ih =>
    rw [List.foldl_cons, ih]
    simp only [TableElement.addRow, TableElement.getRows,
      List.append_assoc, List.singleton_append]

/-- Adding elements to a `WordDocument` one after the other appends them in that order. -/
theorem foldl_word_addElement (elements : List DocumentElement) (doc : WordDocument) :
    (elements.foldl WordDocument.addElement doc).getElements = doc.getElements ++ elements := by
  induction elements generalizing doc with
  | nil => simp
  | cons element rest ih =>
    rw [List.foldl_cons, ih]
    simp only [WordDocument.addElement, WordDocument.getElements,
      List.append_assoc, List.singleton_append]

/-- Adding elements to a `BasicDocument` one after the other appends them in that
order. -/
theorem foldl_basic_addElement (elements : List DocumentElement) (doc : BasicDocument) :
    (elements.foldl BasicDocument.addElement doc).getElements = doc.getElements ++ elements := by
  induction elements generalizing doc with
  | nil => simp
  | cons element rest ih =>
    rw [List.foldl_cons, ih]
    simp only [BasicDocument.addElement, BasicDocument.getElements,
      List.append_assoc, List.singleton_append]

/-- C20: `addText`, `addCell`, `addRow` and `addElement` (of `WordDocument` and of
`BasicDocument`) each extend the list by exactly the given item at the end and leave
the earlier items as they are; after any sequence of such calls on a newly constructed
paragraph, row, table or document the getter returns the items in the order they were
added; and a newly constructed paragraph, row, table or document is empty. -/
theorem C20_containers_append_only :
    (∀ (para : ParagraphElement) (text : Str),
      (para.addText text).getTexts = para.getTexts ++ [{ text_ := text }]) ∧
    (∀ (row : TableRow) (cell : TableCell),
      (row.addCell cell).getCells = row.getCells ++ [cell]) ∧
    (∀ (table : TableElement) (row : TableRow),
      (table.addRow row).getRows = table.getRows ++ [row]) ∧
    (∀ (doc : WordDocument) (element : DocumentElement),
      (doc.addElement element).getElements = doc.getElements ++ [element] ∧
      (doc.addElement element).getTitle = doc.getTitle) ∧
    (∀ (doc : BasicDocument) (element : DocumentElement),
      (doc.addElement element).getElements = doc.getElements ++ [element] ∧
      (doc.addElement element).getTitle = doc.getTitle) ∧
    (∀ texts : List Str,
      (texts.foldl ParagraphElement.addText {}).getTexts =
        texts.map (fun text => { text_ := text })) ∧
    (∀ cells : List TableCell, (cells.foldl TableRow.addCell {}).getCells = cells) ∧
    (∀ rows : List TableRow, (rows.foldl TableElement.addRow {}).getRows = rows) ∧
    (∀ (title : Str) (elements : List DocumentElement),
      (elements.foldl WordDocument.addElement
        (WordDocument.WordDocument title)).getElements = elements) ∧
    (∀ (title : Str) (elements : List DocumentElement),
      (elements.foldl BasicDocument.addElement
        (BasicDocument.BasicDocument title)).getElements = elements) ∧
    ((({} : ParagraphElement).getTexts = [] ∧ ({} : TableRow).getCells = []) ∧
      ({} : TableElement).getRows = [] ∧
      (∀ title : Str, (WordDocument.WordDocument title).getElements = []) ∧
      (∀ title : Str, (BasicDocument.BasicDocument title).getElements = [])) := by
  refine ⟨fun _ _ => rfl, fun _ _ => rfl, fun _ _ => rfl, fun _ _ => ⟨rfl, rfl⟩,
    fun _ _ => ⟨rfl, rfl⟩, ?_, ?_, ?_, ?_, ?_, ⟨⟨rfl, rfl⟩, rfl, fun _ => rfl, fun _ => rfl⟩⟩
  · intro texts
    rw [foldl_addText]
    rfl
  · intro cells
    rw [foldl_addCell]
    rfl
  · intro rows
    rw [foldl_addRow]
    rfl
  · intro title elements
    rw [foldl_word_addElement]
    rfl
  · intro title elements
    rw [foldl_basic_addElement]
    rfl

/-! ## Lines of spaces and tabs only -/

/-- On a non-empty line of spaces and tabs only the loop body flushes the accumulator
and then leaves with the `std::out_of_range` of `substr(npos)`. -/
theorem extractLine_all_blank (st : WordDocument.ExtractState) (line : Str) (hne : line ≠ [])
    (hall : ∀ c ∈ line, c = ' ' ∨ c = '\t') :
    WordDocument.extractLine st line = .error (WordDocument.flush st).elements_ := by
  cases line with
  | nil => exact absurd rfl hne
  | cons c rest =>
    have hc := hall c (List.mem_cons_self _ _)
    have hf := find_first_not_of_all_blank _ hall
    simp only [WordDocument.extractLine, hc, if_true, hf, substr]

/-- C21 (the code at the failing inputs): on the output `" "` the reconstructor does
not return but leaves with the exception of `substr`; on `"a\n \t\nb"` it flushes the
paragraph `"a"` and then leaves in the same way, so `"b"` is never read; hence it is not
the case that it completes for every input. -/
theorem C21_blank_line_throws :
    find_first_not_of " \t".toList " \t".toList = none ∧
    substr " \t".toList (find_first_not_of " \t".toList " \t".toList) = none ∧
    WordDocument.extractTextFromAntiwordOutput " ".toList {} =
      .threw "basic_string::substr".toList {} ∧
    WordDocument.extractTextFromAntiwordOutput "a\n \t\nb".toList {} =
      .threw "basic_string::substr".toList { elements_ := [singleTextParagraph "a".toList] } ∧
    ¬ (∀ (output : Str) (doc : WordDocument), ∃ doc1 : WordDocument,
        WordDocument.extractTextFromAntiwordOutput output doc = .returned doc1) := by
  refine ⟨by decide, by decide, by decide, by decide, fun hall => ?_⟩
  obtain ⟨doc1, h⟩ := hall " ".toList {}
  have h2 : WordDocument.extractTextFromAntiwordOutput " ".toList {} =
      .threw "basic_string::substr".toList {} := by decide
  rw [h2] at h
  cases h

/-! ## Heading styles without a level -/

/-- C22 (the code at the failing inputs): for the style `Heading x`, with no integer
after the space, `parseParagraph` emits a heading of level 1; for the styles `Heading`
and `Heading2`, which contain `Heading` and no space, `xmlStrstr(style, " ")` is a null
pointer, the level string is that pointer plus one, and the behaviour is undefined: no
heading is emitted. -/
theorem C22_heading_without_space_undefined :
    WordDocument.parseParagraph (styledParagraphNode "Heading x".toList) {} =
      .returned { elements_ := [.Heading { text_ := "Intro".toList, level_ := 1 }] } ∧
    List.IsInfix "Heading".toList "Heading".toList ∧
    xmlStrstr "Heading".toList " ".toList = none ∧
    WordDocument.parseParagraph (styledParagraphNode "Heading".toList) {} = .undefined ∧
    List.IsInfix "Heading".toList "Heading2".toList ∧
    xmlStrstr "Heading2".toList " ".toList = none ∧
    WordDocument.parseParagraph (styledParagraphNode "Heading2".toList) {} = .undefined := by
  decide

/-! ## `parseTableCell`: several paragraphs -/

/-- Joining with a separator: the first item, then the separator in front of every other
item. -/
theorem intercalate_cons_eq (sep first : Str) (others : List Str) :
    List.intercalate sep (first :: others) =
      first ++ (others.map (fun text => sep ++ text)).flatten := by
  induction others generalizing first with
  | nil => simp [List.intercalate]
  | cons second more ih =>
    have h := ih second
    simp only [List.intercalate, List.intersperse, List.flatten_cons, List.map_cons,
      List.append_assoc] at h ⊢
    rw [h]

/-- The cell loop on `p` elements with a non-empty accumulator: a newline in front of
every text. -/
theorem parseTableCellLoop_nonempty (paragraphs : List XmlNode) (cellText : Str)
    (hp : ∀ p ∈ paragraphs, p.type = .XML_ELEMENT_NODE ∧ p.name = "p".toList)
    (hne : cellText ≠ []) :
    WordDocument.parseTableCellLoop paragraphs cellText =
      cellText ++ (paragraphs.map
        (fun p => "\n".toList ++ WordDocument.getNodeText p)).flatten := by
  induction paragraphs generalizing cellText with
  | nil => simp [WordDocument.parseTableCellLoop]
  | cons p rest ih =>
    have hpp := hp p (List.mem_cons_self _ _)
    have hie : cellText.isEmpty = false := by simpa [List.isEmpty_iff] using hne
    simp only [WordDocument.parseTableCellLoop, hpp, and_self, if_true, hie, Bool.not_false]
    rw [ih _ (fun q hq => hp q (List.mem_cons_of_mem _ hq)) (by simp [hne])]
    simp only [List.map_cons, List.flatten_cons, List.append_assoc]

/-- The cell loop on `p` elements with an empty accumulator: the texts from the first
non-empty one on, joined with newlines. -/
theorem parseTableCellLoop_empty (paragraphs : List XmlNode)
    (hp : ∀ p ∈ paragraphs, p.type = .XML_ELEMENT_NODE ∧ p.name = "p".toList) :
    WordDocument.parseTableCellLoop paragraphs [] =
      List.intercalate "\n".toList
        ((paragraphs.map WordDocument.getNodeText).dropWhile (fun text => text.isEmpty)) := by
  induction paragraphs with
  | nil => rfl
  | cons p rest ih =>
    have hpp := hp p (List.mem_cons_self _ _)
    have hrest := fun q hq => hp q (List.mem_cons_of_mem _ hq)
    simp only [WordDocument.parseTableCellLoop, hpp, and_self, if_true, List.isEmpty_nil,
      Bool.not_true, Bool.false_eq_true, if_false, List.nil_append, List.map_cons]
    by_cases he : WordDocument.getNodeText p = []
    · rw [he, ih hrest]
      simp [List.dropWhile]
    · have hie : (WordDocument.getNodeText p).isEmpty = false := by
        simpa [List.isEmpty_iff] using he
      rw [parseTableCellLoop_nonempty rest _ hrest he]
      simp only [List.dropWhile, hie]
      rw [intercalate_cons_eq]
      simp only [List.map_map, Function.comp_def]

/-- C23 (counterexample): the cell whose `p` children have the texts `""` and `"b"`
gets the text `"b"`, and not the two texts joined with a newline, `"\nb"`. -/
theorem C23_leading_empty_paragraph :
    paragraphTexts (twoParagraphCell [] "b".toList) = [[], "b".toList] ∧
    (WordDocument.parseTableCell (twoParagraphCell [] "b".toList)).getText = "b".toList ∧
    List.intercalate "\n".toList (paragraphTexts (twoParagraphCell [] "b".toList)) =
      "\nb".toList ∧
    (WordDocument.parseTableCell (twoParagraphCell [] "b".toList)).getText ≠
      List.intercalate "\n".toList (paragraphTexts (twoParagraphCell [] "b".toList)) := by
  decide

/-- C23 (amended): for every `tc` node the text of the cell is the text contents of its
`p` element children, in order, from the first non-empty one on, joined with one newline
between every two consecutive ones (also when a later text is empty); so it is the join
of all of them when the first text is not empty, and the empty text when there is no `p`
child. -/
theorem C23_cell_text_joined (tc : XmlNode) :
    (WordDocument.parseTableCell tc).getText =
      List.intercalate "\n".toList
        ((paragraphTexts tc).dropWhile (fun text => text.isEmpty)) ∧
    ((∀ first ∈ (paragraphTexts tc).head?, first ≠ []) →
      (WordDocument.parseTableCell tc).getText =
        List.intercalate "\n".toList (paragraphTexts tc)) ∧
    (elementChildren tc "p".toList = [] → (WordDocument.parseTableCell tc).getText = []) := by
  have hmain : (WordDocument.parseTableCell tc).getText =
      List.intercalate "\n".toList
        ((paragraphTexts tc).dropWhile (fun text => text.isEmpty)) := by
    simp only [WordDocument.parseTableCell, TableCell.getText, paragraphTexts, elementChildren]
    rw [parseTableCellLoop_filter, parseTableCellLoop_empty]
    intro p hp
    exact of_decide_eq_true (List.mem_filter.mp hp).2
  refine ⟨hmain, ?_, ?_⟩
  · intro hfirst
    rw [hmain]
    cases hpt : paragraphTexts tc with
    | nil => rfl
    | cons first others =>
      have hne : first ≠ [] := hfirst first (by rw [hpt]; rfl)
      have hie : first.isEmpty = false := by simpa [List.isEmpty_iff] using hne
      simp only [List.dropWhile, hie]
  · intro hnone
    rw [hmain]
    simp only [paragraphTexts, hnone, List.map_nil, List.dropWhile_nil]
    rfl

/-- C23 (amended) at the cell with the texts `"a"` and `""` (text `"a\n"`) and at a cell
without `p` child. -/
theorem C23_cell_text_joined_witness :
    (WordDocument.parseTableCell (twoParagraphCell "a".toList [])).getText = "a\n".toList ∧
    (WordDocument.parseTableCell
      (.mk .XML_ELEMENT_NODE "tc".toList [] none [])).getText = [] :=
  ⟨((C23_cell_text_joined (twoParagraphCell "a".toList [])).2.1 (by decide)).trans
      (by decide),
   (C23_cell_text_joined (.mk .XML_ELEMENT_NODE "tc".toList [] none [])).2.2 rfl⟩

/-! ## `parseImage`: where the image id is looked for -/

/-- C24 (counterexample): the `drawing` node whose `blip` with `embed="1"` lies inside
an `inline` child has that `blip` among its descendants and none among its children; the
media file for the id `1` exists, and `parseImage` skips the anchor: the document is
returned unchanged. -/
theorem C24_nested_blip_skipped :
    (descendants nestedDrawingNode).any (fun node =>
      decide (node.type = .XML_ELEMENT_NODE ∧ node.name = "blip".toList ∧
        xmlGetProp node "embed".toList = some "1".toList)) = true ∧
    (WordDocument.firstChildNamed nestedDrawingNode "blip".toList).isNone = true ∧
    WordDocument.extractImageData imageEnv { docxPath_ := "docs/test.docx".toList }
      "1".toList (WordDocument.imageFormat nestedDrawingNode) = [255, 216] ∧
    WordDocument.parseImage imageEnv nestedDrawingNode
        { docxPath_ := "docs/test.docx".toList } =
      .returned { docxPath_ := "docs/test.docx".toList } := by
  decide

/-- C24 (amended): when the first `blip` element among the children of a `drawing` node
carries an `embed` attribute, `parseImage` takes that identifier to the resolver and
appends the image made of the bytes resolved for it; when no child is a `blip` element,
whatever lies deeper, the anchor is skipped and the document returned unchanged. -/
theorem C24_direct_blip_resolved (env : Env) (node : XmlNode) (doc : WordDocument) :
    (∀ (blip : XmlNode) (imageId : Str) (width height : Int),
      WordDocument.firstChildNamed node "blip".toList = some blip →
      xmlGetProp blip "embed".toList = some imageId →
      WordDocument.imageSize node = some (width, height) →
      WordDocument.extractImageData env doc imageId (WordDocument.imageFormat node) ≠ [] →
      ∃ image : ImageElement,
        WordDocument.parseImage env node doc = .returned (doc.addElement (.Image image)) ∧
        image.imageData_ =
          WordDocument.extractImageData env doc imageId (WordDocument.imageFormat node)) ∧
    (WordDocument.firstChildNamed node "blip".toList = none →
      WordDocument.parseImage env node doc = .returned doc) := by
  constructor
  · intro blip imageId width height hblip hid hsize hbytes
    have he : (WordDocument.extractImageData env doc imageId
        (WordDocument.imageFormat node)).isEmpty = false := by
      simpa [List.isEmpty_iff] using hbytes
    refine ⟨⟨WordDocument.extractImageData env doc imageId (WordDocument.imageFormat node),
      WordDocument.imageFormat node, width, height⟩, ?_, rfl⟩
    simp only [WordDocument.parseImage, hblip, hid, hsize, he, Bool.not_false, if_true]
  · intro hnone
    simp only [WordDocument.parseImage, hnone]

/-- C24 (amended) at the anchor whose `blip` is a child (the image is appended) and at
the anchor whose `blip` lies inside an `inline` child (skipped). -/
theorem C24_direct_blip_resolved_witness :
    (∃ image : ImageElement,
      WordDocument.parseImage imageEnv
          (drawingNode jpegUri "952500".toList "476250".toList)
          { docxPath_ := "docs/test.docx".toList } =
        .returned (WordDocument.addElement { docxPath_ := "docs/test.docx".toList }
          (.Image image)) ∧
      image.imageData_ = [255, 216]) ∧
    WordDocument.parseImage imageEnv nestedDrawingNode
        { docxPath_ := "docs/test.docx".toList } =
      .returned { docxPath_ := "docs/test.docx".toList } :=
  ⟨(C24_direct_blip_resolved imageEnv (drawingNode jpegUri "952500".toList "476250".toList)
      { docxPath_ := "docs/test.docx".toList }).1 _ "1".toList 100 50 rfl rfl
      (by decide) (by decide),
   (C24_direct_blip_resolved imageEnv nestedDrawingNode
      { docxPath_ := "docs/test.docx".toList }).2 rfl⟩

/-! ## `extractImageData` -/

/-- The last position of a character of `chars` in a string extended by one character. -/
theorem find_last_of_concat (s chars : Str) (c : Char) :
    find_last_of (s ++ [c]) chars =
      if chars.contains c then some s.length else find_last_of s chars := by
  induction s with
  | nil =>
    by_cases hc : chars.contains c = true <;> simp [find_last_of, hc]
  | cons d ds ih =>
    by_cases hc : chars.contains c = true
    · simp only [List.cons_append, find_last_of, List.append_eq, ih, hc, if_true,
        List.length_cons]
    · simp only [List.cons_append, find_last_of, List.append_eq, ih, hc, Bool.false_eq_true,
        if_false]

/-- A position found by `find_last_of` lies inside the string. -/
theorem find_last_of_lt (s chars : Str) (i : Nat) (h : find_last_of s chars = some i) :
    i < s.length := by
  induction s generalizing i with
  | nil => simp [find_last_of] at h
  | cons d ds ih =>
    simp only [find_last_of] at h
    cases hf : find_last_of ds chars with
    | some j =>
      rw [hf] at h
      have := ih j hf
      have e : j + 1 = i := by simpa using h
      simp only [List.length_cons]
      omega
    | none =>
      rw [hf] at h
      by_cases hc : chars.contains d = true
      · simp only [hc, if_true, Option.some.injEq] at h
        simp only [List.length_cons]
        omega
      · simp only [hc, Bool.false_eq_true, if_false] at h
        cases h

/-- The directory part that `extractImageData` takes from the package path is the prefix
up to and including the last `/`. -/
theorem take_find_last_of (path : Str) :
    path.take (match find_last_of path "/".toList with
      | some i => i + 1
      | none => 0) = packageDirectory path := by
  unfold packageDirectory
  induction path using List.reverseRecOn with
  | nil => rfl
  | append_singleton s c ih =>
    rw [find_last_of_concat]
    by_cases hc : c = '/'
    · subst hc
      have h1 : "/".toList.contains '/' = true := by decide
      rw [List.rdropWhile_concat_neg _ _ _ (by simp)]
      simp only [h1, if_true]
      rw [List.take_of_length_le (by simp)]
    · have h1 : "/".toList.contains c = false := by
        simp [hc]
      rw [List.rdropWhile_concat_pos _ _ _ (by simpa using hc)]
      simp only [h1, Bool.false_eq_true, if_false]
      rw [← ih]
      cases hf : find_last_of s "/".toList with
      | none => simp
      | some i =>
        have := find_last_of_lt s _ i hf
        simp only
        rw [List.take_append_of_le_length (by omega)]

/-- C25: for every package path, image id and format, `extractImageData` reads the file
at the prefix of the package path up to and including its last `/` (empty without `/`)
followed by `word/media/image`, the id, a dot and the format; it returns that file's
bytes, and the empty byte sequence when the file cannot be opened. -/
theorem C25_image_path (env : Env) (doc : WordDocument) (imageId format : Str) :
    WordDocument.extractImageData env doc imageId format =
      (match env.readFile (mediaPath doc.docxPath_ imageId format) with
        | some data => data.map (fun c => c.toNat % 256)
        | none => []) ∧
    (env.readFile (mediaPath doc.docxPath_ imageId format) = none →
      WordDocument.extractImageData env doc imageId format = []) ∧
    ((∀ c ∈ doc.docxPath_, c ≠ '/') →
      mediaPath doc.docxPath_ imageId format =
        "word/media/image".toList ++ imageId ++ ".".toList ++ format) ∧
    (∀ directory name : Str, (∀ c ∈ name, c ≠ '/') →
      mediaPath (directory ++ "/".toList ++ name) imageId format =
        directory ++ "/".toList ++ ("word/media/image".toList ++ imageId ++ ".".toList ++ format)) := by
  have hmain : WordDocument.extractImageData env doc imageId format =
      (match env.readFile (mediaPath doc.docxPath_ imageId format) with
        | some data => data.map (fun c => c.toNat % 256)
        | none => []) := by
    simp only [WordDocument.extractImageData, take_find_last_of, mediaPath, List.append_assoc]
    cases env.readFile (packageDirectory doc.docxPath_ ++
      ("word/media/image".toList ++ (imageId ++ (".".toList ++ format)))) <;> rfl
  refine ⟨hmain, ?_, ?_, ?_⟩
  · intro hnone
    rw [hmain, hnone]
  · intro hno
    have : packageDirectory doc.docxPath_ = [] := by
      unfold packageDirectory
      rw [List.rdropWhile_eq_nil_iff]
      intro c hc
      simpa using hno c hc
    simp only [mediaPath, this, List.nil_append]
  · intro directory name hname
    have : packageDirectory (directory ++ "/".toList ++ name) = directory ++ "/".toList := by
      unfold packageDirectory
      induction name using List.reverseRecOn with
      | nil =>
        simp only [List.append_nil]
        exact List.rdropWhile_concat_neg _ _ _ (by simp)
      | append_singleton s c ih =>
        rw [← List.append_assoc, List.rdropWhile_concat_pos _ _ _
          (by simpa using hname c (by simp))]
        exact ih (fun d hd => hname d (by simp [hd]))
    simp only [mediaPath, this]

/-- C25 at the package paths `docs/test.docx` (file present), `other/test.docx` (file
absent) and `test.docx` (no `/`). -/
theorem C25_image_path_witness :
    WordDocument.extractImageData imageEnv { docxPath_ := "other/test.docx".toList }
      "1".toList "jpg".toList = [] ∧
    mediaPath "test.docx".toList "1".toList "jpg".toList = "word/media/image1.jpg".toList ∧
    mediaPath "a/docs/test.docx".toList "1".toList "jpg".toList =
      "a/docs/word/media/image1.jpg".toList :=
  ⟨(C25_image_path imageEnv { docxPath_ := "other/test.docx".toList }
      "1".toList "jpg".toList).2.1 (by decide),
   (C25_image_path imageEnv { docxPath_ := "test.docx".toList }
      "1".toList "jpg".toList).2.2.1 (by decide),
   (C25_image_path imageEnv {} "1".toList "jpg".toList).2.2.2
      "a/docs".toList "test.docx".toList (by decide)⟩

/-! ## The reconstructed paragraphs of any extractor output -/

/-- Cutting a list before every element that fails `p`: the first group is the head with
the longest stretch of following elements that satisfy `p`. -/
theorem splitBy_loop_second {α : Type} (p : α → Bool) (l : List α) (ag : α) (g : List α)
    (gs : List (List α)) :
    List.splitBy.loop (fun _ b => p b) l ag g gs =
      gs.reverse ++ ((g.reverse ++ ag :: l.takeWhile p) ::
        (l.dropWhile p).splitBy (fun _ b => p b)) := by
  induction l generalizing ag g gs with
  | nil => simp [List.splitBy.loop, List.splitBy]
  | cons b bs ih =>
    cases hb : p b with
    | true =>
      simp only [List.splitBy.loop, hb, List.takeWhile_cons, List.dropWhile_cons, if_true]
      rw [ih]
      simp
    | false =>
      simp only [List.splitBy.loop, hb, List.takeWhile_cons, List.dropWhile_cons,
        Bool.false_eq_true, if_false]
      have hsplit : (b :: bs).splitBy (fun _ b => p b) =
          List.splitBy.loop (fun _ b => p b) bs b [] [] := rfl
      rw [ih, hsplit, ih b [] []]
      simp

/-- The groups of a non-empty list. -/
theorem splitBy_cons_second {α : Type} (p : α → Bool) (a : α) (l : List α) :
    (a :: l).splitBy (fun _ b => p b) =
      (a :: l.takeWhile p) :: (l.dropWhile p).splitBy (fun _ b => p b) := by
  have hsplit : (a :: l).splitBy (fun _ b => p b) =
      List.splitBy.loop (fun _ b => p b) l a [] [] := rfl
  rw [hsplit, splitBy_loop_second]
  simp

/-- No line: no group. -/
theorem lineGroups_nil : lineGroups [] = [] := by decide

/-- An empty line at the front adds no group. -/
theorem lineGroups_cons_blank (rest : List Str) : lineGroups ([] :: rest) = lineGroups rest := by
  simp only [lineGroups, List.splitOn]
  rw [List.splitOnP_cons]
  simp [List.splitBy]

/-- An empty line at the end adds no group. -/
theorem lineGroups_append_blank (lines : List Str) :
    lineGroups (lines ++ [[]]) = lineGroups lines := by
  have hsplit : (lines ++ [[]]).splitOn [] = lines.splitOn [] ++ [[]] := by
    induction lines with
    | nil => rfl
    | cons x xs ih =>
      simp only [List.splitOn] at ih ⊢
      rw [List.cons_append, List.splitOnP_cons, List.splitOnP_cons, ih]
      cases hs : List.splitOnP (fun x => x == []) xs with
      | nil => exact absurd hs (List.splitOnP_ne_nil _ _)
      | cons g gs =>
        by_cases hx : (x == []) = true
        · simp only [hx, if_true, List.cons_append]
        · simp [hx]
  simp only [lineGroups, hsplit, List.flatMap_append]
  simp [List.splitBy]

/-- Lines that are not empty in front of the lines `rest` join the first stretch of
`rest`. -/
theorem splitOn_nil_append (cur rest : List Str) (hcur : ∀ l ∈ cur, l ≠ []) :
    (cur ++ rest).splitOn [] = (rest.splitOn []).modifyHead (fun g => cur ++ g) := by
  induction cur with
  | nil => simp only [List.nil_append]; exact (modifyHead_nil_append _).symm
  | cons x xs ih =>
    have hx : (x == []) = false := by simpa using hcur x (List.mem_cons_self _ _)
    have ih1 := ih (fun l hl => hcur l (List.mem_cons_of_mem _ hl))
    simp only [List.splitOn] at ih1 ⊢
    rw [List.cons_append, List.splitOnP_cons, ih1]
    simp only [hx, Bool.false_eq_true, if_false]
    cases List.splitOnP (fun x => x == []) rest with
    | nil => rfl
    | cons g gs => rfl

/-- The first stretch of the lines `rest` begins with the first line of `rest`, when that
is not empty. -/
theorem splitOn_nil_head (rest : List Str) :
    ∃ g gs, rest.splitOn [] = g :: gs ∧ ∀ l ∈ g.head?, l ∈ rest.head? := by
  cases rest with
  | nil => exact ⟨[], [], rfl, by simp⟩
  | cons x xs =>
    simp only [List.splitOn]
    rw [List.splitOnP_cons]
    by_cases hx : (x == []) = true
    · exact ⟨[], List.splitOnP (fun x => x == []) xs, by simp only [hx, if_true], by simp⟩
    · cases hs : List.splitOnP (fun x => x == []) xs with
      | nil => exact absurd hs (List.splitOnP_ne_nil _ _)
      | cons g gs => exact ⟨x :: g, gs, by simp [hx], by simp⟩

/-- A pending group in front of lines that begin with an empty or an indented line, or
that are no lines at all, is a group of its own. -/
theorem lineGroups_append (cur rest : List Str) (hne : ∀ l ∈ cur, l ≠ [])
    (htail : ∀ l ∈ cur.tail, beginsWithBlank l = false)
    (hrest : ∀ l ∈ rest.head?, l = [] ∨ beginsWithBlank l = true) :
    lineGroups (cur ++ rest) = (if cur = [] then [] else [cur]) ++ lineGroups rest := by
  cases cur with
  | nil => simp
  | cons first more =>
    obtain ⟨g, gs, hs, hg⟩ := splitOn_nil_head rest
    have hgp : g.takeWhile (fun l => !beginsWithBlank l) = [] ∧
        g.dropWhile (fun l => !beginsWithBlank l) = g := by
      cases g with
      | nil => simp
      | cons l ls =>
        have hl : l ∈ rest.head? := hg l (by simp)
        have hlne : l ≠ [] := by
          intro e
          subst e
          cases rest with
          | nil => simp at hl
          | cons x xs =>
            have hx : x = [] := by simpa using hl.symm
            subst hx
            simp only [List.splitOn] at hs
            rw [List.splitOnP_cons] at hs
            simp at hs
        have hb : beginsWithBlank l = true := (hrest l hl).resolve_left hlne
        simp [List.takeWhile_cons, List.dropWhile_cons, hb]
    have hmore : ∀ l ∈ more, (!beginsWithBlank l) = true := by
      intro l hl
      simp [htail l (by simpa using hl)]
    rw [lineGroups, lineGroups, splitOn_nil_append _ rest hne, hs]
    simp only [List.modifyHead_cons, List.flatMap_cons, List.cons_append, reduceCtorEq,
      if_false, List.nil_append]
    rw [splitBy_cons_second (fun l => !beginsWithBlank l),
      List.takeWhile_append_of_pos hmore, List.dropWhile_append_of_pos hmore, hgp.1, hgp.2]
    simp

/-- A line that does not begin with a space or tab has no leading spaces or tabs to
remove. -/
theorem withoutLeadingBlanks_plain (line : Str) (h : beginsWithBlank line = false) :
    withoutLeadingBlanks line = line := by
  cases line with
  | nil => rfl
  | cons c cs =>
    have hc : (decide (c = ' ') || decide (c = '\t')) = false := by
      simpa [beginsWithBlank] using h
    simp only [withoutLeadingBlanks, List.dropWhile_cons, hc, Bool.false_eq_true, if_false]

/-- The first character of a line that begins with a space or tab. -/
theorem beginsWithBlank_true (line : Str) (h : beginsWithBlank line = true) :
    ∃ c ∈ line.head?, c = ' ' ∨ c = '\t' := by
  cases line with
  | nil => simp [beginsWithBlank] at h
  | cons c cs => exact ⟨c, by simp, by simpa [beginsWithBlank] using h⟩

/-- The first character of a line that does not begin with a space or tab. -/
theorem beginsWithBlank_false (line : Str) (h : beginsWithBlank line = false) :
    ∀ c ∈ line.head?, c ≠ ' ' ∧ c ≠ '\t' := by
  cases line with
  | nil => simp
  | cons c cs =>
    intro d hd
    have hdc : c = d := by simpa using hd
    subst hdc
    simpa [beginsWithBlank] using h

/-- Flushing the accumulator that holds the text of the pending group `cur`. -/
theorem flush_group (cur : List Str) (elements : List DocumentElement)
    (hne : ∀ l ∈ cur, withoutLeadingBlanks l ≠ []) :
    WordDocument.flush
        { currentParagraph := joinWithSpace (cur.map withoutLeadingBlanks),
          elements_ := elements } =
      { currentParagraph := [],
        elements_ := elements ++ (if cur = [] then [] else [cur]).map
          (fun g => singleTextParagraph (joinWithSpace (g.map withoutLeadingBlanks))) } := by
  have hj := joinWithSpace_eq_nil (cur.map withoutLeadingBlanks)
    (by simpa using hne)
  by_cases hc : cur = []
  · subst hc
    simp [joinWithSpace_nil, flush_nil]
  · have hne1 : joinWithSpace (cur.map withoutLeadingBlanks) ≠ [] :=
      fun h => hc (by simpa using hj.mp h)
    rw [flush_ne _ _ hne1]
    simp [hc]

/-- The loop started with the accumulator holding the text of the pending group `cur`:
when it ends normally, the elements after the final flush are the old ones followed by
one paragraph per group of `cur` and the lines, in input order. -/
theorem extractLoop_groups (lines : List Str) (cur : List Str)
    (elements : List DocumentElement) (st1 : WordDocument.ExtractState)
    (hne : ∀ l ∈ cur, withoutLeadingBlanks l ≠ [])
    (htail : ∀ l ∈ cur.tail, beginsWithBlank l = false)
    (hloop : WordDocument.extractLoop lines
      { currentParagraph := joinWithSpace (cur.map withoutLeadingBlanks),
        elements_ := elements } = .ok st1) :
    (WordDocument.flush st1).elements_ = elements ++ (lineGroups (cur ++ lines)).map
      (fun g => singleTextParagraph (joinWithSpace (g.map withoutLeadingBlanks))) := by
  have hne0 : ∀ cur : List Str, (∀ l ∈ cur, withoutLeadingBlanks l ≠ []) →
      ∀ l ∈ cur, l ≠ [] := by
    intro cur h l hl e
    exact h l hl (by rw [e]; rfl)
  induction lines generalizing cur elements with
  | nil =>
    have e : WordDocument.ExtractState.mk (joinWithSpace (cur.map withoutLeadingBlanks))
        elements = st1 := by
      simpa [WordDocument.extractLoop] using hloop
    rw [← e, flush_group cur elements hne,
      lineGroups_append cur [] (hne0 cur hne) htail (by simp), lineGroups_nil]
    simp
  | cons line rest ih =>
    simp only [WordDocument.extractLoop] at hloop
    cases line with
    | nil =>
      have hstep : WordDocument.extractLine
          { currentParagraph := joinWithSpace (cur.map withoutLeadingBlanks),
            elements_ := elements } [] = .ok (WordDocument.flush
          { currentParagraph := joinWithSpace (cur.map withoutLeadingBlanks),
            elements_ := elements }) := rfl
      rw [hstep, flush_group cur elements hne] at hloop
      have h1 := ih [] _ (by simp) (by simp) hloop
      rw [lineGroups_append cur ([] :: rest) (hne0 cur hne) htail (by simp),
        lineGroups_cons_blank, h1]
      simp
    | cons c cs =>
      cases hb : beginsWithBlank (c :: cs) with
      | true =>
        have hfirst := beginsWithBlank_true _ hb
        by_cases hother : ∃ d ∈ c :: cs, d ≠ ' ' ∧ d ≠ '\t'
        · rw [extractLine_indented _ _ hfirst hother, flush_group cur elements hne] at hloop
          have hj : joinWithSpace ([c :: cs].map withoutLeadingBlanks) =
              (c :: cs).dropWhile (fun c => c = ' ' || c = '\t') := by
            simp [joinWithSpace, withoutLeadingBlanks, List.intercalate]
          rw [← hj] at hloop
          have hne1 : ∀ l ∈ [c :: cs], withoutLeadingBlanks l ≠ [] := by
            intro l hl
            rw [List.mem_singleton.mp hl]
            exact dropWhile_blank_ne_nil _ hother
          have h1 := ih [c :: cs] _ hne1 (by simp) hloop
          rw [lineGroups_append cur ((c :: cs) :: rest) (hne0 cur hne) htail
            (by simp [hb]), h1]
          simp
        · have hall : ∀ d ∈ c :: cs, d = ' ' ∨ d = '\t' := by
            intro d hd
            by_contra hn
            exact hother ⟨d, hd, fun e => hn (Or.inl e), fun e => hn (Or.inr e)⟩
          rw [extractLine_all_blank _ _ (by simp) hall] at hloop
          cases hloop
      | false =>
        have hplain := beginsWithBlank_false _ hb
        rw [extractLine_plain _ _ (by simp) hplain] at hloop
        have hacc : WordDocument.appendLine
            { currentParagraph := joinWithSpace (cur.map withoutLeadingBlanks),
              elements_ := elements } (c :: cs) =
            { currentParagraph := joinWithSpace ((cur ++ [c :: cs]).map withoutLeadingBlanks),
              elements_ := elements } := by
          have hj := joinWithSpace_eq_nil (cur.map withoutLeadingBlanks) (by simpa using hne)
          rw [List.map_append, List.map_singleton, withoutLeadingBlanks_plain _ hb,
            joinWithSpace_concat]
          by_cases hr : cur = []
          · subst hr
            simp [WordDocument.appendLine, joinWithSpace_nil]
          · have hne2 : joinWithSpace (cur.map withoutLeadingBlanks) ≠ [] :=
              fun h => hr (by simpa using hj.mp h)
            simp [WordDocument.appendLine, hr, hne2]
        rw [hacc] at hloop
        have hne1 : ∀ l ∈ cur ++ [c :: cs], withoutLeadingBlanks l ≠ [] := by
          intro l hl
          rcases List.mem_append.mp hl with h | h
          · exact hne l h
          · rw [List.mem_singleton.mp h, withoutLeadingBlanks_plain _ hb]
            simp
        have htail1 : ∀ l ∈ (cur ++ [c :: cs]).tail, beginsWithBlank l = false := by
          cases cur with
          | nil => simp
          | cons first more =>
            intro l hl
            have hl1 : l ∈ more ∨ l = c :: cs := by simpa using hl
            rcases hl1 with h | h
            · exact htail l (by simpa using h)
            · rw [h]
              exact hb
        have h1 := ih (cur ++ [c :: cs]) elements hne1 htail1 hloop
        rw [h1]
        simp

/-- The paragraphs reconstructed from the lines that `getline` delivers are those of the
pieces between newline characters. -/
theorem lineGroups_getLines (output : Str) :
    lineGroups (getLines output) = lineGroups (output.splitOn '\n') := by
  rcases splitOn_getLines output with h | h
  · rw [h]
  · rw [h, lineGroups_append_blank]

/-! ## The effect of the reconstructor on the document -/

/-- C26: whenever `extractTextFromAntiwordOutput` returns, the document differs from the
one before only in its element list, which is the old list followed by the reconstructed
paragraphs of the output in input order: the pieces between newline characters are cut
at every empty piece and before every piece that begins with a space or tab, and each
group gives one paragraph with exactly one text run, the group's lines without leading
spaces and tabs joined by one space. Every such run is non-empty and does not begin with
a space or tab; the title is unchanged. -/
theorem C26_reconstructor_appends (output : Str) (doc doc1 : WordDocument)
    (h : WordDocument.extractTextFromAntiwordOutput output doc = .returned doc1) :
    doc1 = { doc with elements_ := doc.elements_ ++
      ((reconstructedParagraphs output).map
        (fun text => .Paragraph { texts_ := [{ text_ := text }] })) } ∧
    (∀ text ∈ reconstructedParagraphs output,
      text ≠ [] ∧ ∀ c ∈ text.head?, c ≠ ' ' ∧ c ≠ '\t') ∧
    doc1.getElements = doc.getElements ++
      (reconstructedParagraphs output).map
        (fun text => .Paragraph { texts_ := [{ text_ := text }] }) ∧
    doc1.getTitle = doc.getTitle := by
  unfold WordDocument.extractTextFromAntiwordOutput at h
  cases hloop : WordDocument.extractLoop (getLines output)
      { currentParagraph := [], elements_ := doc.elements_ } with
  | error elements => rw [hloop] at h; cases h
  | ok st =>
    rw [hloop] at h
    obtain ⟨h1, texts1, h2, h3⟩ := extractLoop_emitted (getLines output)
      (getLines_no_newline output) _ st doc.elements_ [] (by simp) (by simp) (Or.inl rfl) hloop
    obtain ⟨_, texts, h4, h5⟩ := flush_emitted st doc.elements_ texts1 h2 h3 h1
    have h6 := extractLoop_groups (getLines output) [] doc.elements_ st (by simp) (by simp)
      hloop
    rw [List.nil_append, lineGroups_getLines] at h6
    have h7 : (WordDocument.flush st).elements_ = doc.elements_ ++
        (reconstructedParagraphs output).map singleTextParagraph := by
      rw [h6, reconstructedParagraphs, List.map_map]
      rfl
    have hinj : Function.Injective singleTextParagraph := by
      intro a b hab
      simpa [singleTextParagraph] using hab
    have h8 : texts = reconstructedParagraphs output :=
      List.map_injective_iff.mpr hinj (List.append_cancel_left (h4.symm.trans h7))
    have e := Outcome.returned.inj h
    rw [h7] at e
    refine ⟨e.symm, fun text ht => ?_, ?_, ?_⟩
    · have h9 := h5 text (h8 ▸ ht)
      exact ⟨h9.1, h9.2.2⟩
    · rw [← e]; rfl
    · rw [← e]; rfl

/-- C26 at the output `"a\nb\n\n\tc d\n  e\nf\n"` and a document with the title `T` that
holds one element: the reconstructed paragraphs are `"a b"`, `"c d"` and `"e f"`, and
they are appended in this order behind the old element. -/
theorem C26_reconstructor_appends_witness :
    reconstructedParagraphs "a\nb\n\n\tc d\n  e\nf\n".toList =
      ["a b".toList, "c d".toList, "e f".toList] ∧
    ({ title_ := "T".toList, elements_ := [.Text { text_ := "old".toList },
        singleTextParagraph "a b".toList, singleTextParagraph "c d".toList,
        singleTextParagraph "e f".toList] } : WordDocument) =
      { title_ := "T".toList, elements_ := [.Text { text_ := "old".toList }] ++
        ((reconstructedParagraphs "a\nb\n\n\tc d\n  e\nf\n".toList).map
          (fun text => .Paragraph { texts_ := [{ text_ := text }] })) } :=
  ⟨by decide,
   (C26_reconstructor_appends "a\nb\n\n\tc d\n  e\nf\n".toList
    { title_ := "T".toList, elements_ := [.Text { text_ := "old".toList }] }
    { title_ := "T".toList, elements_ := [.Text { text_ := "old".toList },
      singleTextParagraph "a b".toList, singleTextParagraph "c d".toList,
      singleTextParagraph "e f".toList] }
    (by decide)).1⟩

/-! ## The dispatcher never dispatches -/

/-- C27: for every path and every state of the file system `loadFromFile` returns false
and leaves the element list as it is: the last 4 characters of the path never equal
`.docx` and the last 3 never equal `.doc`, so for every existing file the try block ends
in the unsupported-format error. -/
theorem C27_load_always_false (env : Env) (filePath : Str) (doc : WordDocument) :
    substr filePath (some (filePath.length - 4)) ≠ some ".docx".toList ∧
    substr filePath (some (filePath.length - 3)) ≠ some ".doc".toList ∧
    (∃ doc1 : WordDocument,
      WordDocument.loadFromFile env filePath doc = .returned (false, doc1) ∧
      doc1.getElements = doc.getElements) ∧
    (env.fileExists filePath = true →
      WordDocument.loadFromFileTry env filePath doc =
        .threw ("Unsupported file format: ".toList ++ filePath)
          { doc with docxPath_ := filePath }) := by
  have h4 := substr_last_ne filePath ".docx".toList 4 (by decide)
  have h3 := substr_last_ne filePath ".doc".toList 3 (by decide)
  refine ⟨h4, h3, ?_, ?_⟩
  · obtain ⟨what, doc1, h1, h2, _⟩ := loadFromFileTry_threw env filePath doc
    exact ⟨doc1, by simp only [WordDocument.loadFromFile, h1], h2⟩
  · intro hex
    simp only [WordDocument.loadFromFileTry, hex, Bool.not_true, Bool.false_eq_true, if_false,
      h4, h3, and_false]

/-- C27 at the existing, well-formed file `test.docx`: the unsupported-format error. -/
theorem C27_load_always_false_witness :
    WordDocument.loadFromFileTry wordEnv "test.docx".toList {} =
      .threw "Unsupported file format: test.docx".toList
        { docxPath_ := "test.docx".toList } :=
  (C27_load_always_false wordEnv "test.docx".toList {}).2.2.2 (by decide)

/-! ## The title of a `WordDocument` -/

/-- The method `parseParagraph` leaves the title as it is. -/
theorem parseParagraph_title (node : XmlNode) (doc doc1 : WordDocument)
    (h : documentAfter (WordDocument.parseParagraph node doc) = some doc1) :
    doc1.title_ = doc.title_ := by
  rw [parseParagraph_frame] at h
  cases hr : returnedElements
      (WordDocument.parseParagraph node { docxPath_ := doc.docxPath_ }) with
  | none => rw [hr] at h; cases h
  | some produced =>
    rw [hr] at h
    have e : _ = doc1 := Option.some.inj h
    rw [← e]

/-- The method `parseImage` leaves the title as it is. -/
theorem parseImage_title (env : Env) (node : XmlNode) (doc doc1 : WordDocument)
    (h : documentAfter (WordDocument.parseImage env node doc) = some doc1) :
    doc1.title_ = doc.title_ := by
  rw [parseImage_frame] at h
  cases hr : returnedElements
      (WordDocument.parseImage env node { docxPath_ := doc.docxPath_ }) with
  | none => rw [hr] at h; cases h
  | some produced =>
    rw [hr] at h
    have e : _ = doc1 := Option.some.inj h
    rw [← e]

/-- The loop of `parseDocument` leaves the title as it is. -/
theorem parseDocumentLoop_title (env : Env) (children : List XmlNode)
    (doc doc1 : WordDocument)
    (h : documentAfter (WordDocument.parseDocumentLoop env children doc) = some doc1) :
    doc1.title_ = doc.title_ := by
  induction children generalizing doc with
  | nil =>
    have e : doc = doc1 := Option.some.inj h
    rw [e]
  | cons child rest ih =>
    unfold WordDocument.parseDocumentLoop at h
    split at h
    · split at h
      · rw [parseParagraph_frame] at h
        cases hr : returnedElements
            (WordDocument.parseParagraph child { docxPath_ := doc.docxPath_ }) with
        | none => rw [hr] at h; cases h
        | some produced =>
          simp only [hr] at h
          exact (ih _ h).trans rfl
      · split at h
        · exact (ih _ h).trans rfl
        · split at h
          · rw [parseImage_frame] at h
            cases hr : returnedElements
                (WordDocument.parseImage env child { docxPath_ := doc.docxPath_ }) with
            | none => rw [hr] at h; cases h
            | some produced =>
              simp only [hr] at h
              exact (ih _ h).trans rfl
          · exact ih _ h
    · exact ih _ h

/-- Every operation leaves the title as it is. -/
theorem run_title (env : Env) (op : WordOperation) (doc doc1 : WordDocument)
    (h : op.run env doc = some doc1) : doc1.title_ = doc.title_ := by
  cases op with
  | loadFromFile filePath =>
    obtain ⟨what, doc2, h1, _, h3⟩ := loadFromFileTry_threw env filePath doc
    simp only [WordOperation.run, WordDocument.loadFromFile, h1, Option.some.injEq] at h
    rw [← h]
    exact h3
  | addElement element =>
    have e : _ = doc1 := Option.some.inj h
    rw [← e]
    rfl
  | parseDocument xmlDoc =>
    simp only [WordOperation.run, WordDocument.parseDocument] at h
    cases hroot : xmlDoc.root with
    | none =>
      rw [hroot] at h
      have e : doc = doc1 := Option.some.inj h
      rw [e]
    | some root =>
      rw [hroot] at h
      exact parseDocumentLoop_title env root.children doc doc1 h
  | parseParagraph node => exact parseParagraph_title node doc doc1 h
  | parseTable node =>
    have e : _ = doc1 := Option.some.inj h
    rw [← e]
    rfl
  | parseImage node => exact parseImage_title env node doc doc1 h
  | extractTextFromAntiwordOutput output =>
    simp only [WordOperation.run, WordDocument.extractTextFromAntiwordOutput] at h
    cases hloop : WordDocument.extractLoop (getLines output)
        { currentParagraph := [], elements_ := doc.elements_ } with
    | error elements =>
      rw [hloop] at h
      have e : _ = doc1 := Option.some.inj h
      rw [← e]
    | ok st =>
      rw [hloop] at h
      have e : _ = doc1 := Option.some.inj h
      rw [← e]

/-- C28: after any sequence of `loadFromFile`, `addElement`, `parseDocument`,
`parseParagraph`, `parseTable`, `parseImage` and `extractTextFromAntiwordOutput` calls on
a newly constructed `WordDocument`, `getTitle()` is the string passed to the
constructor. -/
theorem C28_title_invariant (env : Env) (title : Str) (ops : List WordOperation)
    (doc1 : WordDocument)
    (h : runOperations env ops (WordDocument.WordDocument title) = some doc1) :
    doc1.getTitle = title := by
  have key : ∀ (ops : List WordOperation) (doc : WordDocument),
      runOperations env ops doc = some doc1 → doc1.title_ = doc.title_ := by
    intro ops
    induction ops with
    | nil =>
      intro doc h
      have e : doc = doc1 := Option.some.inj h
      rw [e]
    | cons op rest ih =>
      intro doc h
      simp only [runOperations] at h
      cases hop : op.run env doc with
      | none => rw [hop] at h; cases h
      | some doc2 =>
        rw [hop] at h
        rw [ih doc2 h]
        exact run_title env op doc doc2 hop
  exact key ops _ h

/-- C28 at a document constructed with the default title: after a heading paragraph
has been parsed, a load has failed and the legacy output `"Title\n"` has been
reconstructed, the title is still empty, and the first element is the heading
`Intro`. -/
theorem C28_title_invariant_witness :
    (WordDocument.WordDocument []).getTitle = [] ∧
    runOperations wordEnv
        [.parseParagraph (styledParagraphNode "Heading 1".toList),
         .loadFromFile "test.docx".toList,
         .extractTextFromAntiwordOutput "Title\n".toList]
        (WordDocument.WordDocument []) =
      some { title_ := [], docxPath_ := "test.docx".toList, elements_ :=
        [.Heading { text_ := "Intro".toList, level_ := 1 },
         singleTextParagraph "Title".toList] } ∧
    ({ title_ := [], docxPath_ := "test.docx".toList, elements_ :=
        [.Heading { text_ := "Intro".toList, level_ := 1 },
         singleTextParagraph "Title".toList] } : WordDocument).getTitle = [] :=
  ⟨rfl, by decide,
   C28_title_invariant wordEnv []
     [.parseParagraph (styledParagraphNode "Heading 1".toList),
      .loadFromFile "test.docx".toList,
      .extractTextFromAntiwordOutput "Title\n".toList] _ (by decide)⟩

/-! ## The reconstructor keeps the content -/

/-- Removing blanks distributes over concatenation. -/
theorem withoutBlanks_append (a b : Str) :
    withoutBlanks (a ++ b) = withoutBlanks a ++ withoutBlanks b := by
  simp [withoutBlanks]

/-- The lines of a string, put together again, are the string without its newlines. -/
theorem getLines_flatten (output : Str) :
    (getLines output).flatten = output.filter (fun c => c ≠ '\n') := by
  induction output with
  | nil => rfl
  | cons c cs ih =>
    by_cases hc : c = '\n'
    · subst hc
      simp only [getLines, if_true, List.flatten_cons, List.nil_append, ih]
      simp
    · simp only [getLines, hc, if_false]
      cases hg : getLines cs with
      | nil =>
        rw [hg] at ih
        simp only [List.flatten_cons, List.flatten_nil, List.append_nil]
        rw [List.filter_cons_of_pos (by simpa using hc), ← ih]
        rfl
      | cons l ls =>
        rw [hg] at ih
        simp only [List.flatten_cons, List.cons_append] at ih ⊢
        rw [List.filter_cons_of_pos (by simpa using hc), ← ih]

/-- The lines of a string without their blanks are the string without blanks and
newlines. -/
theorem withoutBlanks_getLines (output : Str) :
    withoutBlanks (getLines output).flatten = withoutBlanksAndNewlines output := by
  rw [getLines_flatten]
  simp only [withoutBlanks, withoutBlanksAndNewlines, List.filter_filter]
  congr 1
  funext c
  by_cases h1 : c = ' ' <;> by_cases h2 : c = '\t' <;> by_cases h3 : c = '\n' <;>
    simp [h1, h2, h3]

/-- Stripping the leading blanks of a line removes blanks only. -/
theorem withoutBlanks_dropWhile (line : Str) :
    withoutBlanks (line.dropWhile (fun c => c = ' ' || c = '\t')) = withoutBlanks line := by
  induction line with
  | nil => rfl
  | cons c cs ih =>
    by_cases hc : c = ' ' ∨ c = '\t'
    · have hb : (decide (c = ' ') || decide (c = '\t')) = true := by simpa using hc
      have hf : withoutBlanks (c :: cs) = withoutBlanks cs := by
        rcases hc with hc | hc <;> subst hc <;> simp [withoutBlanks]
      simp only [List.dropWhile, hb, ih, hf]
    · have hb : (decide (c = ' ') || decide (c = '\t')) = false := by simpa using hc
      simp only [List.dropWhile, hb]

/-- Flushing keeps the content of elements and accumulator. -/
theorem flush_content (st : WordDocument.ExtractState) (base : List DocumentElement)
    (texts : List Str) (hel : st.elements_ = base ++ texts.map singleTextParagraph) :
    (WordDocument.flush st).currentParagraph = [] ∧
    ∃ texts1 : List Str,
      (WordDocument.flush st).elements_ = base ++ texts1.map singleTextParagraph ∧
      texts1.flatten = texts.flatten ++ st.currentParagraph := by
  obtain ⟨cur, elements⟩ := st
  simp only at hel
  by_cases he : cur = []
  · subst he
    rw [flush_nil]
    exact ⟨rfl, texts, hel, by simp⟩
  · rw [flush_ne _ _ he]
    exact ⟨rfl, texts ++ [cur], by simp [hel], by simp⟩

/-- One pass of the loop body adds the line, without its blanks, to the content. -/
theorem extractLine_content (st st1 : WordDocument.ExtractState) (line : Str)
    (base : List DocumentElement) (texts : List Str)
    (hel : st.elements_ = base ++ texts.map singleTextParagraph)
    (hstep : WordDocument.extractLine st line = .ok st1) :
    ∃ texts1 : List Str, st1.elements_ = base ++ texts1.map singleTextParagraph ∧
      withoutBlanks (texts1.flatten ++ st1.currentParagraph) =
        withoutBlanks (texts.flatten ++ st.currentParagraph) ++ withoutBlanks line := by
  cases line with
  | nil =>
    have e : WordDocument.flush st = st1 := by
      simpa [WordDocument.extractLine] using hstep
    obtain ⟨h1, texts1, h2, h3⟩ := flush_content st base texts hel
    rw [← e]
    exact ⟨texts1, h2, by rw [h1, h3]; simp [withoutBlanks]⟩
  | cons c rest =>
    by_cases hc : c = ' ' ∨ c = '\t'
    · by_cases hother : ∃ d ∈ c :: rest, d ≠ ' ' ∧ d ≠ '\t'
      · rw [extractLine_indented st _ ⟨c, by simp, hc⟩ hother] at hstep
        have e := Except.ok.inj hstep
        obtain ⟨_, texts1, h2, h3⟩ := flush_content st base texts hel
        rw [← e]
        refine ⟨texts1, h2, ?_⟩
        simp only [withoutBlanks_append, withoutBlanks_dropWhile, h3]
      · have hall : ∀ d ∈ c :: rest, d = ' ' ∨ d = '\t' := by
          intro d hd
          by_contra hn
          exact hother ⟨d, hd, fun e => hn (Or.inl e), fun e => hn (Or.inr e)⟩
        rw [extractLine_all_blank st _ (by simp) hall] at hstep
        cases hstep
    · have hplain : ∀ d ∈ (c :: rest).head?, d ≠ ' ' ∧ d ≠ '\t' := by
        intro d hd
        have : c = d := by simpa using hd
        exact this ▸ ⟨fun e => hc (Or.inl e), fun e => hc (Or.inr e)⟩
      rw [extractLine_plain st _ (by simp) hplain] at hstep
      have e := Except.ok.inj hstep
      rw [← e]
      refine ⟨texts, hel, ?_⟩
      by_cases hempty : st.currentParagraph = []
      · simp [WordDocument.appendLine, hempty, withoutBlanks_append]
      · have hie : st.currentParagraph.isEmpty = false := by
          simpa [List.isEmpty_iff] using hempty
        have hsp : withoutBlanks " ".toList = [] := by decide
        simp only [WordDocument.appendLine, hie, Bool.not_false, if_true,
          withoutBlanks_append, hsp, List.append_nil, List.nil_append, List.append_assoc]

/-- The loop adds the lines, without their blanks, to the content. -/
theorem extractLoop_content (lines : List Str) (st st1 : WordDocument.ExtractState)
    (base : List DocumentElement) (texts : List Str)
    (hel : st.elements_ = base ++ texts.map singleTextParagraph)
    (hloop : WordDocument.extractLoop lines st = .ok st1) :
    ∃ texts1 : List Str, st1.elements_ = base ++ texts1.map singleTextParagraph ∧
      withoutBlanks (texts1.flatten ++ st1.currentParagraph) =
        withoutBlanks (texts.flatten ++ st.currentParagraph) ++
          withoutBlanks lines.flatten := by
  induction lines generalizing st texts with
  | nil =>
    have e : st = st1 := by simpa [WordDocument.extractLoop] using hloop
    exact e ▸ ⟨texts, hel, by simp [withoutBlanks]⟩
  | cons line rest ih =>
    simp only [WordDocument.extractLoop] at hloop
    cases hstep : WordDocument.extractLine st line with
    | error elements => rw [hstep] at hloop; cases hloop
    | ok st2 =>
      rw [hstep] at hloop
      obtain ⟨texts2, h2, h3⟩ := extractLine_content st st2 line base texts hel hstep
      obtain ⟨texts1, h4, h5⟩ := ih st2 texts2 h2 hloop
      exact ⟨texts1, h4, by
        rw [h5, h3, List.flatten_cons, withoutBlanks_append line, List.append_assoc]⟩

/-- C29: whenever `extractTextFromAntiwordOutput` returns, the texts of the paragraphs
it has appended, concatenated and with all spaces and tabs removed, are the input with
all spaces, tabs and newline characters removed. -/
theorem C29_content_preserved (output : Str) (doc doc1 : WordDocument)
    (h : WordDocument.extractTextFromAntiwordOutput output doc = .returned doc1) :
    ∃ texts : List Str,
      doc1.getElements = doc.getElements ++ texts.map singleTextParagraph ∧
      withoutBlanks texts.flatten = withoutBlanksAndNewlines output := by
  unfold WordDocument.extractTextFromAntiwordOutput at h
  cases hloop : WordDocument.extractLoop (getLines output)
      { currentParagraph := [], elements_ := doc.elements_ } with
  | error elements => rw [hloop] at h; cases h
  | ok st =>
    rw [hloop] at h
    obtain ⟨texts1, h1, h2⟩ := extractLoop_content (getLines output) _ st doc.elements_ []
      (by simp) hloop
    obtain ⟨_, texts, h3, h4⟩ := flush_content st doc.elements_ texts1 h1
    have e := Outcome.returned.inj h
    refine ⟨texts, ?_, ?_⟩
    · rw [← e]
      exact h3
    · rw [h4, h2, withoutBlanks_getLines]
      simp [withoutBlanks]

/-- C29 at the output `"a b\n  c\td\n\ne"`: the paragraphs `"a b"`, `"c\td"` and `"e"`
are appended, and both sides reduce to `"abcde"`. -/
theorem C29_content_preserved_witness :
    ∃ texts : List Str,
      [singleTextParagraph "a b".toList, singleTextParagraph "c\td".toList,
        singleTextParagraph "e".toList] = [] ++ texts.map singleTextParagraph ∧
      withoutBlanks texts.flatten = withoutBlanksAndNewlines "a b\n  c\td\n\ne".toList :=
  C29_content_preserved "a b\n  c\td\n\ne".toList {}
    { elements_ := [singleTextParagraph "a b".toList, singleTextParagraph "c\td".toList,
        singleTextParagraph "e".toList] }
    (by decide)

/-! ## `BasicConverter::convert` on tables and images -/

/-- The loop of `convert` passes over tables and images without writing. -/
theorem writeElements_filter (elements : List DocumentElement) (file : Str) :
    BasicConverter.writeElements elements file =
      BasicConverter.writeElements (withoutTablesImagesLists elements) file := by
  induction elements generalizing file with
  | nil => rfl
  | cons element rest ih =>
    cases element with
    | Text text =>
      simp only [withoutTablesImagesLists, List.filter_cons, DocumentElement.getType,
        ne_eq, reduceCtorEq, not_false_eq_true, and_self, decide_True, if_true,
        BasicConverter.writeElements, BasicConverter.writeElement]
      exact ih _
    | Paragraph para =>
      simp only [withoutTablesImagesLists, List.filter_cons, DocumentElement.getType,
        ne_eq, reduceCtorEq, not_false_eq_true, and_self, decide_True, if_true,
        BasicConverter.writeElements, BasicConverter.writeElement]
      exact ih _
    | Heading heading =>
      simp only [withoutTablesImagesLists, List.filter_cons, DocumentElement.getType,
        ne_eq, reduceCtorEq, not_false_eq_true, and_self, decide_True, if_true,
        BasicConverter.writeElements, BasicConverter.writeElement]
      cases BasicConverter.filledString heading.getLevel '#' with
      | none => rfl
      | some marks => exact ih _
    | Table table =>
      simp only [withoutTablesImagesLists, List.filter_cons, DocumentElement.getType,
        ne_eq, reduceCtorEq, not_true_eq_false, not_false_eq_true, false_and, and_false,
        decide_False, Bool.false_eq_true, if_false, BasicConverter.writeElements,
        BasicConverter.writeElement]
      exact ih _
    | Image image =>
      simp only [withoutTablesImagesLists, List.filter_cons, DocumentElement.getType,
        ne_eq, reduceCtorEq, not_true_eq_false, not_false_eq_true, false_and, and_false,
        decide_False, Bool.false_eq_true, if_false, BasicConverter.writeElements,
        BasicConverter.writeElement]
      exact ih _

/-- C30: for every document and output path, `convert` has the same result and writes
the same text as for the document with all table, image and list elements removed; a
table or an image leaves the stream as it is. -/
theorem C30_tables_and_images_not_written (canOpen : Str → Bool) (doc : Document)
    (outputPath : Str) :
    BasicConverter.convert canOpen doc outputPath =
      BasicConverter.convert canOpen
        { getTitle := doc.getTitle,
          getElements := withoutTablesImagesLists doc.getElements } outputPath ∧
    (∀ (table : TableElement) (file : Str),
      BasicConverter.writeElement (.Table table) file = some file) ∧
    (∀ (image : ImageElement) (file : Str),
      BasicConverter.writeElement (.Image image) file = some file) ∧
    (∀ element : DocumentElement, element.getType ≠ .List) ∧
    BasicConverter.convert (fun _ => true)
        { getTitle := "T".toList, getElements :=
          [.Table { rows_ := [{ cells_ := [{ text_ := "cell".toList }] }] },
           .Text { text_ := "x".toList },
           .Image { imageData_ := [1], format_ := "png".toList, width_ := 1, height_ := 1 }] }
        "out.txt".toList = (true, some "T\n\nx\n\n".toList) := by
  refine ⟨?_, fun _ _ => rfl, fun _ _ => rfl, ?_, by decide⟩
  · simp only [BasicConverter.convert, writeElements_filter doc.getElements]
  · intro element
    cases element <;> simp [DocumentElement.getType]

end DocConverter
